import Mathlib

/-! Endpoint-restricted connection pool (`connpool.go`)

A sequential shallow embedding of `connPool`.

* `gnet.Conn` is a value with a pointer identity `id` and the result of
  `RemoteAddr()` (`none` once the peer has closed the connection).
* Every `sync.Map` is an association list with unique-key operations
  `Load`, `Store`, `Delete`.  `Range` visits the keys present when the
  iteration starts, loads the value current at the visit and skips a key
  that has been deleted meanwhile.
* `connChan` is a FIFO list (head = oldest) with capacity `size`; a
  `select` with `default` is a non-blocking try-push / try-pop.
* `index` is an `atomic.Uint64`: additions wrap modulo `2^64`.
* The dialer is a function of the dial history and the dialled endpoint;
  the clock value `now` is a parameter of every operation that may call
  `markUnavailable`.
* `CloseConn` records the connection in `closedNow` (delay `<= 0`) or in
  `closedDelayed` (positive delay).
* `NewConnPool` computes with the 64-bit `int` of Go: the product
  `len(initEndpoints) * connsPerEndpoint` wraps around (`wrapInt`), the
  default size passes through `float64` (`float64OfInt`, `intOfFloat64`),
  and `make(chan T, n)` panics for a negative `n` and for an `n` above the
  largest capacity the runtime allocates (`makeChan`, the limit being the
  parameter `maxCap`).  A panic is the result `none`.
-/

namespace ConnPool

/-- A connection handle: `id` is the pointer identity, `addr` is `RemoteAddr()`. -/
structure Conn where
  id : Nat
  addr : Option String
deriving DecidableEq, Repr

/-- Go `error` values are represented by their message. -/
abbrev Err := String

def ErrInitEndpointEmpty : Err := "init endpoints is empty"
def ErrDialerIsNil : Err := "dialer is nil"
def ErrLoggerIsNil : Err := "logger is nil"
def ErrNoAvailableEndpoint : Err := "no available server endpoint"
def ErrNilRemoteAddr : Err := "new connection has nil remote address"

/-- The constant `defaultConnCloseDelay` (2 minutes, in seconds). -/
def defaultConnCloseDelay : Int := 120

/-- The `Dialer` interface: `Dial(addr)` given the endpoints dialled so far. -/
abbrev Dialer := List String → String → Except Err Conn

/-! ## `sync.Map` -/

/-- The method `sync.Map.Load`. -/
def Load {V : Type} : List (String × V) → String → Option V
  | [], _ => none
  | (k, v) :: m, a => if k = a then some v else Load m a

/-- The method `sync.Map.Delete`. -/
def Delete {V : Type} : List (String × V) → String → List (String × V)
  | [], _ => []
  | (k, v) :: m, a => if k = a then Delete m a else (k, v) :: Delete m a

/-- The method `sync.Map.Store`. -/
def Store {V : Type} (m : List (String × V)) (a : String) (v : V) : List (String × V) :=
  Delete m a ++ [(a, v)]

/-- The keys a `Range` call visits, in visiting order. -/
def Keys {V : Type} (m : List (String × V)) : List String := m.map Prod.fst

/-! ## Pool state -/

/-- The struct `connPool`, together with the observable effects on the
environment (`dialLog`, `closedNow`, `closedDelayed`). -/
structure Pool where
  connChan : List Conn
  size : Nat
  index : Nat
  endpoints : List String
  endpointMap : List (String × Unit)
  connsPerEndpoint : Int
  requiredConnNum : Int
  unavailable : List (String × Int)
  retryCounts : List (String × Int)
  endpointConnCounts : List (String × Int)
  closeOnceDone : Bool
  dialLog : List String
  closedNow : List Conn
  closedDelayed : List Conn

/-- The function `CloseConn(conn, after)`. -/
def CloseConn (conn : Conn) (after : Int) (p : Pool) : Pool :=
  if after ≤ 0 then { p with closedNow := p.closedNow ++ [conn] }
  else { p with closedDelayed := p.closedDelayed ++ [conn] }

/-- The method `connPool.NumPooled`. -/
def NumPooled (p : Pool) : Nat := p.connChan.length

/-- The method `connPool.incEndpointConnCount`. -/
def incEndpointConnCount (addr : String) (p : Pool) : Pool :=
  let count := (Load p.endpointConnCounts addr).getD 0
  { p with endpointConnCounts := Store p.endpointConnCounts addr (count + 1) }

/-- The method `connPool.decEndpointConnCount`. -/
def decEndpointConnCount (addr : String) (p : Pool) : Pool :=
  match Load p.endpointConnCounts addr with
  | none => p
  | some count =>
    if count > 0 then
      if count = 1 then { p with endpointConnCounts := Delete p.endpointConnCounts addr }
      else { p with endpointConnCounts := Store p.endpointConnCounts addr (count - 1) }
    else p

/-- The method `connPool.markUnavailable`. -/
def markUnavailable (now : Int) (ep : String) (p : Pool) : Pool :=
  { p with unavailable := Store p.unavailable ep now,
           retryCounts := Store p.retryCounts ep 0 }

/-- The probing loop of `connPool.getEndpoint`; the first argument is the
number of iterations left. -/
def getEndpointLoop (endpoints : List String) : Nat → Pool → Except Err String × Pool
  | 0, p => (.error ErrNoAvailableEndpoint, p)
  | n + 1, p =>
    let index := p.index
    let p1 := { p with index := (p.index + 1) % 2 ^ 64 }
    let ep := endpoints.getD (index % endpoints.length) ""
    if (Load p1.unavailable ep).isSome then getEndpointLoop endpoints n p1
    else (.ok ep, p1)

/-- The method `connPool.getEndpoint`. -/
def getEndpoint (p : Pool) : Except Err String × Pool :=
  if p.endpoints.length = 0 then (.error ErrNoAvailableEndpoint, p)
  else getEndpointLoop p.endpoints p.endpoints.length p

/-- The method `connPool.dialNewConn`. -/
def dialNewConn (d : Dialer) (now : Int) (ep : String) (p : Pool) : Except Err Conn × Pool :=
  let p1 := { p with dialLog := p.dialLog ++ [ep] }
  match d p.dialLog ep with
  | .error e => (.error e, markUnavailable now ep p1)
  | .ok conn => (.ok conn, p1)

/-- The method `connPool.newConn`. -/
def newConn (d : Dialer) (now : Int) (p : Pool) : Except Err Conn × Pool :=
  match getEndpoint p with
  | (.error e, p1) => (.error e, p1)
  | (.ok ep, p1) => dialNewConn d now ep p1

/-- The method `connPool.Get`. -/
def Get (d : Dialer) (now : Int) (p : Pool) : Except Err Conn × Pool :=
  match p.connChan with
  | conn :: rest => (.ok conn, { p with connChan := rest })
  | [] =>
    match newConn d now p with
    | (.error e, p1) => (.error e, p1)
    | (.ok conn, p1) =>
      match conn.addr with
      | none => (.error ErrNilRemoteAddr, CloseConn conn 0 p1)
      | some addr => (.ok conn, incEndpointConnCount addr p1)

/-- The method `connPool.put`. -/
def put (conn : Option Conn) (err : Option Err) (isNewConn : Bool) (p : Pool) : Pool :=
  match conn with
  | none => p
  | some c =>
    match c.addr with
    | none => CloseConn c defaultConnCloseDelay p
    | some addr =>
      if (Load p.endpointMap addr).isNone then CloseConn c defaultConnCloseDelay p
      else if err.isSome then CloseConn c defaultConnCloseDelay p
      else if p.connChan.length < p.size then
        let p1 := { p with connChan := p.connChan ++ [c] }
        if isNewConn then incEndpointConnCount addr p1 else p1
      else CloseConn c defaultConnCloseDelay p

/-- The method `connPool.Put`. -/
def Put (conn : Option Conn) (err : Option Err) (p : Pool) : Pool :=
  put conn err false p

/-- The refill step shared by the drain loops: a non-blocking send, closing
the connection with delay when `connChan` is full. -/
def pushBack (p : Pool) (c : Conn) : Pool :=
  if p.connChan.length < p.size then { p with connChan := p.connChan ++ [c] }
  else CloseConn c defaultConnCloseDelay p

/-- The loop `for _, chConn := range tempConns` of the drain-and-refill pattern. -/
def refill (tempConns : List Conn) (p : Pool) : Pool :=
  tempConns.foldl pushBack p

/-- The drain loop of `connPool.UpdateEndpoints`; the first argument is the
number of iterations left (`cap(p.connChan)` at the start). -/
def updateDrain (del : List String) : Nat → List Conn → Pool → List Conn × Pool
  | 0, tempConns, p => (tempConns, p)
  | n + 1, tempConns, p =>
    match p.connChan with
    | [] => (tempConns, p)
    | conn :: rest =>
      let p1 := { p with connChan := rest }
      match conn.addr with
      | none => updateDrain del n tempConns (CloseConn conn 0 p1)
      | some addr =>
        if addr ∈ del then
          updateDrain del n tempConns
            (decEndpointConnCount addr (CloseConn conn defaultConnCloseDelay p1))
        else updateDrain del n (tempConns ++ [conn]) p1

/-- The loop `for _, ep := range del` of `connPool.UpdateEndpoints`. -/
def deleteEndpoints (del : List String) (p : Pool) : Pool :=
  del.foldl (fun q ep =>
    { q with endpointMap := Delete q.endpointMap ep,
             unavailable := Delete q.unavailable ep,
             retryCounts := Delete q.retryCounts ep }) p

/-- The loop `for _, ep := range add` of `connPool.UpdateEndpoints`. -/
def addEndpoints (add : List String) (p : Pool) : Pool :=
  add.foldl (fun q ep => { q with endpointMap := Store q.endpointMap ep () }) p

/-- The method `connPool.getConnCount`. -/
def getConnCount (p : Pool) : Int :=
  (p.endpointConnCounts.map Prod.snd).sum

/-- The method `connPool.getAvailableEndpointCount`. -/
def getAvailableEndpointCount (p : Pool) : Int :=
  (p.endpoints.length : Int) - (p.unavailable.length : Int)

/-- The method `connPool.getExpectedConnPerEndpoint`; the `float64` quotients
are exact integer floor divisions (all counts are far below `2^53`). -/
def getExpectedConnPerEndpoint (p : Pool) : Int :=
  let curConnCount := getConnCount p
  if curConnCount ≤ 0 then 1
  else
    let avgConnCount := (curConnCount + p.requiredConnNum) / 2
    if avgConnCount ≤ 0 then 1
    else
      let availableEndpointCount := getAvailableEndpointCount p
      if availableEndpointCount ≤ 0 then 1
      else
        let estimatedVal := curConnCount / availableEndpointCount
        let averageVal := avgConnCount / availableEndpointCount
        let initialVal := p.connsPerEndpoint
        let result :=
          if estimatedVal < initialVal then min estimatedVal averageVal
          else max initialVal averageVal
        max 1 result

/-- The drain loop of `connPool.removeEndpointConn`; the first argument is
the number of iterations left. -/
def removeDrain (addr : String) (count : Int) :
    Nat → Int → List Conn → Pool → List Conn × Pool
  | 0, _, leftConns, p => (leftConns, p)
  | n + 1, removed, leftConns, p =>
    match p.connChan with
    | [] => (leftConns, p)
    | conn :: rest =>
      let p1 := { p with connChan := rest }
      match conn.addr with
      | none => removeDrain addr count n removed leftConns p1
      | some a =>
        if a = addr then
          let p2 := CloseConn conn defaultConnCloseDelay p1
          if removed + 1 ≥ count then (leftConns, p2)
          else removeDrain addr count n (removed + 1) leftConns p2
        else removeDrain addr count n removed (leftConns ++ [conn]) p1

/-- The method `connPool.removeEndpointConn`. -/
def removeEndpointConn (addr : String) (count : Int) (p : Pool) : Pool :=
  let r := removeDrain addr count p.size 0 [] p
  refill r.1 r.2

/-- The dial loops of `connPool.rebalance`: dial `addr` up to `n` times,
admitting each new connection and stopping at the first dial error. -/
def addConns (d : Dialer) (now : Int) (addr : String) : Nat → Pool → Pool
  | 0, p => p
  | n + 1, p =>
    match dialNewConn d now addr p with
    | (.ok conn, p1) => addConns d now addr n (put (some conn) none true p1)
    | (.error _, p1) => p1

/-- The callback of `p.endpointConnCounts.Range` in `connPool.rebalance`. -/
def rebalanceCounts (d : Dialer) (now : Int) (expected : Int) (p : Pool) (addr : String) : Pool :=
  match Load p.endpointConnCounts addr with
  | none => p
  | some currentCount =>
    if currentCount < expected then
      if (Load p.endpointMap addr).isNone then p
      else addConns d now addr (expected - currentCount).toNat p
    else if currentCount > expected then
      removeEndpointConn addr (currentCount - expected) p
    else p

/-- The callback of `p.endpointMap.Range` in `connPool.rebalance`. -/
def rebalanceMap (d : Dialer) (now : Int) (expected : Int) (p : Pool) (addr : String) : Pool :=
  match Load p.endpointMap addr with
  | none => p
  | some _ =>
    if (Load p.endpointConnCounts addr).isSome then p
    else addConns d now addr expected.toNat p

/-- The method `connPool.rebalance`. -/
def rebalance (d : Dialer) (now : Int) (p : Pool) : Pool :=
  let expectedConnPerEndpoint := getExpectedConnPerEndpoint p
  if expectedConnPerEndpoint ≤ 0 then p
  else
    let p1 := (Keys p.endpointConnCounts).foldl (rebalanceCounts d now expectedConnPerEndpoint) p
    (Keys p1.endpointMap).foldl (rebalanceMap d now expectedConnPerEndpoint) p1

/-- The body of `connPool.UpdateEndpoints` up to, and excluding, the final rebalance. -/
def updateRegistry (all add del : List String) (p : Pool) : Pool :=
  let p1 := { p with endpoints := all }
  let p2 := addEndpoints add p1
  let p3 := deleteEndpoints del p2
  if del.length > 0 then
    let r := updateDrain del p3.size [] p3
    refill r.1 r.2
  else p3

/-- The method `connPool.UpdateEndpoints`. -/
def UpdateEndpoints (d : Dialer) (now : Int) (all add del : List String) (p : Pool) : Pool :=
  if all.length = 0 then p
  else
    let p1 := updateRegistry all add del p
    if add.length > 0 ∨ del.length > 0 then rebalance d now p1 else p1

/-- The drain loop of `connPool.OnConnClosed`; the first argument is the
number of iterations left. Connections are compared by pointer identity. -/
def closedDrain (conn : Conn) : Nat → List Conn → Pool → List Conn × Pool
  | 0, tempConns, p => (tempConns, p)
  | n + 1, tempConns, p =>
    match p.connChan with
    | [] => (tempConns, p)
    | chConn :: rest =>
      let p1 := { p with connChan := rest }
      if chConn.id ≠ conn.id ∧ chConn.addr ≠ none then
        closedDrain conn n (tempConns ++ [chConn]) p1
      else closedDrain conn n tempConns p1

/-- The method `connPool.OnConnClosed`. -/
def OnConnClosed (now : Int) (conn : Conn) (err : Option Err) (p : Pool) : Pool :=
  let p1 :=
    match conn.addr with
    | some addr =>
      decEndpointConnCount addr (if err.isSome then markUnavailable now addr p else p)
    | none => p
  let r := closedDrain conn p1.size [] p1
  refill r.1 r.2

/-- The callback of `p.unavailable.Range` in `connPool.recover`; `backoff`
is `p.backoff.Next`. -/
def recoverStep (d : Dialer) (now : Int) (backoff : Int → Int)
    (acc : Bool × Pool) (key : String) : Bool × Pool :=
  match Load acc.2.unavailable key with
  | none => acc
  | some lastUnavailable =>
    let retries := (Load acc.2.retryCounts key).getD 0
    if now - lastUnavailable > backoff retries then
      let p1 := { acc.2 with dialLog := acc.2.dialLog ++ [key] }
      match d acc.2.dialLog key with
      | .ok conn =>
        let p2 := put (some conn) none true p1
        (true, { p2 with unavailable := Delete p2.unavailable key,
                         retryCounts := Delete p2.retryCounts key })
      | .error _ => (acc.1, { p1 with retryCounts := Store p1.retryCounts key (retries + 1) })
    else acc

/-- The method `connPool.recover`. -/
def recover (d : Dialer) (now : Int) (backoff : Int → Int) (p : Pool) : Bool × Pool :=
  (Keys p.unavailable).foldl (recoverStep d now backoff) (false, p)

/-- The recover branch of `connPool.recoverAndRebalance`. -/
def recoverTick (d : Dialer) (now : Int) (backoff : Int → Int) (p : Pool) : Pool :=
  let r := recover d now backoff p
  if r.1 then rebalance d now r.2 else r.2

/-- The method `connPool.Close`. -/
def Close (p : Pool) : Pool :=
  if p.closeOnceDone then p
  else { p with closeOnceDone := true, connChan := [],
                closedNow := p.closedNow ++ p.connChan }

/-- The value of an `int` expression on a 64-bit platform: the exact result
reduced to the range from `-2^63` to `2^63 - 1` by two's-complement wraparound. -/
def wrapInt (x : Int) : Int := (x + 2 ^ 63) % 2 ^ 64 - 2 ^ 63

/-- The number of low bits a conversion to `float64` drops from `n`: the
least `s` up to `fuel` with `n / 2^s < 2^53`. -/
def droppedBits (n : Nat) : Nat → Nat
  | 0 => 0
  | fuel + 1 =>
    if n / 2 ^ droppedBits n fuel < 2 ^ 53 then droppedBits n fuel else droppedBits n fuel + 1

/-- The nearest natural number with a 53-bit significand, a tie going to the
even significand: the rounding of a conversion to `float64`, for `n < 2^64`
(at most 11 bits are dropped). Numbers below `2^53` are representable as
they are. -/
def roundFloat64 (n : Nat) : Nat :=
  if n < 2 ^ 53 then n
  else
    let sh := droppedBits n 11
    let q := n / 2 ^ sh
    let r := n % 2 ^ sh
    let half := 2 ^ (sh - 1)
    (if half < r ∨ (r = half ∧ q % 2 = 1) then q + 1 else q) * 2 ^ sh

/-- The conversion `float64(x)` of an `int`. The `float64` values met in
`NewConnPool` are whole numbers and are represented by the integers they
denote. -/
def float64OfInt (x : Int) : Int :=
  if x < 0 then -(roundFloat64 x.natAbs : Int) else (roundFloat64 x.natAbs : Int)

/-- The conversion `int(f)` of a whole `float64`. For a value outside the
range of `int` the language leaves the result to the implementation; the
smallest `int` is used, as on amd64. -/
def intOfFloat64 (f : Int) : Int :=
  if -2 ^ 63 ≤ f ∧ f < 2 ^ 63 then f else -2 ^ 63

/-- The built-in `make(chan T, n)` for an interface type `T` (`gnet.Conn`,
`error`): the capacity of the new channel, or `none` for the run-time panic
`makechan: size out of range`, raised when `n` is negative or above
`maxCap`, the largest capacity the runtime is able to allocate. -/
def makeChan (maxCap n : Int) : Option Nat :=
  if n < 0 ∨ maxCap < n then none else some n.toNat

/-- The dial fan-out of `connPool.initConns`, run one dial after the other:
collects the new connections and the errors. -/
def initDial (d : Dialer) (now : Int) : Nat → Pool → List Conn × List Err × Pool
  | 0, p => ([], [], p)
  | n + 1, p =>
    match newConn d now p with
    | (.ok conn, p1) =>
      let r := initDial d now n p1
      (conn :: r.1, r.2.1, r.2.2)
    | (.error e, p1) =>
      let r := initDial d now n p1
      (r.1, e :: r.2.1, r.2.2)

/-- The method `connPool.initConns`; `none` is a run-time panic (of
`make(chan gnet.Conn, count)`). -/
def initConns (maxCap : Int) (d : Dialer) (now : Int) (count : Int) (p : Pool) :
    Option (Except Err Pool) :=
  match makeChan maxCap count with
  | none => none
  | some n =>
    let r := initDial d now n p
    match r.2.1 with
    | e :: _ => some (.error e)
    | [] => some (.ok (r.1.foldl (fun q conn => put (some conn) none true q) r.2.2))

/-- The function `NewConnPool`; `dialer` and `log` are `none` when nil, and
the result `none` is a run-time panic (of `make(chan gnet.Conn, size)` or of
`initConns`). `maxCap` is the capacity limit of `makeChan`. -/
def NewConnPool (maxCap : Int) (initEndpoints : List String) (connsPerEndpoint size : Int)
    (dialer : Option Dialer) (log : Option Unit) (now : Int) : Option (Except Err Pool) :=
  if initEndpoints.length = 0 then some (.error ErrInitEndpointEmpty)
  else
    let connsPerEndpoint := if connsPerEndpoint ≤ 0 then 1 else connsPerEndpoint
    match dialer with
    | none => some (.error ErrDialerIsNil)
    | some d =>
      match log with
      | none => some (.error ErrLoggerIsNil)
      | some _ =>
        let requiredConnNum := wrapInt ((initEndpoints.length : Int) * connsPerEndpoint)
        let size :=
          if size ≤ 0 then intOfFloat64 (max 1024 (float64OfInt requiredConnNum)) else size
        match makeChan maxCap size with
        | none => none
        | some cap =>
          let pool : Pool :=
            { connChan := [], size := cap, index := 0,
              endpoints := initEndpoints,
              endpointMap := initEndpoints.foldl (fun m e => Store m e ()) [],
              connsPerEndpoint := connsPerEndpoint,
              requiredConnNum := requiredConnNum,
              unavailable := [], retryCounts := [], endpointConnCounts := [],
              closeOnceDone := false, dialLog := [], closedNow := [], closedDelayed := [] }
          initConns maxCap d now requiredConnNum pool

/-- The pool after `n` sequential `Get` calls whose results are kept by the
callers (nothing is put back). -/
def getN (d : Dialer) (now : Int) : Nat → Pool → Pool
  | 0, p => p
  | n + 1, p => (Get d now (getN d now n p)).2

/-- The number of cursor values `t` with `c <= t < c + L` satisfying `P`. -/
def cnt (P : Nat → Bool) (c : Nat) : Nat → Nat
  | 0 => 0
  | L + 1 => (if P c then 1 else 0) + cnt P (c + 1) L

/-- The endpoint a probe reads at cursor value `t`. -/
def probeAt (p : Pool) (t : Nat) : String :=
  p.endpoints.getD (t % p.endpoints.length) ""

/-- Whether the endpoint read at cursor value `t` is not unavailable. -/
def healthyAt (p : Pool) (t : Nat) : Bool :=
  (Load p.unavailable (probeAt p t)).isNone

/-- Whether cursor value `t` reads the endpoint `e` and `e` is not unavailable. -/
def dialsAt (p : Pool) (e : String) (t : Nat) : Bool :=
  healthyAt p t && decide (probeAt p t = e)

/-! ## Operation sequences -/

/-- What a call reads from its environment: the dialer, `p.backoff.Next`
and the clock. -/
structure Env where
  dialer : Dialer
  backoff : Int → Int
  now : Int

/-- The operations on a constructed pool: the six interface methods and the
two actions of the maintenance loop. -/
inductive Op where
  | get
  | put (conn : Option Conn) (err : Option Err)
  | onConnClosed (conn : Conn) (err : Option Err)
  | updateEndpoints (all add del : List String)
  | recover
  | rebalance
  | close

/-- One operation applied to the pool. -/
def step (env : Env) : Op → Pool → Pool
  | .get, p => (Get env.dialer env.now p).2
  | .put conn err, p => Put conn err p
  | .onConnClosed conn err, p => OnConnClosed env.now conn err p
  | .updateEndpoints all add del, p => UpdateEndpoints env.dialer env.now all add del p
  | .recover, p => (recover env.dialer env.now env.backoff p).2
  | .rebalance, p => rebalance env.dialer env.now p
  | .close, p => Close p

/-- A sequence of operations, each with its own environment, applied in order. -/
def run : List (Env × Op) → Pool → Pool
  | [], p => p
  | (env, op) :: ops, p => run ops (step env op p)

/-- The queue holds at most `cap(connChan)` connections. -/
def Bounded (p : Pool) : Prop := p.connChan.length ≤ p.size

/-- The relation between the pool before and after a piece of `rebalance`:
the registry, the cursor and the configuration are untouched, the queue
stays within its capacity, every queued connection was queued before or has
an address in `endpointMap`, the health and count records of addresses
outside `endpointMap` are untouched, and delayed closes are only added. -/
structure Evolves (p q : Pool) : Prop where
  size : q.size = p.size
  endpoints : q.endpoints = p.endpoints
  endpointMap : q.endpointMap = p.endpointMap
  index : q.index = p.index
  closedNow : q.closedNow = p.closedNow
  closeOnceDone : q.closeOnceDone = p.closeOnceDone
  connsPerEndpoint : q.connsPerEndpoint = p.connsPerEndpoint
  requiredConnNum : q.requiredConnNum = p.requiredConnNum
  bounded : Bounded p → Bounded q
  queued : ∀ c, c ∈ q.connChan →
    c ∈ p.connChan ∨ ∃ a, c.addr = some a ∧ (Load p.endpointMap a).isSome = true
  outside : ∀ e, Load p.endpointMap e = none →
    Load q.unavailable e = Load p.unavailable e ∧
    Load q.retryCounts e = Load p.retryCounts e ∧
    Load q.endpointConnCounts e = Load p.endpointConnCounts e
  closedDelayed : ∃ l, q.closedDelayed = p.closedDelayed ++ l

/-- The effect of one `decEndpointConnCount` on the stored count of its address. -/
def decVal : Option Int → Option Int
  | none => none
  | some count => if count > 0 then (if count = 1 then none else some (count - 1)) else some count

/-- The relation between the pool before and after a piece of the recovery
sweep: capacity and membership set are untouched, the queue and the delayed
closes only get longer at the tail, and no per-endpoint count decreases. -/
structure Grows (p q : Pool) : Prop where
  size : q.size = p.size
  endpointMap : q.endpointMap = p.endpointMap
  queue : ∃ l, q.connChan = p.connChan ++ l
  closedDelayed : ∃ l, q.closedDelayed = p.closedDelayed ++ l
  counts : ∀ a, (Load p.endpointConnCounts a).getD 0 ≤ (Load q.endpointConnCounts a).getD 0

/-- A call on the connection inventory. -/
inductive InvOp where
  | inc (addr : String)
  | dec (addr : String)

/-- One inventory call applied to the pool. -/
def invStep (p : Pool) : InvOp → Pool
  | .inc addr => incEndpointConnCount addr p
  | .dec addr => decEndpointConnCount addr p

/-- A sequence of inventory calls applied in order. -/
def invRun (ops : List InvOp) (p : Pool) : Pool := ops.foldl invStep p

/-- The number of unmatched `inc(e)` calls after `ops`, starting from `d`;
`none` when some `dec(e)` has no unmatched `inc(e)` before it. Calls on
other addresses are ignored. -/
def depth (e : String) : List InvOp → Nat → Option Nat
  | [], d => some d
  | .inc a :: ops, d => if a = e then depth e ops (d + 1) else depth e ops d
  | .dec a :: ops, d =>
    if a = e then (if d = 0 then none else depth e ops (d - 1)) else depth e ops d

/-- The stored entry for a count of `d` connections: absent for zero. -/
def ofDepth (d : Nat) : Option Int := if d = 0 then none else some (d : Int)

/-- The pool value `NewConnPool` builds before `initConns` runs, from the
normalised `connsPerEndpoint`, the computed `requiredConnNum` and the
capacity of the new channel. -/
def initialPool (initEndpoints : List String) (connsPerEndpoint requiredConnNum : Int)
    (cap : Nat) : Pool :=
  { connChan := [], size := cap, index := 0,
    endpoints := initEndpoints,
    endpointMap := initEndpoints.foldl (fun m e => Store m e ()) [],
    connsPerEndpoint := connsPerEndpoint,
    requiredConnNum := requiredConnNum,
    unavailable := [], retryCounts := [], endpointConnCounts := [],
    closeOnceDone := false, dialLog := [], closedNow := [], closedDelayed := [] }

/-- The endpoint at round-robin position `k` of `initEndpoints`: the target
of the dial number `k` (counted from 0) of the initial fan-out as long as no
earlier dial has failed. -/
def fanoutTarget (initEndpoints : List String) (k : Nat) : String :=
  initEndpoints.getD (k % initEndpoints.length) ""

/-- The endpoints dialled before the dial number `k` of the initial fan-out
as long as none has failed: the round-robin positions `0 .. k-1`. -/
def fanoutLog (initEndpoints : List String) (k : Nat) : List String :=
  (List.range k).map (fanoutTarget initEndpoints)

/-! ## Fixtures -/

/-- A fake dialer: always succeeds, the remote address of the new connection
is the dialled string and its identity is the number of earlier dials. -/
def echoDialer : Dialer := fun log ep => .ok ⟨log.length, some ep⟩

/-- A fake dialer that fails for `"b:1"` and behaves like `echoDialer` otherwise. -/
def failBDialer : Dialer := fun log ep =>
  if ep = "b:1" then .error "connection refused" else .ok ⟨log.length, some ep⟩

/-- A fake dialer returning connections whose remote address is absent. -/
def nilAddrDialer : Dialer := fun log _ => .ok ⟨log.length, none⟩

/-- A pool over the endpoints `a:1`, `b:1` with the given queue, cursor,
unavailable map and per-endpoint counts; capacity 16, two connections per endpoint. -/
def mkPool (connChan : List Conn) (index : Nat) (unavailable : List (String × Int))
    (endpointConnCounts : List (String × Int)) : Pool :=
  { connChan := connChan, size := 16, index := index,
    endpoints := ["a:1", "b:1"],
    endpointMap := [("a:1", ()), ("b:1", ())],
    connsPerEndpoint := 2, requiredConnNum := 4,
    unavailable := unavailable, retryCounts := unavailable.map (fun x => (x.1, 0)),
    endpointConnCounts := endpointConnCounts,
    closeOnceDone := false, dialLog := [], closedNow := [], closedDelayed := [] }

/-- A pool over three endpoints whose cursor holds the largest `uint64`
value, with `a:1` and `b:1` unavailable and `c:1` healthy. -/
def wrapPool : Pool :=
  { connChan := [], size := 16, index := 2 ^ 64 - 1,
    endpoints := ["a:1", "b:1", "c:1"],
    endpointMap := [("a:1", ()), ("b:1", ()), ("c:1", ())],
    connsPerEndpoint := 1, requiredConnNum := 3,
    unavailable := [("a:1", 0), ("b:1", 0)], retryCounts := [("a:1", 0), ("b:1", 0)],
    endpointConnCounts := [],
    closeOnceDone := false, dialLog := [], closedNow := [], closedDelayed := [] }

/-- The pool `wrapPool` with no endpoint unavailable. -/
def wrapPoolHealthy : Pool :=
  { wrapPool with unavailable := [], retryCounts := [] }

/-- The pool of the basic scenario: endpoints `a:1`, `b:1`, two connections
per endpoint, capacity 16, built with `echoDialer` on a runtime whose
channels hold up to `2^44` connections. -/
def scenarioPool : Pool :=
  match NewConnPool (2 ^ 44) ["a:1", "b:1"] 2 16 (some echoDialer) (some ()) 0 with
  | some (.ok p) => p
  | _ => mkPool [] 0 [] []

/-- An environment with `echoDialer`, a constant backoff of 10 and clock value 100. -/
def echoEnv : Env := { dialer := echoDialer, backoff := fun _ => 10, now := 100 }

/-- A fake dialer whose connections always report the remote address `b:1`,
whatever endpoint was dialled. -/
def crossDialer : Dialer := fun log _ => .ok ⟨log.length, some "b:1"⟩

/-- A pool over `a:1`, `c:1` with an empty queue, one connection counted for
`a:1` and five for `c:1`. -/
def crossPool : Pool :=
  { connChan := [], size := 16, index := 0,
    endpoints := ["a:1", "c:1"],
    endpointMap := [("a:1", ()), ("c:1", ())],
    connsPerEndpoint := 2, requiredConnNum := 4,
    unavailable := [], retryCounts := [],
    endpointConnCounts := [("a:1", 1), ("c:1", 5)],
    closeOnceDone := false, dialLog := [], closedNow := [], closedDelayed := [] }

/-! ## Lemmas on `sync.Map` -/

theorem load_append {V : Type} (m n : List (String × V)) (a : String) :
    Load (m ++ n) a = match Load m a with
      | some v => some v
      | none => Load n a := by
  induction m with
  | nil => simp [Load]
  | cons x m ih =>
    obtain ⟨k, v⟩ := x
    by_cases h : k = a <;> simp [Load, h, ih]

theorem load_delete {V : Type} (m : List (String × V)) (k a : String) :
    Load (Delete m k) a = if k = a then none else Load m a := by
  induction m with
  | nil => simp [Load, Delete]
  | cons x m ih =>
    obtain ⟨k', v⟩ := x
    by_cases h : k' = k
    · subst h
      by_cases h2 : k' = a
      · subst h2
        simpa [Load, Delete] using ih
      · simp [Load, Delete, h2, ih]
    · by_cases h2 : k' = a
      · subst h2
        have h3 : ¬ k = k' := fun e => h e.symm
        simp [Load, Delete, h, h3]
      · simp [Load, Delete, h, h2, ih]

theorem load_store {V : Type} (m : List (String × V)) (k a : String) (v : V) :
    Load (Store m k v) a = if k = a then some v else Load m a := by
  unfold Store
  rw [load_append, load_delete]
  by_cases h : k = a
  · simp [h, Load]
  · simp only [h, if_false]
    cases hl : Load m a <;> simp [Load, h]

/-! ## Put -/

/-- C1. Decision table of `Put`: the connection is appended to the tail of
`connChan` exactly when its remote address is present and in `endpointMap`,
`err` is nil and the queue holds fewer than `size` connections; otherwise
the queue is unchanged and the connection goes to the delayed close.  `Put`
never changes the per-endpoint counts; `put(conn, nil, true)` adds exactly
one to the count of the connection's address, and only when it enqueues. -/
theorem put_decision_table (p : Pool) (c : Conn) (err : Option Err) :
    ((Put (some c) err p).connChan =
        if (c.addr.bind (Load p.endpointMap)).isSome = true ∧ err = none
            ∧ p.connChan.length < p.size
        then p.connChan ++ [c] else p.connChan) ∧
    ((Put (some c) err p).closedDelayed =
        if (c.addr.bind (Load p.endpointMap)).isSome = true ∧ err = none
            ∧ p.connChan.length < p.size
        then p.closedDelayed else p.closedDelayed ++ [c]) ∧
    (Put (some c) err p).closedNow = p.closedNow ∧
    (Put (some c) err p).endpointConnCounts = p.endpointConnCounts ∧
    ((put (some c) none true p).connChan =
        if (c.addr.bind (Load p.endpointMap)).isSome = true ∧ p.connChan.length < p.size
        then p.connChan ++ [c] else p.connChan) ∧
    (∀ a : String, Load (put (some c) none true p).endpointConnCounts a =
        if ((c.addr.bind (Load p.endpointMap)).isSome = true ∧ p.connChan.length < p.size)
            ∧ c.addr = some a
        then some ((Load p.endpointConnCounts a).getD 0 + 1)
        else Load p.endpointConnCounts a) := by
  have hd : ¬ (defaultConnCloseDelay ≤ 0) := by decide
  cases hc : c.addr with
  | none =>
    simp [Put, put, hc, CloseConn, hd]
  | some addr =>
    cases hm : Load p.endpointMap addr with
    | none => simp [Put, put, hc, hm, CloseConn, hd]
    | some u =>
      by_cases hlen : p.connChan.length < p.size
      · cases err with
        | none =>
          simp only [Put, put, hc, hm, hlen, incEndpointConnCount]
          simp [load_store, hm]
          intro a
          by_cases ha : addr = a
          · subst ha; simp
          · simp [ha]
        | some e =>
          simp only [Put, put, hc, hm, hlen, incEndpointConnCount, CloseConn, hd]
          simp [load_store, hm]
          intro a
          by_cases ha : addr = a
          · subst ha; simp
          · simp [ha]
      · cases err with
        | none => simp [Put, put, hc, hm, hlen, CloseConn, hd]
        | some e => simp [Put, put, hc, hm, hlen, CloseConn, hd]

/-! ## Get -/

theorem getEndpointLoop_frame (eps : List String) (n : Nat) (p : Pool) :
    (getEndpointLoop eps n p).2 = { p with index := (getEndpointLoop eps n p).2.index } := by
  induction n generalizing p with
  | zero => simp [getEndpointLoop]
  | succ n ih =>
    simp only [getEndpointLoop]
    split
    · rw [ih]
    · rfl

theorem getEndpoint_frame (p : Pool) :
    (getEndpoint p).2 = { p with index := (getEndpoint p).2.index } := by
  unfold getEndpoint
  split
  · rfl
  · exact getEndpointLoop_frame _ _ _

/-- C2. Get/Put cycle: whenever `connChan` is non-empty, `Get` returns the
oldest connection with no error, dials nothing, leaves the counts, the
unavailable map, the retry counts and the cursor unchanged (the queue is the
only field that changes) and takes exactly one connection out of the queue;
a following `Put(conn, nil)` of that connection, its address being present
and in `endpointMap` and the queue having been within its capacity, restores
`NumPooled()` with the connection at the tail. -/
theorem get_put_cycle (d : Dialer) (now : Int) (p : Pool) (c : Conn)
    (hhead : p.connChan.head? = some c) :
    ((Get d now p).1 = .ok c ∧
      (Get d now p).2 = { p with connChan := p.connChan.tail } ∧
      (Get d now p).2.connChan = p.connChan.tail ∧
      (Get d now p).2.dialLog = p.dialLog ∧
      (Get d now p).2.endpointConnCounts = p.endpointConnCounts ∧
      (Get d now p).2.unavailable = p.unavailable ∧
      (Get d now p).2.retryCounts = p.retryCounts ∧
      (Get d now p).2.index = p.index ∧
      NumPooled (Get d now p).2 + 1 = NumPooled p) ∧
    (∀ a, c.addr = some a → (Load p.endpointMap a).isSome = true →
      p.connChan.length ≤ p.size →
      NumPooled (Put (some c) none (Get d now p).2) = NumPooled p ∧
      (Put (some c) none (Get d now p).2).connChan = p.connChan.tail ++ [c]) := by
  cases hq : p.connChan with
  | nil => simp [hq] at hhead
  | cons x rest =>
    simp only [hq, List.head?_cons, Option.some.injEq] at hhead
    subst hhead
    refine ⟨?_, ?_⟩
    · simp [Get, hq, NumPooled]
    · intro a haddr hmem hcap
      have hlen : rest.length < p.size := by
        simp only [List.length_cons] at hcap
        omega
      obtain ⟨u, hu⟩ := Option.isSome_iff_exists.mp hmem
      simp [Get, hq, NumPooled, Put, put, haddr, hu, hlen]

theorem get_put_cycle_witness :
    ((Get echoDialer 0 (mkPool [⟨1, none⟩, ⟨2, some "b:1"⟩] 0 [] [])).1 = .ok ⟨1, none⟩ ∧
      NumPooled (Get echoDialer 0 (mkPool [⟨1, none⟩, ⟨2, some "b:1"⟩] 0 [] [])).2 + 1 = 2) ∧
    ((Get echoDialer 0 (mkPool [⟨1, some "a:1"⟩, ⟨2, some "b:1"⟩] 0 [] [])).1
        = .ok ⟨1, some "a:1"⟩ ∧
      NumPooled (Put (some ⟨1, some "a:1"⟩) none
        (Get echoDialer 0 (mkPool [⟨1, some "a:1"⟩, ⟨2, some "b:1"⟩] 0 [] [])).2) = 2) :=
  have g := get_put_cycle echoDialer 0 (mkPool [⟨1, none⟩, ⟨2, some "b:1"⟩] 0 [] [])
    ⟨1, none⟩ rfl
  have h := get_put_cycle echoDialer 0 (mkPool [⟨1, some "a:1"⟩, ⟨2, some "b:1"⟩] 0 [] [])
    ⟨1, some "a:1"⟩ rfl
  ⟨⟨g.1.1, g.1.2.2.2.2.2.2.2.2⟩, ⟨h.1.1, (h.2 "a:1" rfl (by decide) (by decide)).1⟩⟩

/-- C3. `Get` on an empty queue, the selector yielding `ep`: (a) a
successful dial whose connection has remote address `a` is returned, the
count of `a` grows by exactly one and the queue stays empty; (b) a
successful dial whose connection has no remote address is closed with zero
delay, `Get` fails and the counts are unchanged; (c) a failed dial makes
`Get` return the dialer's error, records `ep` as unavailable at `now` with
retry count 0, and leaves the counts and the queue unchanged. -/
theorem get_empty_queue (d : Dialer) (now : Int) (p : Pool) (ep : String)
    (hq : p.connChan = []) (hep : (getEndpoint p).1 = .ok ep) :
    (Get d now p).2.dialLog = p.dialLog ++ [ep] ∧
    (∀ conn a, d p.dialLog ep = .ok conn → conn.addr = some a →
      (Get d now p).1 = .ok conn ∧
      (∀ b, Load (Get d now p).2.endpointConnCounts b =
        if a = b then some ((Load p.endpointConnCounts a).getD 0 + 1)
        else Load p.endpointConnCounts b) ∧
      (Get d now p).2.connChan = [] ∧
      (Get d now p).2.closedNow = p.closedNow ∧
      (Get d now p).2.closedDelayed = p.closedDelayed ∧
      (Get d now p).2.unavailable = p.unavailable) ∧
    (∀ conn, d p.dialLog ep = .ok conn → conn.addr = none →
      (Get d now p).1 = .error ErrNilRemoteAddr ∧
      (Get d now p).2.closedNow = p.closedNow ++ [conn] ∧
      (Get d now p).2.closedDelayed = p.closedDelayed ∧
      (Get d now p).2.endpointConnCounts = p.endpointConnCounts ∧
      (Get d now p).2.connChan = []) ∧
    (∀ e, d p.dialLog ep = .error e →
      (Get d now p).1 = .error e ∧
      Load (Get d now p).2.unavailable ep = some now ∧
      Load (Get d now p).2.retryCounts ep = some 0 ∧
      (Get d now p).2.endpointConnCounts = p.endpointConnCounts ∧
      (Get d now p).2.connChan = [] ∧
      (Get d now p).2.closedNow = p.closedNow ∧
      (Get d now p).2.closedDelayed = p.closedDelayed) := by
  have hf := getEndpoint_frame p
  cases hg : getEndpoint p with
  | mk r q =>
    rw [hg] at hf hep
    simp only at hf hep
    subst hep
    have hlog : q.dialLog = p.dialLog := by rw [hf]
    have hinv : q.endpointConnCounts = p.endpointConnCounts := by rw [hf]
    have hch : q.connChan = [] := by rw [hf]; exact hq
    have hcn : q.closedNow = p.closedNow := by rw [hf]
    have hcd : q.closedDelayed = p.closedDelayed := by rw [hf]
    have hu : q.unavailable = p.unavailable := by rw [hf]
    refine ⟨?_, ?_, ?_, ?_⟩
    · simp only [Get, hq, newConn, hg, dialNewConn, hlog]
      cases hd : d p.dialLog ep with
      | error e => simp [markUnavailable, hlog]
      | ok conn =>
        cases ha : conn.addr with
        | none => simp [ha, CloseConn, hlog]
        | some a => simp [ha, incEndpointConnCount, hlog]
    · intro conn a hd ha
      simp only [Get, hq, newConn, hg, dialNewConn, hlog, hd, ha, incEndpointConnCount]
      simp [load_store, hinv, hch, hcn, hcd, hu]
    · intro conn hd ha
      simp only [Get, hq, newConn, hg, dialNewConn, hlog, hd, ha, CloseConn]
      simp [hinv, hch, hcn, hcd]
    · intro e hd
      simp only [Get, hq, newConn, hg, dialNewConn, hlog, hd, markUnavailable]
      simp [load_store, hinv, hch, hcn, hcd]

theorem get_empty_queue_witness :
    (Get failBDialer 7 (mkPool [] 1 [] [])).1 = .error "connection refused" ∧
    Load (Get failBDialer 7 (mkPool [] 1 [] [])).2.unavailable "b:1" = some 7 ∧
    Load (Get failBDialer 7 (mkPool [] 1 [] [])).2.retryCounts "b:1" = some 0 :=
  have h := (get_empty_queue failBDialer 7 (mkPool [] 1 [] []) "b:1" rfl rfl).2.2.2
    "connection refused" rfl
  ⟨h.1, h.2.1, h.2.2.1⟩

/-! ## Round-robin selector -/

theorem getEndpointLoop_spec (eps : List String) (k : Nat) (p : Pool)
    (h : p.index + k < 2 ^ 64) :
    (∃ j, j < k ∧
      (getEndpointLoop eps k p).1 = .ok (eps.getD ((p.index + j) % eps.length) "") ∧
      Load p.unavailable (eps.getD ((p.index + j) % eps.length) "") = none ∧
      (∀ i, i < j →
        (Load p.unavailable (eps.getD ((p.index + i) % eps.length) "")).isSome = true) ∧
      (getEndpointLoop eps k p).2.index = p.index + j + 1) ∨
    ((getEndpointLoop eps k p).1 = .error ErrNoAvailableEndpoint ∧
      (∀ i, i < k →
        (Load p.unavailable (eps.getD ((p.index + i) % eps.length) "")).isSome = true) ∧
      (getEndpointLoop eps k p).2.index = p.index + k) := by
  induction k generalizing p with
  | zero =>
    right
    simp [getEndpointLoop]
  | succ k ih =>
    have hmod : (p.index + 1) % 2 ^ 64 = p.index + 1 := Nat.mod_eq_of_lt (by omega)
    simp only [getEndpointLoop, hmod]
    cases hl : Load p.unavailable (eps.getD (p.index % eps.length) "") with
    | none =>
      left
      refine ⟨0, by omega, ?_, ?_, ?_, ?_⟩
      · simp [hl]
      · simpa using hl
      · intro i hi; omega
      · simp [hl]
    | some t =>
      simp only [Option.isSome_some, if_true]
      have h1 : ({ p with index := p.index + 1 } : Pool).index + k < 2 ^ 64 := by
        simp only; omega
      rcases ih { p with index := p.index + 1 } h1 with ⟨j, hj, hr, hn, hall, hidx⟩ | ⟨hr, hall, hidx⟩
      · left
        refine ⟨j + 1, by omega, ?_, ?_, ?_, ?_⟩
        · rw [hr]; simp only; rw [show p.index + 1 + j = p.index + (j + 1) by omega]
        · simp only at hn; rw [show p.index + (j + 1) = p.index + 1 + j by omega]; exact hn
        · intro i hi
          cases i with
          | zero => rw [Nat.add_zero, hl]; rfl
          | succ i =>
            have := hall i (by omega)
            simp only at this
            rw [show p.index + (i + 1) = p.index + 1 + i by omega]; exact this
        · rw [hidx]; simp only; omega
      · right
        refine ⟨hr, ?_, ?_⟩
        · intro i hi
          cases i with
          | zero => rw [Nat.add_zero, hl]; rfl
          | succ i =>
            have := hall i (by omega)
            simp only at this
            rw [show p.index + (i + 1) = p.index + 1 + i by omega]; exact this
        · rw [hidx]; simp only; omega

theorem probe_covers (eps : List String) (c : Nat) (x : String) (hx : x ∈ eps) :
    ∃ i, i < eps.length ∧ eps.getD ((c + i) % eps.length) "" = x := by
  obtain ⟨t, ht, hxt⟩ := List.getElem_of_mem hx
  have hr : c % eps.length < eps.length := Nat.mod_lt _ (by omega)
  refine ⟨(t + (eps.length - c % eps.length)) % eps.length, Nat.mod_lt _ (by omega), ?_⟩
  have hpos : (c + (t + (eps.length - c % eps.length)) % eps.length) % eps.length = t := by
    rw [Nat.add_mod_mod, Nat.add_mod, Nat.add_mod_mod]
    rw [show c % eps.length + (t + (eps.length - c % eps.length)) = t + eps.length by omega]
    rw [Nat.add_mod_right, Nat.mod_eq_of_lt ht]
  rw [hpos, List.getD_eq_getElem _ _ ht, hxt]

theorem probe_mem (eps : List String) (m : Nat) (h : eps ≠ []) :
    eps.getD (m % eps.length) "" ∈ eps := by
  have hlen : 0 < eps.length := List.length_pos.mpr h
  rw [List.getD_eq_getElem _ _ (Nat.mod_lt _ hlen)]
  exact List.getElem_mem _

/-- C4, as stated, fails when the `uint64` cursor wraps during the probes:
with cursor `2^64 - 1` over `[a:1, b:1, c:1]` the three probes read the
positions 0, 0, 1, so `getEndpoint` fails although `c:1` is not unavailable. -/
theorem getEndpoint_wraparound_counterexample :
    (getEndpoint wrapPool).1 = .error ErrNoAvailableEndpoint ∧
    "c:1" ∈ wrapPool.endpoints ∧ Load wrapPool.unavailable "c:1" = none ∧
    (getEndpoint wrapPool).2.index = 2 := by
  refine ⟨rfl, by decide, rfl, rfl⟩

/-- C4 (amended). Whenever the cursor does not wrap during the probes
(`index + |s| < 2^64`): `getEndpoint` fails, with `ErrNoAvailableEndpoint`,
exactly when the snapshot is empty or all its elements are unavailable;
otherwise it returns `s[(index + j) mod |s|]` for the least `j < |s|` whose
endpoint is not unavailable and advances the cursor by `j + 1`; on failure
with a non-empty snapshot the cursor advances by `|s|`.  Nothing but the
cursor changes. -/
theorem getEndpoint_round_robin (p : Pool)
    (h : p.index + p.endpoints.length < 2 ^ 64) :
    ((getEndpoint p).1 = .error ErrNoAvailableEndpoint ↔
      (p.endpoints = [] ∨ ∀ x ∈ p.endpoints, (Load p.unavailable x).isSome = true)) ∧
    (¬ (p.endpoints = [] ∨ ∀ x ∈ p.endpoints, (Load p.unavailable x).isSome = true) →
      ∃ j, j < p.endpoints.length ∧
        (getEndpoint p).1 = .ok (p.endpoints.getD ((p.index + j) % p.endpoints.length) "") ∧
        p.endpoints.getD ((p.index + j) % p.endpoints.length) "" ∈ p.endpoints ∧
        Load p.unavailable (p.endpoints.getD ((p.index + j) % p.endpoints.length) "") = none ∧
        (∀ i, i < j → (Load p.unavailable
          (p.endpoints.getD ((p.index + i) % p.endpoints.length) "")).isSome = true) ∧
        (getEndpoint p).2.index = p.index + j + 1) ∧
    (p.endpoints ≠ [] → (∀ x ∈ p.endpoints, (Load p.unavailable x).isSome = true) →
      (getEndpoint p).2.index = p.index + p.endpoints.length) ∧
    (p.endpoints = [] → (getEndpoint p).2.index = p.index) ∧
    (getEndpoint p).2 = { p with index := (getEndpoint p).2.index } := by
  refine ⟨?_, ?_, ?_, ?_, getEndpoint_frame p⟩
  · by_cases he : p.endpoints = []
    · simp [getEndpoint, he]
    · have hlen : ¬ p.endpoints.length = 0 := fun h0 => he (List.length_eq_zero.mp h0)
      simp only [getEndpoint, hlen, if_false, he, false_or]
      rcases getEndpointLoop_spec p.endpoints p.endpoints.length p h with
        ⟨j, hj, hr, hn, _, _⟩ | ⟨hr, hall, _⟩
      · constructor
        · intro herr; rw [hr] at herr; cases herr
        · intro hall
          have := hall _ (probe_mem p.endpoints (p.index + j) he)
          rw [hn] at this; cases this
      · constructor
        · intro _ x hx
          obtain ⟨i, hi, hxi⟩ := probe_covers p.endpoints p.index x hx
          rw [← hxi]; exact hall i hi
        · intro _; exact hr
  · intro hne
    have he : p.endpoints ≠ [] := fun h0 => hne (Or.inl h0)
    have hlen : ¬ p.endpoints.length = 0 := fun h0 => he (List.length_eq_zero.mp h0)
    simp only [getEndpoint, hlen, if_false]
    rcases getEndpointLoop_spec p.endpoints p.endpoints.length p h with
      ⟨j, hj, hr, hn, hall, hidx⟩ | ⟨hr, hall, _⟩
    · exact ⟨j, hj, hr, probe_mem p.endpoints (p.index + j) he, hn, hall, hidx⟩
    · exfalso
      apply hne
      right
      intro x hx
      obtain ⟨i, hi, hxi⟩ := probe_covers p.endpoints p.index x hx
      rw [← hxi]; exact hall i hi
  · intro he hall
    have hlen : ¬ p.endpoints.length = 0 := fun h0 => he (List.length_eq_zero.mp h0)
    simp only [getEndpoint, hlen, if_false]
    rcases getEndpointLoop_spec p.endpoints p.endpoints.length p h with
      ⟨j, hj, hr, hn, _, _⟩ | ⟨_, _, hidx⟩
    · have := hall _ (probe_mem p.endpoints (p.index + j) he)
      rw [hn] at this; cases this
    · exact hidx
  · intro he
    simp [getEndpoint, he]

theorem getEndpoint_round_robin_witness :
    (mkPool [] 0 [("a:1", 5)] []).index + (mkPool [] 0 [("a:1", 5)] []).endpoints.length
        < 2 ^ 64 ∧
    ((mkPool [] 0 [("a:1", 5)] []).endpoints ≠ [] →
      (∀ x ∈ (mkPool [] 0 [("a:1", 5)] []).endpoints,
        (Load (mkPool [] 0 [("a:1", 5)] []).unavailable x).isSome = true) →
      (getEndpoint (mkPool [] 0 [("a:1", 5)] [])).2.index
        = (mkPool [] 0 [("a:1", 5)] []).index
          + (mkPool [] 0 [("a:1", 5)] []).endpoints.length) :=
  ⟨by decide, (getEndpoint_round_robin (mkPool [] 0 [("a:1", 5)] []) (by decide)).2.2.1⟩

/-! ## Counting cursor positions -/

theorem cnt_add (P : Nat → Bool) (c L1 L2 : Nat) :
    cnt P c (L1 + L2) = cnt P c L1 + cnt P (c + L1) L2 := by
  induction L1 generalizing c with
  | zero => simp [cnt]
  | succ L1 ih =>
    rw [show L1 + 1 + L2 = (L1 + L2) + 1 by omega]
    simp only [cnt]
    rw [ih, show c + 1 + L1 = c + (L1 + 1) by omega]
    omega

theorem cnt_le_of_imp (P Q : Nat → Bool) (h : ∀ t, P t = true → Q t = true) (c L : Nat) :
    cnt P c L ≤ cnt Q c L := by
  induction L generalizing c with
  | zero => simp [cnt]
  | succ L ih =>
    simp only [cnt]
    have := ih (c + 1)
    by_cases hp : P c = true
    · simp [hp, h c hp, this]
    · by_cases hq : Q c = true <;> simp [hp, hq] <;> omega

theorem cnt_congr (P Q : Nat → Bool) (c L : Nat)
    (h : ∀ t, c ≤ t → t < c + L → P t = Q t) : cnt P c L = cnt Q c L := by
  induction L generalizing c with
  | zero => simp [cnt]
  | succ L ih =>
    simp only [cnt]
    rw [h c (le_refl _) (by omega), ih (c + 1) (fun t h1 h2 => h t (by omega) (by omega))]

theorem cnt_shift (P : Nat → Bool) (a c L : Nat) :
    cnt P (c + a) L = cnt (fun t => P (t + a)) c L := by
  induction L generalizing c with
  | zero => simp [cnt]
  | succ L ih =>
    simp only [cnt]
    rw [show c + a + 1 = (c + 1) + a by omega, ih]

theorem cnt_periodic (P : Nat → Bool) (n0 : Nat) (hper : ∀ t, P (t + n0) = P t) (c : Nat) :
    cnt P c n0 = cnt P 0 n0 := by
  induction c with
  | zero => rfl
  | succ c ih =>
    have h1 : cnt P c (1 + n0) = (if P c then 1 else 0) + cnt P (c + 1) n0 := by
      rw [cnt_add]; simp [cnt]
    have h2 : cnt P c (n0 + 1) = cnt P c n0 + (if P (c + n0) then 1 else 0) := by
      rw [cnt_add]; simp [cnt]
    rw [Nat.add_comm 1 n0, h2, hper c] at h1
    omega

theorem cnt_last (P : Nat → Bool) (c j : Nat)
    (hlt : ∀ i, i < j → P (c + i) = false) :
    cnt P c (j + 1) = if P (c + j) then 1 else 0 := by
  induction j generalizing c with
  | zero => simp [cnt]
  | succ j ih =>
    have h0 : P c = false := by simpa using hlt 0 (by omega)
    have := ih (c + 1) (fun i hi => by
      rw [show c + 1 + i = c + (i + 1) by omega]; exact hlt (i + 1) (by omega))
    rw [cnt, h0, this, show c + 1 + j = c + (j + 1) by omega]; simp

theorem cnt_getD (f : String → Bool) (s : List String) :
    cnt (fun t => f (s.getD t "")) 0 s.length = s.countP f := by
  induction s with
  | nil => simp [cnt]
  | cons x s ih =>
    simp only [List.length_cons, cnt, List.countP_cons]
    have h := cnt_shift (fun t => f ((x :: s).getD t "")) 1 0 s.length
    simp only [Nat.zero_add] at h
    rw [h]
    simp only [List.getD_cons_succ, List.getD_cons_zero]
    rw [ih]
    by_cases hx : f x = true
    · simp [hx]; omega
    · simp [hx]

/-- Counting over residues: if over every full period `H` holds `k` times
and `Q` once, and `Q` implies `H`, then over any interval the number of `Q`
positions lies between the floor and the ceiling of the number of `H`
positions divided by `k`. -/
theorem cnt_fair (H Q : Nat → Bool) (n0 k : Nat) (hk : 0 < k)
    (hH : ∀ c, cnt H c n0 = k) (hQ : ∀ c, cnt Q c n0 = 1)
    (himp : ∀ t, Q t = true → H t = true) (L : Nat) :
    ∀ c, cnt H c L / k ≤ cnt Q c L ∧ cnt Q c L ≤ (cnt H c L + k - 1) / k := by
  induction L using Nat.strong_induction_on with
  | _ L ih =>
    intro c
    by_cases hL : L < n0
    · have e1 := cnt_add H c L (n0 - L)
      have e2 := cnt_add Q c L (n0 - L)
      rw [show L + (n0 - L) = n0 by omega] at e1 e2
      rw [hH] at e1
      rw [hQ] at e2
      have l1 := cnt_le_of_imp Q H himp c L
      have l2 := cnt_le_of_imp Q H himp (c + L) (n0 - L)
      by_cases hA : cnt Q c L = 0
      · rw [hA]
        refine ⟨?_, Nat.zero_le _⟩
        rw [Nat.div_eq_of_lt (by omega)]
      · have hA1 : cnt Q c L = 1 := by omega
        rw [hA1]
        constructor
        · apply Nat.div_le_of_le_mul; omega
        · rw [Nat.le_div_iff_mul_le hk]; omega
    · have hn0 : 0 < n0 := by
        rcases Nat.eq_zero_or_pos n0 with h0 | h0
        · have := hH 0; rw [h0] at this; simp [cnt] at this; omega
        · exact h0
      have e1 := cnt_add H c n0 (L - n0)
      have e2 := cnt_add Q c n0 (L - n0)
      rw [show n0 + (L - n0) = L by omega] at e1 e2
      rw [hH] at e1
      rw [hQ] at e2
      obtain ⟨i1, i2⟩ := ih (L - n0) (by omega) (c + n0)
      rw [e1, e2]
      constructor
      · rw [Nat.add_div_left _ hk]; omega
      · rw [show k + cnt H (c + n0) (L - n0) + k - 1 = k + (cnt H (c + n0) (L - n0) + k - 1) by omega,
          Nat.add_div_left _ hk]
        omega

/-! ## Sequential `Get` calls on an empty queue -/

theorem get_step (d : Dialer) (now : Int) (q : Pool) (hq : q.connChan = [])
    (hd : ∀ log ep, ∃ c, d log ep = .ok c ∧ c.addr = some ep)
    (hw : q.index + q.endpoints.length < 2 ^ 64)
    (hh : ∃ x, x ∈ q.endpoints ∧ Load q.unavailable x = none) :
    ∃ j, j < q.endpoints.length ∧
      (∀ i, i < j → healthyAt q (q.index + i) = false) ∧
      healthyAt q (q.index + j) = true ∧
      (Get d now q).2.index = q.index + j + 1 ∧
      (Get d now q).2.dialLog = q.dialLog ++ [probeAt q (q.index + j)] ∧
      (Get d now q).2.connChan = [] ∧
      (Get d now q).2.endpoints = q.endpoints ∧
      (Get d now q).2.unavailable = q.unavailable := by
  obtain ⟨x, hx, hxu⟩ := hh
  have he : q.endpoints ≠ [] := List.ne_nil_of_mem hx
  have hlen : ¬ q.endpoints.length = 0 := fun h0 => he (List.length_eq_zero.mp h0)
  have hf := getEndpointLoop_frame q.endpoints q.endpoints.length q
  rcases getEndpointLoop_spec q.endpoints q.endpoints.length q hw with
    ⟨j, hj, hr, hn, hall, hidx⟩ | ⟨_, hall, _⟩
  · refine ⟨j, hj, ?_, ?_, ?_⟩
    · intro i hi
      have := hall i hi
      simp only [healthyAt, probeAt]
      cases hl : Load q.unavailable (q.endpoints.getD ((q.index + i) % q.endpoints.length) "") with
      | none => rw [hl] at this; cases this
      | some v => rfl
    · simp only [healthyAt, probeAt, hn, Option.isNone_none]
    · cases hg : getEndpointLoop q.endpoints q.endpoints.length q with
      | mk r q2 =>
        rw [hg] at hf hr hidx
        simp only at hf hr hidx
        subst hr
        obtain ⟨c, hc, hca⟩ := hd q2.dialLog
          (q.endpoints.getD ((q.index + j) % q.endpoints.length) "")
        have hlog : q2.dialLog = q.dialLog := by rw [hf]
        simp only [Get, hq, newConn, getEndpoint, hlen, if_false, hg, dialNewConn, hc, hca,
          incEndpointConnCount, probeAt]
        refine ⟨hidx, ?_, ?_, ?_, ?_⟩
        · rw [hlog]
        · rw [hf]; exact hq
        · rw [hf]
        · rw [hf]
  · exfalso
    obtain ⟨i, hi, hxi⟩ := probe_covers q.endpoints q.index x hx
    have := hall i hi
    rw [hxi, hxu] at this
    cases this

theorem getN_invariant (d : Dialer) (now : Int) (p : Pool) (hq : p.connChan = [])
    (hd : ∀ log ep, ∃ c, d log ep = .ok c ∧ c.addr = some ep)
    (hh : ∃ x, x ∈ p.endpoints ∧ Load p.unavailable x = none) (n : Nat)
    (hw : p.index + n * p.endpoints.length < 2 ^ 64) :
    ∃ L D, L ≤ n * p.endpoints.length ∧
      (getN d now n p).index = p.index + L ∧
      (getN d now n p).dialLog = p.dialLog ++ D ∧
      D.length = n ∧
      cnt (healthyAt p) p.index L = n ∧
      (∀ e, D.count e = cnt (dialsAt p e) p.index L) ∧
      (getN d now n p).connChan = [] ∧
      (getN d now n p).endpoints = p.endpoints ∧
      (getN d now n p).unavailable = p.unavailable := by
  induction n with
  | zero =>
    exact ⟨0, [], by simp, by simp [getN], by simp [getN], rfl, by simp [cnt],
      by intro e; simp [cnt], by simpa [getN] using hq, by simp [getN], by simp [getN]⟩
  | succ n ih =>
    have hmul : (n + 1) * p.endpoints.length = n * p.endpoints.length + p.endpoints.length :=
      Nat.succ_mul _ _
    obtain ⟨L, D, hL, hidx, hlog, hDn, hcH, hcQ, hch, hep, hun⟩ := ih (by omega)
    have hsame : ∀ t, healthyAt (getN d now n p) t = healthyAt p t := by
      intro t; simp only [healthyAt, probeAt, hep, hun]
    have hprobe : ∀ t, probeAt (getN d now n p) t = probeAt p t := by
      intro t; simp only [probeAt, hep]
    obtain ⟨j, hj, hlt, hjt, hidx2, hlog2, hch2, hep2, hun2⟩ :=
      get_step d now (getN d now n p) hch hd (by rw [hidx, hep]; omega) (by rw [hep, hun]; exact hh)
    rw [hep] at hj
    rw [hidx] at hlt hjt hidx2 hlog2
    simp only [hsame] at hlt hjt
    rw [hprobe] at hlog2
    refine ⟨L + (j + 1), D ++ [probeAt p (p.index + L + j)], by omega, ?_, ?_, ?_, ?_, ?_, ?_, ?_, ?_⟩
    · simp only [getN]; rw [hidx2]; omega
    · simp only [getN]; rw [hlog2, hlog, List.append_assoc]
    · simp [hDn]
    · rw [cnt_add, hcH, cnt_last _ _ _ hlt, hjt]; simp
    · intro e
      rw [cnt_add, ← hcQ e, cnt_last (dialsAt p e) (p.index + L) j (fun i hi => by
        simp only [dialsAt, hlt i hi, Bool.false_and])]
      simp only [dialsAt, hjt, Bool.true_and, List.count_append, List.count_singleton,
        decide_eq_true_eq, beq_iff_eq]
    · simp only [getN]; exact hch2
    · simp only [getN]; rw [hep2, hep]
    · simp only [getN]; rw [hun2, hun]

theorem cnt_probe (p : Pool) (f : String → Bool) (c : Nat) :
    cnt (fun t => f (probeAt p t)) c p.endpoints.length = p.endpoints.countP f := by
  rw [cnt_periodic (fun t => f (probeAt p t)) p.endpoints.length
    (fun t => by simp only [probeAt, Nat.add_mod_right]) c]
  rw [← cnt_getD f p.endpoints]
  apply cnt_congr
  intro t _ ht
  simp only [probeAt]
  rw [Nat.mod_eq_of_lt (by omega)]

/-- C5, as stated, fails when the `uint64` cursor wraps: from cursor
`2^64 - 1` over three healthy endpoints, three `Get` calls dial `a:1` twice,
more than the ceiling of 3/3. -/
theorem fairness_wraparound_counterexample :
    (getN echoDialer 0 3 wrapPoolHealthy).dialLog = ["a:1", "a:1", "b:1"] ∧
    wrapPoolHealthy.endpoints.Nodup ∧
    (wrapPoolHealthy.endpoints.filter
      (fun x => (Load wrapPoolHealthy.unavailable x).isNone)).length = 3 ∧
    ¬ ((getN echoDialer 0 3 wrapPoolHealthy).dialLog.count "a:1" ≤ (3 + 3 - 1) / 3) := by
  refine ⟨rfl, by decide, rfl, by decide⟩

/-- C5 (amended). Round-robin fairness while the cursor does not wrap
(`index + n * |s| < 2^64`): for a snapshot of distinct endpoints of which
`k >= 1` are not unavailable and a dialer that always succeeds with a
connection to the dialled address, `n` sequential `Get` calls on an empty
queue perform exactly `n` dials, the queue stays empty, every healthy
endpoint is dialled at least `n / k` (floor) and at most `(n + k - 1) / k`
(ceiling) times, and no unavailable endpoint is dialled. -/
theorem round_robin_fairness (d : Dialer) (now : Int) (p : Pool) (n : Nat) (e : String)
    (hq : p.connChan = []) (hnd : p.endpoints.Nodup)
    (hk : 1 ≤ (p.endpoints.filter (fun x => (Load p.unavailable x).isNone)).length)
    (hd : ∀ log ep, ∃ c, d log ep = .ok c ∧ c.addr = some ep)
    (hw : p.index + n * p.endpoints.length < 2 ^ 64) :
    ∃ D, (getN d now n p).dialLog = p.dialLog ++ D ∧ D.length = n ∧
      (getN d now n p).connChan = [] ∧
      (e ∈ p.endpoints → Load p.unavailable e = none →
        n / (p.endpoints.filter (fun x => (Load p.unavailable x).isNone)).length ≤ D.count e ∧
        D.count e ≤
          (n + (p.endpoints.filter (fun x => (Load p.unavailable x).isNone)).length - 1)
            / (p.endpoints.filter (fun x => (Load p.unavailable x).isNone)).length) ∧
      ((Load p.unavailable e).isSome = true → D.count e = 0) := by
  have hh : ∃ x, x ∈ p.endpoints ∧ Load p.unavailable x = none := by
    obtain ⟨x, hx⟩ := List.exists_mem_of_length_pos (Nat.lt_of_lt_of_le Nat.zero_lt_one hk)
    rw [List.mem_filter] at hx
    exact ⟨x, hx.1, by simpa using hx.2⟩
  obtain ⟨L, D, _, _, hlog, hDn, hcH, hcQ, hch, _, _⟩ := getN_invariant d now p hq hd hh n hw
  refine ⟨D, hlog, hDn, hch, ?_, ?_⟩
  · intro hmem hnone
    have hH : ∀ c, cnt (healthyAt p) c p.endpoints.length
        = (p.endpoints.filter (fun x => (Load p.unavailable x).isNone)).length := by
      intro c
      have := cnt_probe p (fun x => (Load p.unavailable x).isNone) c
      rw [List.countP_eq_length_filter] at this
      exact this
    have hQ : ∀ c, cnt (dialsAt p e) c p.endpoints.length = 1 := by
      intro c
      have := cnt_probe p (fun x => (Load p.unavailable x).isNone && decide (x = e)) c
      rw [List.countP_congr (q := fun x => x == e) (fun x _ => by
        by_cases hxe : x = e
        · subst hxe; simp [hnone]
        · simp [hxe]), ← List.count_eq_countP, List.count_eq_one_of_mem hnd hmem] at this
      exact this
    have himp : ∀ t, dialsAt p e t = true → healthyAt p t = true := by
      intro t ht
      simp only [dialsAt, Bool.and_eq_true] at ht
      exact ht.1
    have := cnt_fair (healthyAt p) (dialsAt p e) p.endpoints.length _ hk hH hQ himp L p.index
    rw [hcH, ← hcQ e] at this
    exact this
  · intro hsome
    rw [hcQ e]
    have hfalse : ∀ t, dialsAt p e t = false := by
      intro t
      simp only [dialsAt, healthyAt]
      by_cases hpe : probeAt p t = e
      · rw [hpe]
        cases hl : Load p.unavailable e with
        | none => rw [hl] at hsome; cases hsome
        | some v => simp
      · simp [hpe]
    have h0 := cnt_le_of_imp (dialsAt p e) (fun _ => false)
      (fun t ht => by rw [hfalse t] at ht; cases ht) p.index L
    have hz : ∀ c L, cnt (fun _ => false) c L = 0 := by
      intro c L
      induction L generalizing c with
      | zero => rfl
      | succ L ih => simp [cnt, ih]
    rw [hz] at h0
    omega

theorem round_robin_fairness_witness :
    ∃ D, (getN echoDialer 0 5 (mkPool [] 0 [] [])).dialLog
        = (mkPool [] 0 [] []).dialLog ++ D ∧ D.length = 5 ∧
      (getN echoDialer 0 5 (mkPool [] 0 [] [])).connChan = [] ∧
      ("a:1" ∈ (mkPool [] 0 [] []).endpoints → Load (mkPool [] 0 [] []).unavailable "a:1" = none →
        5 / ((mkPool [] 0 [] []).endpoints.filter
            (fun x => (Load (mkPool [] 0 [] []).unavailable x).isNone)).length ≤ D.count "a:1" ∧
        D.count "a:1" ≤
          (5 + ((mkPool [] 0 [] []).endpoints.filter
            (fun x => (Load (mkPool [] 0 [] []).unavailable x).isNone)).length - 1)
            / ((mkPool [] 0 [] []).endpoints.filter
            (fun x => (Load (mkPool [] 0 [] []).unavailable x).isNone)).length) ∧
      ((Load (mkPool [] 0 [] []).unavailable "a:1").isSome = true → D.count "a:1" = 0) :=
  round_robin_fairness echoDialer 0 (mkPool [] 0 [] []) 5 "a:1" rfl (by decide) (by decide)
    (fun log ep => ⟨⟨log.length, some ep⟩, rfl, rfl⟩) (by decide)

/-! ## Frame of `rebalance` -/

theorem Evolves.refl (p : Pool) : Evolves p p :=
  ⟨rfl, rfl, rfl, rfl, rfl, rfl, rfl, rfl, id, fun _ h => Or.inl h,
    fun _ _ => ⟨rfl, rfl, rfl⟩, ⟨[], by simp⟩⟩

theorem Evolves.trans {p q r : Pool} (h1 : Evolves p q) (h2 : Evolves q r) : Evolves p r := by
  refine ⟨h2.size.trans h1.size, h2.endpoints.trans h1.endpoints,
    h2.endpointMap.trans h1.endpointMap, h2.index.trans h1.index,
    h2.closedNow.trans h1.closedNow, h2.closeOnceDone.trans h1.closeOnceDone,
    h2.connsPerEndpoint.trans h1.connsPerEndpoint,
    h2.requiredConnNum.trans h1.requiredConnNum,
    fun hb => h2.bounded (h1.bounded hb), ?_, ?_, ?_⟩
  · intro c hc
    rcases h2.queued c hc with hq | ⟨a, ha, hm⟩
    · exact h1.queued c hq
    · exact Or.inr ⟨a, ha, by rw [← h1.endpointMap]; exact hm⟩
  · intro e he
    have he2 : Load q.endpointMap e = none := by rw [h1.endpointMap]; exact he
    obtain ⟨a1, a2, a3⟩ := h1.outside e he
    obtain ⟨b1, b2, b3⟩ := h2.outside e he2
    exact ⟨b1.trans a1, b2.trans a2, b3.trans a3⟩
  · obtain ⟨l1, hl1⟩ := h1.closedDelayed
    obtain ⟨l2, hl2⟩ := h2.closedDelayed
    exact ⟨l1 ++ l2, by rw [hl2, hl1, List.append_assoc]⟩

theorem evolves_foldl {α : Type} (f : Pool → α → Pool) (h : ∀ p a, Evolves p (f p a))
    (l : List α) (p : Pool) : Evolves p (l.foldl f p) := by
  induction l generalizing p with
  | nil => exact Evolves.refl p
  | cons a l ih => exact (h p a).trans (ih (f p a))

theorem evolves_closeDelayed (c : Conn) (p : Pool) :
    Evolves p (CloseConn c defaultConnCloseDelay p) := by
  have hd : ¬ (defaultConnCloseDelay ≤ 0) := by decide
  simp only [CloseConn, hd, if_false]
  exact ⟨rfl, rfl, rfl, rfl, rfl, rfl, rfl, rfl, id, fun _ h => Or.inl h,
    fun _ _ => ⟨rfl, rfl, rfl⟩, ⟨[c], rfl⟩⟩

theorem load_ne_of_outside {V : Type} (m : List (String × V)) (a e : String)
    (ha : (Load m a).isSome = true) (he : Load m e = none) : ¬ a = e := by
  intro h
  rw [h, he] at ha
  cases ha

theorem evolves_put (c : Conn) (p : Pool) : Evolves p (put (some c) none true p) := by
  simp only [put]
  cases hc : c.addr with
  | none => exact evolves_closeDelayed c p
  | some addr =>
    simp only
    by_cases hm : (Load p.endpointMap addr).isNone = true
    · simp only [hm, if_true]; exact evolves_closeDelayed c p
    · have hs : (Load p.endpointMap addr).isSome = true := by
        cases h : Load p.endpointMap addr with
        | none => simp [h] at hm
        | some u => rfl
      simp only [hm, Option.isSome_none, Bool.false_eq_true, if_false]
      by_cases hlen : p.connChan.length < p.size
      · simp only [hlen, if_true, incEndpointConnCount]
        refine ⟨rfl, rfl, rfl, rfl, rfl, rfl, rfl, rfl, ?_, ?_, ?_, ⟨[], by simp⟩⟩
        · intro _
          simp only [Bounded, List.length_append, List.length_singleton]
          omega
        · intro x hx
          simp only [List.mem_append, List.mem_singleton] at hx
          rcases hx with hx | hx
          · exact Or.inl hx
          · subst hx; exact Or.inr ⟨addr, hc, hs⟩
        · intro e he
          refine ⟨rfl, rfl, ?_⟩
          simp only [load_store, load_ne_of_outside _ _ _ hs he, if_false]
      · simp only [hlen, if_false]; exact evolves_closeDelayed c p

theorem evolves_dialNewConn (d : Dialer) (now : Int) (ep : String) (p : Pool)
    (hs : (Load p.endpointMap ep).isSome = true) : Evolves p (dialNewConn d now ep p).2 := by
  simp only [dialNewConn]
  cases hd : d p.dialLog ep with
  | error e =>
    simp only [markUnavailable]
    refine ⟨rfl, rfl, rfl, rfl, rfl, rfl, rfl, rfl, id, fun _ h => Or.inl h, ?_, ⟨[], by simp⟩⟩
    intro e he
    have hne := load_ne_of_outside _ _ _ hs he
    refine ⟨?_, ?_, rfl⟩
    · simp only [load_store, hne, if_false]
    · simp only [load_store, hne, if_false]
  | ok conn =>
    exact ⟨rfl, rfl, rfl, rfl, rfl, rfl, rfl, rfl, id, fun _ h => Or.inl h,
      fun _ _ => ⟨rfl, rfl, rfl⟩, ⟨[], by simp⟩⟩

theorem evolves_addConns (d : Dialer) (now : Int) (ep : String) (n : Nat) (p : Pool)
    (hs : (Load p.endpointMap ep).isSome = true) : Evolves p (addConns d now ep n p) := by
  induction n generalizing p with
  | zero => exact Evolves.refl p
  | succ n ih =>
    have h1 := evolves_dialNewConn d now ep p hs
    simp only [addConns]
    cases hd : dialNewConn d now ep p with
    | mk r p1 =>
      rw [hd] at h1
      simp only at h1
      cases r with
      | error e => exact h1
      | ok conn =>
        simp only
        have h2 := evolves_put conn p1
        have hs2 : (Load (put (some conn) none true p1).endpointMap ep).isSome = true := by
          rw [h2.endpointMap, h1.endpointMap]; exact hs
        exact (h1.trans h2).trans (ih _ hs2)

/-! ## Drain and refill -/

theorem pushBack_frame (p : Pool) (c : Conn) :
    pushBack p c = { p with connChan := (pushBack p c).connChan,
                            closedDelayed := (pushBack p c).closedDelayed } := by
  have hd : ¬ (defaultConnCloseDelay ≤ 0) := by decide
  unfold pushBack
  split <;> simp [CloseConn, hd]

theorem refill_spec (l : List Conn) (p : Pool) :
    refill l p = { p with connChan := (refill l p).connChan,
                          closedDelayed := (refill l p).closedDelayed } ∧
    (Bounded p → Bounded (refill l p)) ∧
    (∀ c, c ∈ (refill l p).connChan → c ∈ p.connChan ∨ c ∈ l) ∧
    (∃ l2, (refill l p).closedDelayed = p.closedDelayed ++ l2) := by
  induction l generalizing p with
  | nil => exact ⟨rfl, id, fun _ h => Or.inl h, ⟨[], by simp [refill]⟩⟩
  | cons x l ih =>
    obtain ⟨h1, h2, h3, ⟨l2, h4⟩⟩ := ih (pushBack p x)
    have hf := pushBack_frame p x
    have hd : ¬ (defaultConnCloseDelay ≤ 0) := by decide
    have hstep : refill (x :: l) p = refill l (pushBack p x) := rfl
    rw [hstep]
    refine ⟨?_, ?_, ?_, ?_⟩
    · rw [h1, hf]
    · intro hb
      apply h2
      unfold pushBack
      split
      · simp only [Bounded, List.length_append, List.length_singleton]; omega
      · simpa [Bounded, CloseConn, hd] using hb
    · intro c hc
      rcases h3 c hc with h | h
      · unfold pushBack at h
        split at h
        · simp only [List.mem_append, List.mem_singleton] at h
          rcases h with h | h
          · exact Or.inl h
          · exact Or.inr (by rw [h]; exact List.mem_cons_self _ _)
        · simp only [CloseConn, hd, if_false] at h
          exact Or.inl h
      · exact Or.inr (List.mem_cons_of_mem _ h)
    · rw [h4]
      unfold pushBack
      split
      · exact ⟨l2, rfl⟩
      · simp only [CloseConn, hd, if_false]
        exact ⟨[x] ++ l2, by simp⟩

theorem removeDrain_spec (addr : String) (count : Int) (n : Nat) (removed : Int)
    (left : List Conn) (p : Pool) :
    (removeDrain addr count n removed left p).2 =
      { p with connChan := (removeDrain addr count n removed left p).2.connChan,
               closedDelayed := (removeDrain addr count n removed left p).2.closedDelayed } ∧
    (removeDrain addr count n removed left p).2.connChan.length ≤ p.connChan.length ∧
    (∀ c, c ∈ (removeDrain addr count n removed left p).2.connChan → c ∈ p.connChan) ∧
    (∀ c, c ∈ (removeDrain addr count n removed left p).1 → c ∈ left ∨ c ∈ p.connChan) ∧
    (∃ l2, (removeDrain addr count n removed left p).2.closedDelayed
        = p.closedDelayed ++ l2) := by
  have hd : ¬ (defaultConnCloseDelay ≤ 0) := by decide
  induction n generalizing removed left p with
  | zero => exact ⟨rfl, le_refl _, fun _ h => h, fun _ h => Or.inl h, ⟨[], by simp [removeDrain]⟩⟩
  | succ n ih =>
    cases hq : p.connChan with
    | nil =>
      simp only [removeDrain, hq]
      exact ⟨by rw [← hq], by simp, fun _ h => h, fun _ h => Or.inl h, ⟨[], by simp⟩⟩
    | cons conn rest =>
      simp only [removeDrain, hq]
      cases ha : conn.addr with
      | none =>
        simp only
        obtain ⟨h1, h2, h3, h4, ⟨l2, h5⟩⟩ := ih removed left { p with connChan := rest }
        refine ⟨by rw [h1], by simp only [List.length_cons]; simp only at h2; omega,
          fun c hc => List.mem_cons_of_mem _ (h3 c hc), ?_, ⟨l2, h5⟩⟩
        intro c hc
        rcases h4 c hc with h | h
        · exact Or.inl h
        · exact Or.inr (List.mem_cons_of_mem _ h)
      | some a =>
        simp only
        by_cases hxa : a = addr
        · simp only [hxa, if_true, CloseConn, hd, if_false]
          by_cases hcnt : removed + 1 ≥ count
          · simp only [hcnt, if_true]
            exact ⟨trivial, by simp, fun c hc => List.mem_cons_of_mem _ hc, fun _ h => Or.inl h,
              ⟨[conn], rfl⟩⟩
          · simp only [hcnt, if_false]
            obtain ⟨h1, h2, h3, h4, ⟨l2, h5⟩⟩ := ih (removed + 1) left
              { p with connChan := rest, closedDelayed := p.closedDelayed ++ [conn] }
            refine ⟨by rw [h1], by simp only [List.length_cons]; simp only at h2; omega,
              fun c hc => List.mem_cons_of_mem _ (h3 c hc), ?_,
              ⟨[conn] ++ l2, by rw [h5]; simp⟩⟩
            intro c hc
            rcases h4 c hc with h | h
            · exact Or.inl h
            · exact Or.inr (List.mem_cons_of_mem _ h)
        · simp only [hxa, if_false]
          obtain ⟨h1, h2, h3, h4, ⟨l2, h5⟩⟩ := ih removed (left ++ [conn])
            { p with connChan := rest }
          refine ⟨by rw [h1], by simp only [List.length_cons]; simp only at h2; omega,
            fun c hc => List.mem_cons_of_mem _ (h3 c hc), ?_, ⟨l2, h5⟩⟩
          intro c hc
          rcases h4 c hc with h | h
          · simp only [List.mem_append, List.mem_singleton] at h
            rcases h with h | h
            · exact Or.inl h
            · exact Or.inr (by rw [h]; exact List.mem_cons_self _ _)
          · exact Or.inr (List.mem_cons_of_mem _ h)

theorem queue_frame_fields {p q : Pool}
    (h : q = { p with connChan := q.connChan, closedDelayed := q.closedDelayed }) :
    q.size = p.size ∧ q.index = p.index ∧ q.endpoints = p.endpoints ∧
    q.endpointMap = p.endpointMap ∧ q.connsPerEndpoint = p.connsPerEndpoint ∧
    q.requiredConnNum = p.requiredConnNum ∧ q.unavailable = p.unavailable ∧
    q.retryCounts = p.retryCounts ∧ q.endpointConnCounts = p.endpointConnCounts ∧
    q.closeOnceDone = p.closeOnceDone ∧ q.dialLog = p.dialLog ∧ q.closedNow = p.closedNow := by
  rw [h]
  exact ⟨rfl, rfl, rfl, rfl, rfl, rfl, rfl, rfl, rfl, rfl, rfl, rfl⟩

theorem evolves_removeEndpointConn (addr : String) (count : Int) (p : Pool) :
    Evolves p (removeEndpointConn addr count p) := by
  obtain ⟨r1, r2, r3, r4, ⟨lr, r5⟩⟩ := removeDrain_spec addr count p.size 0 [] p
  obtain ⟨f1, f2, f3, ⟨lf, f5⟩⟩ := refill_spec (removeDrain addr count p.size 0 [] p).1
    (removeDrain addr count p.size 0 [] p).2
  obtain ⟨a1, a2, a3, a4, a5, a6, a7, a8, a9, a10, _, a12⟩ := queue_frame_fields r1
  obtain ⟨b1, b2, b3, b4, b5, b6, b7, b8, b9, b10, _, b12⟩ := queue_frame_fields f1
  have hdef : removeEndpointConn addr count p = refill (removeDrain addr count p.size 0 [] p).1
    (removeDrain addr count p.size 0 [] p).2 := rfl
  rw [hdef]
  refine ⟨b1.trans a1, b3.trans a3, b4.trans a4, b2.trans a2, b12.trans a12, b10.trans a10,
    b5.trans a5, b6.trans a6, ?_, ?_, ?_, ⟨lr ++ lf, by rw [f5, r5, List.append_assoc]⟩⟩
  · intro hb
    apply f2
    unfold Bounded at hb ⊢
    rw [a1]; omega
  · intro c hc
    rcases f3 c hc with h | h
    · exact Or.inl (r3 c h)
    · rcases r4 c h with h | h
      · cases h
      · exact Or.inl h
  · intro e _
    exact ⟨by rw [b7, a7], by rw [b8, a8], by rw [b9, a9]⟩

theorem evolves_rebalanceCounts (d : Dialer) (now : Int) (expected : Int) (p : Pool)
    (addr : String) : Evolves p (rebalanceCounts d now expected p addr) := by
  unfold rebalanceCounts
  split
  · exact Evolves.refl p
  · split
    · split
      · exact Evolves.refl p
      · rename_i hm
        apply evolves_addConns
        cases h : Load p.endpointMap addr with
        | none => simp [h] at hm
        | some u => rfl
    · split
      · exact evolves_removeEndpointConn _ _ _
      · exact Evolves.refl p

theorem evolves_rebalanceMap (d : Dialer) (now : Int) (expected : Int) (p : Pool)
    (addr : String) : Evolves p (rebalanceMap d now expected p addr) := by
  unfold rebalanceMap
  split
  · exact Evolves.refl p
  · rename_i u hm
    split
    · exact Evolves.refl p
    · apply evolves_addConns
      rw [hm]; rfl

theorem evolves_rebalance (d : Dialer) (now : Int) (p : Pool) :
    Evolves p (rebalance d now p) := by
  unfold rebalance
  simp only
  split
  · exact Evolves.refl p
  · exact (evolves_foldl _ (evolves_rebalanceCounts d now _) _ p).trans
      (evolves_foldl _ (evolves_rebalanceMap d now _) _ _)

/-! ## The deletion pass of `UpdateEndpoints` -/

theorem load_dec (a e : String) (p : Pool) :
    Load (decEndpointConnCount a p).endpointConnCounts e =
      if a = e then decVal (Load p.endpointConnCounts e) else Load p.endpointConnCounts e := by
  unfold decEndpointConnCount
  by_cases hae : a = e
  · subst hae
    cases hl : Load p.endpointConnCounts a with
    | none => simp [decVal, hl]
    | some k =>
      simp only [if_true, decVal]
      by_cases hk : k > 0
      · by_cases h1 : k = 1
        · simp [hk, h1, load_delete]
        · simp [hk, h1, load_store]
      · simp [hk, hl]
  · simp only [hae, if_false]
    cases hl : Load p.endpointConnCounts a with
    | none => rfl
    | some k =>
      simp only
      by_cases hk : k > 0
      · by_cases h1 : k = 1
        · simp [hk, h1, load_delete, hae]
        · simp [hk, h1, load_store, hae]
      · simp [hk]

theorem dec_frame (a : String) (p : Pool) :
    decEndpointConnCount a p =
      { p with endpointConnCounts := (decEndpointConnCount a p).endpointConnCounts } := by
  unfold decEndpointConnCount
  split
  · rfl
  · split
    · split <;> rfl
    · rfl

theorem closeConn_zero (c : Conn) (p : Pool) :
    CloseConn c 0 p = { p with closedNow := p.closedNow ++ [c] } := by
  simp [CloseConn]

theorem closeConn_delay (c : Conn) (p : Pool) :
    CloseConn c defaultConnCloseDelay p = { p with closedDelayed := p.closedDelayed ++ [c] } := by
  have hd : ¬ (defaultConnCloseDelay ≤ 0) := by decide
  simp [CloseConn, hd]

theorem dec_fields (a : String) (p : Pool) :
    (decEndpointConnCount a p).connChan = p.connChan ∧
    (decEndpointConnCount a p).closedDelayed = p.closedDelayed ∧
    (decEndpointConnCount a p).closedNow = p.closedNow ∧
    (decEndpointConnCount a p).size = p.size ∧
    (decEndpointConnCount a p).unavailable = p.unavailable ∧
    (decEndpointConnCount a p).retryCounts = p.retryCounts := by
  rw [dec_frame a p]
  exact ⟨rfl, rfl, rfl, rfl, rfl, rfl⟩

theorem updateDrain_frame (del : List String) (n : Nat) (temp : List Conn) (p : Pool) :
    (updateDrain del n temp p).2 =
      { p with connChan := (updateDrain del n temp p).2.connChan,
               closedNow := (updateDrain del n temp p).2.closedNow,
               closedDelayed := (updateDrain del n temp p).2.closedDelayed,
               endpointConnCounts := (updateDrain del n temp p).2.endpointConnCounts } ∧
    (updateDrain del n temp p).2.connChan.length ≤ p.connChan.length := by
  induction n generalizing temp p with
  | zero => exact ⟨rfl, le_refl _⟩
  | succ n ih =>
    cases hq : p.connChan with
    | nil =>
      simp only [updateDrain, hq]
      exact ⟨by rw [← hq], by simp⟩
    | cons conn rest =>
      simp only [updateDrain, hq]
      cases ha : conn.addr with
      | none =>
        simp only [closeConn_zero]
        obtain ⟨h1, h2⟩ := ih temp { p with connChan := rest, closedNow := p.closedNow ++ [conn] }
        refine ⟨by rw [h1], ?_⟩
        simp only at h2
        simp only [List.length_cons]; omega
      | some a =>
        simp only [closeConn_delay]
        by_cases hdel : a ∈ del
        · simp only [hdel, if_true]
          obtain ⟨h1, h2⟩ := ih temp (decEndpointConnCount a
            { p with connChan := rest, closedDelayed := p.closedDelayed ++ [conn] })
          have hf := dec_frame a
            { p with connChan := rest, closedDelayed := p.closedDelayed ++ [conn] }
          obtain ⟨d1, _, _, _, _, _⟩ := dec_fields a
            { p with connChan := rest, closedDelayed := p.closedDelayed ++ [conn] }
          refine ⟨?_, ?_⟩
          · rw [h1, hf]
          · rw [d1] at h2
            simp only at h2
            simp only [List.length_cons]; omega
        · simp only [hdel, if_false]
          obtain ⟨h1, h2⟩ := ih (temp ++ [conn]) { p with connChan := rest }
          refine ⟨by rw [h1], ?_⟩
          simp only at h2
          simp only [List.length_cons]; omega

theorem updateDrain_full (del : List String) (n : Nat) (temp : List Conn) (p : Pool)
    (hn : p.connChan.length ≤ n) :
    (updateDrain del n temp p).2.connChan = [] ∧
    (updateDrain del n temp p).1 = temp ++ p.connChan.filter
      (fun c => match c.addr with
        | none => false
        | some a => decide (a ∉ del)) ∧
    (updateDrain del n temp p).2.closedDelayed = p.closedDelayed ++ p.connChan.filter
      (fun c => match c.addr with
        | none => false
        | some a => decide (a ∈ del)) ∧
    (updateDrain del n temp p).2.closedNow = p.closedNow ++ p.connChan.filter
      (fun c => decide (c.addr = none)) ∧
    (∀ e, Load (updateDrain del n temp p).2.endpointConnCounts e =
      decVal^[p.connChan.countP (fun c => decide (c.addr = some e) && decide (e ∈ del))]
        (Load p.endpointConnCounts e)) := by
  induction n generalizing temp p with
  | zero =>
    have hq : p.connChan = [] := List.length_eq_zero.mp (Nat.le_zero.mp hn)
    simp [updateDrain, hq]
  | succ n ih =>
    cases hq : p.connChan with
    | nil => simp [updateDrain, hq]
    | cons conn rest =>
      have hrest : rest.length ≤ n := by
        rw [hq] at hn; simp only [List.length_cons] at hn; omega
      simp only [updateDrain, hq]
      cases ha : conn.addr with
      | none =>
        simp only [closeConn_zero]
        obtain ⟨h1, h2, h3, h4, h5⟩ := ih temp
          { p with connChan := rest, closedNow := p.closedNow ++ [conn] } hrest
        simp only at h1 h2 h3 h4 h5
        refine ⟨h1, ?_, ?_, ?_, ?_⟩
        · rw [h2]; simp [List.filter_cons, ha]
        · rw [h3]; simp [List.filter_cons, ha]
        · rw [h4]; simp [List.filter_cons, ha]
        · intro e; rw [h5 e]; simp [List.countP_cons, ha]
      | some a =>
        simp only [closeConn_delay]
        by_cases hdel : a ∈ del
        · simp only [hdel, if_true]
          obtain ⟨d1, d2, d3, _, _, _⟩ := dec_fields a
            { p with connChan := rest, closedDelayed := p.closedDelayed ++ [conn] }
          simp only at d1 d2 d3
          obtain ⟨h1, h2, h3, h4, h5⟩ := ih temp (decEndpointConnCount a
            { p with connChan := rest, closedDelayed := p.closedDelayed ++ [conn] })
            (by rw [d1]; exact hrest)
          rw [d1] at h2 h3 h4 h5
          rw [d2] at h3
          rw [d3] at h4
          refine ⟨h1, ?_, ?_, ?_, ?_⟩
          · rw [h2]; simp [List.filter_cons, ha, hdel]
          · rw [h3]; simp [List.filter_cons, ha, hdel]
          · rw [h4]; simp [List.filter_cons, ha]
          · intro e
            rw [h5 e, load_dec]
            by_cases hae : a = e
            · subst hae
              simp [List.countP_cons, ha, hdel, Function.iterate_succ_apply]
            · simp [List.countP_cons, ha, hae]
        · simp only [hdel, if_false]
          obtain ⟨h1, h2, h3, h4, h5⟩ := ih (temp ++ [conn]) { p with connChan := rest } hrest
          simp only at h1 h2 h3 h4 h5
          refine ⟨h1, ?_, ?_, ?_, ?_⟩
          · rw [h2]; simp [List.filter_cons, ha, hdel]
          · rw [h3]; simp [List.filter_cons, ha, hdel]
          · rw [h4]; simp [List.filter_cons, ha]
          · intro e
            rw [h5 e]
            by_cases hae : a = e
            · subst hae; simp [List.countP_cons, ha, hdel]
            · simp [List.countP_cons, ha, hae]

theorem deleteEndpoints_spec (del : List String) (p : Pool) :
    deleteEndpoints del p =
      { p with endpointMap := (deleteEndpoints del p).endpointMap,
               unavailable := (deleteEndpoints del p).unavailable,
               retryCounts := (deleteEndpoints del p).retryCounts } ∧
    (∀ x, Load (deleteEndpoints del p).endpointMap x =
      if x ∈ del then none else Load p.endpointMap x) ∧
    (∀ x, Load (deleteEndpoints del p).unavailable x =
      if x ∈ del then none else Load p.unavailable x) ∧
    (∀ x, Load (deleteEndpoints del p).retryCounts x =
      if x ∈ del then none else Load p.retryCounts x) := by
  induction del generalizing p with
  | nil => simp [deleteEndpoints]
  | cons e del ih =>
    have hstep : deleteEndpoints (e :: del) p = deleteEndpoints del
        { p with endpointMap := Delete p.endpointMap e,
                 unavailable := Delete p.unavailable e,
                 retryCounts := Delete p.retryCounts e } := rfl
    obtain ⟨h1, h2, h3, h4⟩ := ih
      { p with endpointMap := Delete p.endpointMap e,
               unavailable := Delete p.unavailable e,
               retryCounts := Delete p.retryCounts e }
    rw [hstep]
    refine ⟨by rw [h1], ?_, ?_, ?_⟩
    · intro x
      rw [h2 x]
      simp only [load_delete, List.mem_cons]
      by_cases hx : x ∈ del
      · simp [hx]
      · by_cases hxe : e = x
        · simp [hx, hxe]
        · have : ¬ x = e := fun h => hxe h.symm
          simp [hx, hxe, this]
    · intro x
      rw [h3 x]
      simp only [load_delete, List.mem_cons]
      by_cases hx : x ∈ del
      · simp [hx]
      · by_cases hxe : e = x
        · simp [hx, hxe]
        · have : ¬ x = e := fun h => hxe h.symm
          simp [hx, hxe, this]
    · intro x
      rw [h4 x]
      simp only [load_delete, List.mem_cons]
      by_cases hx : x ∈ del
      · simp [hx]
      · by_cases hxe : e = x
        · simp [hx, hxe]
        · have : ¬ x = e := fun h => hxe h.symm
          simp [hx, hxe, this]

theorem addEndpoints_spec (add : List String) (p : Pool) :
    addEndpoints add p = { p with endpointMap := (addEndpoints add p).endpointMap } ∧
    (∀ x, (Load (addEndpoints add p).endpointMap x).isSome =
      (decide (x ∈ add) || (Load p.endpointMap x).isSome)) := by
  induction add generalizing p with
  | nil => simp [addEndpoints]
  | cons e add ih =>
    have hstep : addEndpoints (e :: add) p = addEndpoints add
        { p with endpointMap := Store p.endpointMap e () } := rfl
    obtain ⟨h1, h2⟩ := ih { p with endpointMap := Store p.endpointMap e () }
    rw [hstep]
    refine ⟨by rw [h1], ?_⟩
    intro x
    rw [h2 x]
    simp only [load_store, List.mem_cons]
    by_cases hx : x ∈ add
    · simp [hx]
    · by_cases hxe : e = x
      · simp [hx, hxe]
      · have : ¬ x = e := fun h => hxe h.symm
        simp [hx, hxe, this]

theorem refill_exact (l : List Conn) (p : Pool) (h : p.connChan.length + l.length ≤ p.size) :
    (refill l p).connChan = p.connChan ++ l ∧
    (refill l p).closedDelayed = p.closedDelayed := by
  induction l generalizing p with
  | nil => simp [refill]
  | cons x l ih =>
    have hstep : refill (x :: l) p = refill l (pushBack p x) := rfl
    simp only [List.length_cons] at h
    have hlt : p.connChan.length < p.size := by omega
    have hpb : pushBack p x = { p with connChan := p.connChan ++ [x] } := by
      simp [pushBack, hlt]
    rw [hstep, hpb]
    obtain ⟨h1, h2⟩ := ih { p with connChan := p.connChan ++ [x] }
      (by simp only [List.length_append, List.length_singleton]; omega)
    exact ⟨by rw [h1]; simp, h2⟩

theorem updateRegistry_frame (all add del : List String) (p : Pool) :
    (updateRegistry all add del p).endpoints = all ∧
    (updateRegistry all add del p).size = p.size ∧
    (updateRegistry all add del p).index = p.index ∧
    (updateRegistry all add del p).connsPerEndpoint = p.connsPerEndpoint ∧
    (updateRegistry all add del p).requiredConnNum = p.requiredConnNum ∧
    (updateRegistry all add del p).closeOnceDone = p.closeOnceDone ∧
    (updateRegistry all add del p).dialLog = p.dialLog ∧
    (∀ x, (Load (updateRegistry all add del p).endpointMap x).isSome =
      (!decide (x ∈ del) && (decide (x ∈ add) || (Load p.endpointMap x).isSome))) ∧
    (∀ x, Load (updateRegistry all add del p).unavailable x =
      if x ∈ del then none else Load p.unavailable x) ∧
    (∀ x, Load (updateRegistry all add del p).retryCounts x =
      if x ∈ del then none else Load p.retryCounts x) ∧
    (Bounded p → Bounded (updateRegistry all add del p)) := by
  obtain ⟨a1, a2⟩ := addEndpoints_spec add { p with endpoints := all }
  obtain ⟨d1, d2, d3, d4⟩ := deleteEndpoints_spec del (addEndpoints add { p with endpoints := all })
  have hbase : ∀ q : Pool,
      q = deleteEndpoints del (addEndpoints add { p with endpoints := all }) →
      q.endpoints = all ∧ q.size = p.size ∧ q.index = p.index ∧
      q.connsPerEndpoint = p.connsPerEndpoint ∧ q.requiredConnNum = p.requiredConnNum ∧
      q.closeOnceDone = p.closeOnceDone ∧ q.dialLog = p.dialLog ∧
      q.connChan = p.connChan ∧
      (∀ x, (Load q.endpointMap x).isSome =
        (!decide (x ∈ del) && (decide (x ∈ add) || (Load p.endpointMap x).isSome))) ∧
      (∀ x, Load q.unavailable x = if x ∈ del then none else Load p.unavailable x) ∧
      (∀ x, Load q.retryCounts x = if x ∈ del then none else Load p.retryCounts x) := by
    intro q hq
    subst hq
    refine ⟨by rw [d1, a1], by rw [d1, a1], by rw [d1, a1], by rw [d1, a1], by rw [d1, a1],
      by rw [d1, a1], by rw [d1, a1], by rw [d1, a1], ?_, ?_, ?_⟩
    · intro x
      rw [d2 x]
      by_cases hx : x ∈ del
      · simp [hx]
      · simp only [hx, if_false, decide_False, Bool.not_false, Bool.true_and]
        rw [a2 x]
    · intro x; rw [d3 x, a1]
    · intro x; rw [d4 x, a1]
  obtain ⟨b1, b2, b3, b4, b5, b6, b7, b8, b9, b10, b11⟩ := hbase _ rfl
  unfold updateRegistry
  simp only
  split
  · obtain ⟨u1, u2⟩ := updateDrain_frame del
      (deleteEndpoints del (addEndpoints add { p with endpoints := all })).size []
      (deleteEndpoints del (addEndpoints add { p with endpoints := all }))
    obtain ⟨f1, f2, _, _⟩ := refill_spec
      (updateDrain del (deleteEndpoints del (addEndpoints add { p with endpoints := all })).size []
        (deleteEndpoints del (addEndpoints add { p with endpoints := all }))).1
      (updateDrain del (deleteEndpoints del (addEndpoints add { p with endpoints := all })).size []
        (deleteEndpoints del (addEndpoints add { p with endpoints := all }))).2
    obtain ⟨g1, g2, g3, g4, g5, g6, g7, g8, _, g10, g11, _⟩ := queue_frame_fields f1
    refine ⟨?_, ?_, ?_, ?_, ?_, ?_, ?_, ?_, ?_, ?_, ?_⟩
    · rw [g3, u1]; exact b1
    · rw [g1, u1]; exact b2
    · rw [g2, u1]; exact b3
    · rw [g5, u1]; exact b4
    · rw [g6, u1]; exact b5
    · rw [g10, u1]; exact b6
    · rw [g11, u1]; exact b7
    · intro x; rw [g4, u1]; exact b9 x
    · intro x; rw [g7, u1]; exact b10 x
    · intro x; rw [g8, u1]; exact b11 x
    · intro hb
      apply f2
      unfold Bounded at hb ⊢
      have hsz : (updateDrain del
          (deleteEndpoints del (addEndpoints add { p with endpoints := all })).size []
          (deleteEndpoints del (addEndpoints add { p with endpoints := all }))).2.size
          = p.size := by rw [u1]; exact b2
      rw [hsz]
      rw [b8] at u2
      omega
  · exact ⟨b1, b2, b3, b4, b5, b6, b7, b9, b10, b11, fun hb => by
      unfold Bounded at hb ⊢; rw [b8, b2]; exact hb⟩

/-! ## UpdateEndpoints -/

/-- C7, as stated, fails when `add` and `del` are not the difference between
the old registry and `all`: with registry `{a:1, b:1}` the call
`UpdateEndpoints(all = [c:1], add = [], del = [])` stores the snapshot
`[c:1]` but the membership set still holds `a:1` and lacks `c:1`. -/
theorem updateEndpoints_all_counterexample :
    (UpdateEndpoints echoDialer 0 ["c:1"] [] [] (mkPool [] 0 [] [])).endpoints = ["c:1"] ∧
    Load (UpdateEndpoints echoDialer 0 ["c:1"] [] [] (mkPool [] 0 [] [])).endpointMap "c:1"
      = none ∧
    Load (UpdateEndpoints echoDialer 0 ["c:1"] [] [] (mkPool [] 0 [] [])).endpointMap "a:1"
      = some () ∧
    "a:1" ∉ ["c:1"] := by
  refine ⟨rfl, rfl, rfl, by decide⟩

/-- C7 (amended). After `UpdateEndpoints(all, add, del)` with non-empty
`all` the snapshot is a copy of `all`, and the membership set contains `e`
exactly when `e` is not in `del` and was in the set before or is in `add`;
hence it equals `all` whenever `add` and `del` describe the difference
between the old membership set and `all`. -/
theorem updateEndpoints_registry (d : Dialer) (now : Int) (all add del : List String)
    (p : Pool) (hall : all ≠ []) :
    (UpdateEndpoints d now all add del p).endpoints = all ∧
    (∀ e, (Load (UpdateEndpoints d now all add del p).endpointMap e).isSome = true ↔
      (e ∈ add ∨ (Load p.endpointMap e).isSome = true) ∧ e ∉ del) ∧
    ((∀ e, e ∈ all ↔ (e ∈ add ∨ (Load p.endpointMap e).isSome = true) ∧ e ∉ del) →
      ∀ e, (Load (UpdateEndpoints d now all add del p).endpointMap e).isSome = true ↔
        e ∈ all) := by
  have hlen : ¬ all.length = 0 := fun h0 => hall (List.length_eq_zero.mp h0)
  obtain ⟨r1, _, _, _, _, _, _, r8, _, _, _⟩ := updateRegistry_frame all add del p
  have hev := evolves_rebalance d now (updateRegistry all add del p)
  have hmem : ∀ e, (Load (UpdateEndpoints d now all add del p).endpointMap e).isSome = true ↔
      (e ∈ add ∨ (Load p.endpointMap e).isSome = true) ∧ e ∉ del := by
    intro e
    have hmap : (UpdateEndpoints d now all add del p).endpointMap
        = (updateRegistry all add del p).endpointMap := by
      simp only [UpdateEndpoints, hlen, if_false]
      split
      · exact hev.endpointMap
      · rfl
    rw [hmap, r8 e]
    simp only [Bool.and_eq_true, Bool.not_eq_true', decide_eq_false_iff_not, Bool.or_eq_true,
      decide_eq_true_eq]
    exact And.comm
  refine ⟨?_, hmem, ?_⟩
  · simp only [UpdateEndpoints, hlen, if_false]
    split
    · rw [hev.endpoints]; exact r1
    · exact r1
  · intro hcons e
    rw [hmem e, hcons e]

theorem updateEndpoints_registry_witness :
    (["a:1"] : List String) ≠ [] ∧
    (UpdateEndpoints echoDialer 0 ["a:1"] [] ["b:1"]
      (mkPool [⟨1, some "a:1"⟩, ⟨2, some "b:1"⟩] 0 [] [("a:1", 1), ("b:1", 1)])).endpoints
      = ["a:1"] :=
  ⟨by decide, (updateEndpoints_registry echoDialer 0 ["a:1"] [] ["b:1"]
    (mkPool [⟨1, some "a:1"⟩, ⟨2, some "b:1"⟩] 0 [] [("a:1", 1), ("b:1", 1)]) (by decide)).1⟩

/-! ## The queue bound -/

theorem put_bounded (conn : Option Conn) (err : Option Err) (isNewConn : Bool) (p : Pool) :
    (put conn err isNewConn p).size = p.size ∧
    (Bounded p → Bounded (put conn err isNewConn p)) := by
  unfold put
  cases conn with
  | none => exact ⟨rfl, id⟩
  | some c =>
    simp only
    cases c.addr with
    | none => simp only [closeConn_delay]; exact ⟨trivial, id⟩
    | some addr =>
      simp only [closeConn_delay]
      split
      · exact ⟨rfl, id⟩
      · split
        · exact ⟨rfl, id⟩
        · split
          · rename_i hlen
            cases isNewConn with
            | true =>
              simp only [if_true, incEndpointConnCount]
              refine ⟨trivial, fun _ => ?_⟩
              simp only [Bounded, List.length_append, List.length_singleton]; omega
            | false =>
              simp only [Bool.false_eq_true, if_false]
              refine ⟨trivial, fun _ => ?_⟩
              simp only [Bounded, List.length_append, List.length_singleton]; omega
          · exact ⟨rfl, id⟩

theorem newConn_queue (d : Dialer) (now : Int) (p : Pool) :
    (newConn d now p).2.size = p.size ∧ (newConn d now p).2.connChan = p.connChan := by
  have hf := getEndpoint_frame p
  unfold newConn
  cases hg : getEndpoint p with
  | mk r q =>
    rw [hg] at hf
    simp only at hf
    have hs : q.size = p.size := by rw [hf]
    have hc : q.connChan = p.connChan := by rw [hf]
    cases r with
    | error e => exact ⟨hs, hc⟩
    | ok ep =>
      simp only [dialNewConn]
      cases d q.dialLog ep with
      | error e => exact ⟨hs, hc⟩
      | ok conn => exact ⟨hs, hc⟩

theorem get_bounded (d : Dialer) (now : Int) (p : Pool) :
    (Get d now p).2.size = p.size ∧ (Bounded p → Bounded (Get d now p).2) := by
  unfold Get
  cases hq : p.connChan with
  | cons conn rest =>
    refine ⟨rfl, fun hb => ?_⟩
    simp only [Bounded, hq, List.length_cons] at hb ⊢
    omega
  | nil =>
    obtain ⟨h1, h2⟩ := newConn_queue d now p
    simp only
    cases hn : newConn d now p with
    | mk r q =>
      rw [hn] at h1 h2
      simp only at h1 h2
      cases r with
      | error e =>
        refine ⟨h1, fun _ => ?_⟩
        simp only [Bounded]; rw [h2, hq]; simp
      | ok conn =>
        simp only
        cases conn.addr with
        | none =>
          simp only [closeConn_zero]
          refine ⟨h1, fun _ => ?_⟩
          simp only [Bounded]; rw [h2, hq]; simp
        | some a =>
          simp only [incEndpointConnCount]
          refine ⟨h1, fun _ => ?_⟩
          simp only [Bounded]; rw [h2, hq]; simp

theorem closedDrain_frame (conn : Conn) (n : Nat) (temp : List Conn) (p : Pool) :
    (closedDrain conn n temp p).2 =
      { p with connChan := (closedDrain conn n temp p).2.connChan } ∧
    (closedDrain conn n temp p).2.connChan.length ≤ p.connChan.length := by
  induction n generalizing temp p with
  | zero => exact ⟨rfl, le_refl _⟩
  | succ n ih =>
    cases hq : p.connChan with
    | nil =>
      simp only [closedDrain, hq]
      exact ⟨by rw [← hq], by simp⟩
    | cons c rest =>
      simp only [closedDrain, hq]
      split
      · obtain ⟨h1, h2⟩ := ih (temp ++ [c]) { p with connChan := rest }
        refine ⟨by rw [h1], ?_⟩
        simp only at h2
        simp only [List.length_cons]; omega
      · obtain ⟨h1, h2⟩ := ih temp { p with connChan := rest }
        refine ⟨by rw [h1], ?_⟩
        simp only at h2
        simp only [List.length_cons]; omega

theorem onConnClosed_bounded (now : Int) (conn : Conn) (err : Option Err) (p : Pool) :
    (OnConnClosed now conn err p).size = p.size ∧
    (Bounded p → Bounded (OnConnClosed now conn err p)) := by
  have hpre : ∀ q : Pool, q.size = p.size → q.connChan = p.connChan →
      (refill (closedDrain conn q.size [] q).1 (closedDrain conn q.size [] q).2).size = p.size ∧
      (Bounded p →
        Bounded (refill (closedDrain conn q.size [] q).1 (closedDrain conn q.size [] q).2)) := by
    intro q hs hc
    obtain ⟨c1, c2⟩ := closedDrain_frame conn q.size [] q
    obtain ⟨f1, f2, _, _⟩ := refill_spec (closedDrain conn q.size [] q).1
      (closedDrain conn q.size [] q).2
    obtain ⟨g1, _⟩ := queue_frame_fields f1
    have hsz : (closedDrain conn q.size [] q).2.size = p.size := by rw [c1]; exact hs
    refine ⟨by rw [g1]; exact hsz, fun hb => f2 ?_⟩
    unfold Bounded at hb ⊢
    rw [hsz]; rw [hc] at c2; omega
  unfold OnConnClosed
  cases conn.addr with
  | none => exact hpre p rfl rfl
  | some addr =>
    simp only
    cases err with
    | none =>
      obtain ⟨d1, _, _, d4, _, _⟩ := dec_fields addr p
      exact hpre _ d4 d1
    | some e =>
      obtain ⟨d1, _, _, d4, _, _⟩ := dec_fields addr (markUnavailable now addr p)
      exact hpre _ d4 d1

theorem recover_bounded (d : Dialer) (now : Int) (backoff : Int → Int) (p : Pool) :
    (recover d now backoff p).2.size = p.size ∧
    (Bounded p → Bounded (recover d now backoff p).2) := by
  have hstep : ∀ (acc : Bool × Pool) (key : String),
      (recoverStep d now backoff acc key).2.size = acc.2.size ∧
      (Bounded acc.2 → Bounded (recoverStep d now backoff acc key).2) := by
    intro acc key
    unfold recoverStep
    split
    · exact ⟨rfl, id⟩
    · simp only
      split
      · cases d acc.2.dialLog key with
        | error e => exact ⟨rfl, id⟩
        | ok conn =>
          obtain ⟨h1, h2⟩ := put_bounded (some conn) none true
            { acc.2 with dialLog := acc.2.dialLog ++ [key] }
          exact ⟨h1, fun hb => h2 hb⟩
      · exact ⟨rfl, id⟩
  have hfold : ∀ (l : List String) (acc : Bool × Pool),
      (l.foldl (recoverStep d now backoff) acc).2.size = acc.2.size ∧
      (Bounded acc.2 → Bounded (l.foldl (recoverStep d now backoff) acc).2) := by
    intro l
    induction l with
    | nil => intro acc; exact ⟨rfl, id⟩
    | cons k l ih =>
      intro acc
      obtain ⟨h1, h2⟩ := hstep acc k
      obtain ⟨h3, h4⟩ := ih (recoverStep d now backoff acc k)
      exact ⟨h3.trans h1, fun hb => h4 (h2 hb)⟩
  exact hfold _ (false, p)

theorem updateEndpoints_bounded (d : Dialer) (now : Int) (all add del : List String)
    (p : Pool) :
    (UpdateEndpoints d now all add del p).size = p.size ∧
    (Bounded p → Bounded (UpdateEndpoints d now all add del p)) := by
  obtain ⟨_, r2, _, _, _, _, _, _, _, _, r11⟩ := updateRegistry_frame all add del p
  have hev := evolves_rebalance d now (updateRegistry all add del p)
  unfold UpdateEndpoints
  split
  · exact ⟨rfl, id⟩
  · simp only
    split
    · exact ⟨hev.size.trans r2, fun hb => hev.bounded (r11 hb)⟩
    · exact ⟨r2, r11⟩

theorem step_bounded (env : Env) (op : Op) (p : Pool) :
    (step env op p).size = p.size ∧ (Bounded p → Bounded (step env op p)) := by
  cases op with
  | get => exact get_bounded _ _ _
  | put conn err => exact put_bounded _ _ _ _
  | onConnClosed conn err => exact onConnClosed_bounded _ _ _ _
  | updateEndpoints all add del => exact updateEndpoints_bounded _ _ _ _ _ _
  | recover => exact recover_bounded _ _ _ _
  | rebalance =>
    have hev := evolves_rebalance env.dialer env.now p
    exact ⟨hev.size, hev.bounded⟩
  | close =>
    simp only [step, Close]
    split
    · exact ⟨rfl, id⟩
    · exact ⟨rfl, fun _ => by simp [Bounded]⟩

theorem run_bounded (ops : List (Env × Op)) (p : Pool) :
    (run ops p).size = p.size ∧ (Bounded p → Bounded (run ops p)) := by
  induction ops generalizing p with
  | nil => exact ⟨rfl, id⟩
  | cons x ops ih =>
    obtain ⟨env, op⟩ := x
    obtain ⟨h1, h2⟩ := step_bounded env op p
    obtain ⟨h3, h4⟩ := ih (step env op p)
    exact ⟨h3.trans h1, fun hb => h4 (h2 hb)⟩

theorem initDial_queue (d : Dialer) (now : Int) (n : Nat) (p : Pool) :
    (initDial d now n p).2.2.size = p.size ∧
    (initDial d now n p).2.2.connChan = p.connChan := by
  induction n generalizing p with
  | zero => exact ⟨rfl, rfl⟩
  | succ n ih =>
    obtain ⟨h1, h2⟩ := newConn_queue d now p
    simp only [initDial]
    cases hn : newConn d now p with
    | mk r q =>
      rw [hn] at h1 h2
      simp only at h1 h2
      obtain ⟨h3, h4⟩ := ih q
      cases r with
      | error e => exact ⟨h3.trans h1, h4.trans h2⟩
      | ok conn => exact ⟨h3.trans h1, h4.trans h2⟩

theorem putAll_bounded (l : List Conn) (p : Pool) :
    (l.foldl (fun q conn => put (some conn) none true q) p).size = p.size ∧
    (Bounded p → Bounded (l.foldl (fun q conn => put (some conn) none true q) p)) := by
  induction l generalizing p with
  | nil => exact ⟨rfl, id⟩
  | cons c l ih =>
    obtain ⟨h1, h2⟩ := put_bounded (some c) none true p
    obtain ⟨h3, h4⟩ := ih (put (some c) none true p)
    exact ⟨h3.trans h1, fun hb => h4 (h2 hb)⟩

theorem initConns_bounded (maxCap : Int) (d : Dialer) (now : Int) (count : Int) (q p : Pool)
    (h : initConns maxCap d now count q = some (.ok p)) :
    p.size = q.size ∧ (Bounded q → Bounded p) := by
  unfold initConns at h
  cases hm : makeChan maxCap count with
  | none => rw [hm] at h; cases h
  | some n =>
    rw [hm] at h
    obtain ⟨i1, i2⟩ := initDial_queue d now n q
    obtain ⟨p1, p2⟩ := putAll_bounded (initDial d now n q).1 (initDial d now n q).2.2
    simp only at h
    split at h
    · cases h
    · simp only [Option.some.injEq, Except.ok.injEq] at h
      rw [← h]
      refine ⟨p1.trans i1, fun hb => p2 ?_⟩
      unfold Bounded at hb ⊢
      rw [i1, i2]; exact hb

theorem makeChan_some (maxCap n : Int) (cap : Nat) (h : makeChan maxCap n = some cap) :
    0 ≤ n ∧ n ≤ maxCap ∧ cap = n.toNat := by
  unfold makeChan at h
  split at h
  · cases h
  · simp only [Option.some.injEq] at h
    omega

theorem makeChan_ok (maxCap n : Int) (h0 : 0 ≤ n) (h1 : n ≤ maxCap) :
    makeChan maxCap n = some n.toNat := by
  unfold makeChan
  have : ¬ (n < 0 ∨ maxCap < n) := by omega
  simp only [this, if_false]

theorem makeChan_none (maxCap n : Int) (h : n < 0 ∨ maxCap < n) :
    makeChan maxCap n = none := by
  unfold makeChan
  simp only [h, if_true]

theorem newConnPool_bounded (maxCap : Int) (initEndpoints : List String)
    (connsPerEndpoint size : Int)
    (dialer : Option Dialer) (log : Option Unit) (now : Int) (p : Pool)
    (h : NewConnPool maxCap initEndpoints connsPerEndpoint size dialer log now = some (.ok p)) :
    Bounded p ∧
    p.size = (if size ≤ 0 then
        intOfFloat64 (max 1024 (float64OfInt (wrapInt ((initEndpoints.length : Int) *
          (if connsPerEndpoint ≤ 0 then 1 else connsPerEndpoint)))))
      else size).toNat := by
  unfold NewConnPool at h
  split at h
  · cases h
  · cases dialer with
    | none => cases h
    | some d =>
      cases log with
      | none => cases h
      | some u =>
        simp only at h
        split at h
        · cases h
        · rename_i cap hcap
          obtain ⟨_, _, hc⟩ := makeChan_some _ _ _ hcap
          obtain ⟨h1, h2⟩ := initConns_bounded _ _ _ _ _ _ h
          exact ⟨h2 (by simp [Bounded]), by rw [h1]; exact hc⟩

/-- C6. Queue bound: in every state reached from a successfully constructed
pool by any sequence of `Get`, `Put`, `OnConnClosed`, `UpdateEndpoints`,
`recover`, `rebalance` and `Close` calls, `NumPooled()` is at most the
capacity fixed at construction, which no call changes; that capacity is the
`size` argument, or `int(math.Max(1024, float64(requiredConnNum)))` for a
`size <= 0`, with `requiredConnNum` the wrapped `int` product. -/
theorem queue_bound_invariant (maxCap : Int) (initEndpoints : List String)
    (connsPerEndpoint size : Int)
    (dialer : Option Dialer) (log : Option Unit) (now : Int) (p : Pool)
    (ops : List (Env × Op))
    (h : NewConnPool maxCap initEndpoints connsPerEndpoint size dialer log now = some (.ok p)) :
    NumPooled (run ops p) ≤ p.size ∧
    (run ops p).size = p.size ∧
    p.size = (if size ≤ 0 then
        intOfFloat64 (max 1024 (float64OfInt (wrapInt ((initEndpoints.length : Int) *
          (if connsPerEndpoint ≤ 0 then 1 else connsPerEndpoint)))))
      else size).toNat := by
  obtain ⟨hb, hs⟩ :=
    newConnPool_bounded maxCap initEndpoints connsPerEndpoint size dialer log now p h
  obtain ⟨r1, r2⟩ := run_bounded ops p
  refine ⟨?_, r1, hs⟩
  have := r2 hb
  unfold Bounded at this
  rw [r1] at this
  exact this

theorem scenarioPool_eq :
    NewConnPool (2 ^ 44) ["a:1", "b:1"] 2 16 (some echoDialer) (some ()) 0
      = some (.ok scenarioPool) := rfl

theorem queue_bound_invariant_witness :
    NumPooled (run [(echoEnv, Op.get), (echoEnv, Op.put (some ⟨9, some "a:1"⟩) none),
        (echoEnv, Op.updateEndpoints ["a:1"] [] ["b:1"]), (echoEnv, Op.rebalance)] scenarioPool)
      ≤ scenarioPool.size :=
  (queue_bound_invariant (2 ^ 44) ["a:1", "b:1"] 2 16 (some echoDialer) (some ()) 0 scenarioPool
    [(echoEnv, Op.get), (echoEnv, Op.put (some ⟨9, some "a:1"⟩) none),
      (echoEnv, Op.updateEndpoints ["a:1"] [] ["b:1"]), (echoEnv, Op.rebalance)]
    scenarioPool_eq).1

/-! ## Endpoint removal -/

theorem decVal_iterate_none (m : Nat) : decVal^[m] none = none := by
  induction m with
  | zero => rfl
  | succ m ih => rw [Function.iterate_succ_apply]; exact ih

theorem decVal_iterate (m : Nat) (k : Int) (hk : 1 ≤ k) :
    decVal^[m] (some k) = if (m : Int) < k then some (k - m) else none := by
  induction m generalizing k with
  | zero =>
    have : (0 : Int) < k := by omega
    simp [this]
  | succ m ih =>
    rw [Function.iterate_succ_apply]
    have hpos : k > 0 := by omega
    by_cases h1 : k = 1
    · subst h1
      have hm : ¬ ((m : Int) + 1 < 1) := by omega
      simp [decVal, decVal_iterate_none, hm]
    · simp only [decVal, hpos, if_true, h1, if_false]
      rw [ih (k - 1) (by omega)]
      by_cases hlt : (m : Int) < k - 1
      · have hlt2 : ((m + 1 : Nat) : Int) < k := by push_cast; omega
        simp only [hlt, hlt2, if_true]
        congr 1
        push_cast; omega
      · have hlt2 : ¬ ((m + 1 : Nat) : Int) < k := by push_cast; omega
        simp only [hlt, hlt2, if_false]

theorem updateRegistry_drained (all add del : List String) (p : Pool)
    (hb : Bounded p) (hdel : del ≠ []) :
    (updateRegistry all add del p).connChan = p.connChan.filter
      (fun c => match c.addr with
        | none => false
        | some a => decide (a ∉ del)) ∧
    (updateRegistry all add del p).closedDelayed = p.closedDelayed ++ p.connChan.filter
      (fun c => match c.addr with
        | none => false
        | some a => decide (a ∈ del)) ∧
    (updateRegistry all add del p).closedNow = p.closedNow ++ p.connChan.filter
      (fun c => decide (c.addr = none)) ∧
    (∀ e, Load (updateRegistry all add del p).endpointConnCounts e =
      decVal^[p.connChan.countP (fun c => decide (c.addr = some e) && decide (e ∈ del))]
        (Load p.endpointConnCounts e)) := by
  obtain ⟨a1, _⟩ := addEndpoints_spec add { p with endpoints := all }
  obtain ⟨d1, _, _, _⟩ := deleteEndpoints_spec del (addEndpoints add { p with endpoints := all })
  have hlen : del.length > 0 := List.length_pos.mpr hdel
  have c1 : (deleteEndpoints del (addEndpoints add { p with endpoints := all })).connChan
      = p.connChan := by rw [d1, a1]
  have c2 : (deleteEndpoints del (addEndpoints add { p with endpoints := all })).size
      = p.size := by rw [d1, a1]
  have c3 : (deleteEndpoints del (addEndpoints add { p with endpoints := all })).closedDelayed
      = p.closedDelayed := by rw [d1, a1]
  have c4 : (deleteEndpoints del (addEndpoints add { p with endpoints := all })).closedNow
      = p.closedNow := by rw [d1, a1]
  have c5 : (deleteEndpoints del
      (addEndpoints add { p with endpoints := all })).endpointConnCounts
      = p.endpointConnCounts := by rw [d1, a1]
  obtain ⟨u1, u2, u3, u4, u5⟩ := updateDrain_full del
    (deleteEndpoints del (addEndpoints add { p with endpoints := all })).size []
    (deleteEndpoints del (addEndpoints add { p with endpoints := all }))
    (by rw [c1, c2]; exact hb)
  obtain ⟨uf, _⟩ := updateDrain_frame del
    (deleteEndpoints del (addEndpoints add { p with endpoints := all })).size []
    (deleteEndpoints del (addEndpoints add { p with endpoints := all }))
  have usz : (updateDrain del
      (deleteEndpoints del (addEndpoints add { p with endpoints := all })).size []
      (deleteEndpoints del (addEndpoints add { p with endpoints := all }))).2.size = p.size := by
    rw [uf]; exact c2
  rw [c1] at u2 u3 u4 u5
  rw [c3] at u3
  rw [c4] at u4
  rw [c5] at u5
  obtain ⟨f1, f2⟩ := refill_exact
    (updateDrain del (deleteEndpoints del (addEndpoints add { p with endpoints := all })).size []
      (deleteEndpoints del (addEndpoints add { p with endpoints := all }))).1
    (updateDrain del (deleteEndpoints del (addEndpoints add { p with endpoints := all })).size []
      (deleteEndpoints del (addEndpoints add { p with endpoints := all }))).2
    (by
      rw [u1, u2, usz]
      simp only [List.length_nil, List.nil_append, Nat.zero_add]
      exact le_trans (List.length_filter_le _ _) hb)
  obtain ⟨rf, _, _, _⟩ := refill_spec
    (updateDrain del (deleteEndpoints del (addEndpoints add { p with endpoints := all })).size []
      (deleteEndpoints del (addEndpoints add { p with endpoints := all }))).1
    (updateDrain del (deleteEndpoints del (addEndpoints add { p with endpoints := all })).size []
      (deleteEndpoints del (addEndpoints add { p with endpoints := all }))).2
  obtain ⟨_, _, _, _, _, _, _, _, g9, _, _, g12⟩ := queue_frame_fields rf
  have hdef : updateRegistry all add del p = refill
      (updateDrain del (deleteEndpoints del (addEndpoints add { p with endpoints := all })).size []
        (deleteEndpoints del (addEndpoints add { p with endpoints := all }))).1
      (updateDrain del (deleteEndpoints del (addEndpoints add { p with endpoints := all })).size []
        (deleteEndpoints del (addEndpoints add { p with endpoints := all }))).2 := by
    unfold updateRegistry
    simp only [hlen, if_true]
  rw [hdef]
  refine ⟨?_, ?_, ?_, ?_⟩
  · rw [f1, u1, u2]; simp
  · rw [f2, u3]
  · rw [g12, u4]
  · intro e; rw [g9, u5 e]

/-- C8. Endpoint removal: for a pool within its capacity, non-empty `all`
and `e` in `del`, after `UpdateEndpoints(all, add, del)` (rebalance
included) `e` is absent from the membership set, from the unavailable map
and from the retry counts, no queued connection has remote address `e`,
every connection to `e` that was queued is in the delayed close, and the
count of `e` has been decremented once per drained connection: a stored
count `k >= 1` with `m` drained connections becomes `k - m` when `m < k` and
the entry is absent otherwise. -/
theorem updateEndpoints_removal (d : Dialer) (now : Int) (all add del : List String)
    (p : Pool) (e : String) (hb : Bounded p) (hall : all ≠ []) (he : e ∈ del) :
    Load (UpdateEndpoints d now all add del p).endpointMap e = none ∧
    Load (UpdateEndpoints d now all add del p).unavailable e = none ∧
    Load (UpdateEndpoints d now all add del p).retryCounts e = none ∧
    (∀ c, c ∈ (UpdateEndpoints d now all add del p).connChan → c.addr ≠ some e) ∧
    (∀ c, c ∈ p.connChan → c.addr = some e →
      c ∈ (UpdateEndpoints d now all add del p).closedDelayed) ∧
    Load (UpdateEndpoints d now all add del p).endpointConnCounts e =
      decVal^[p.connChan.countP (fun c => decide (c.addr = some e))]
        (Load p.endpointConnCounts e) ∧
    (Load p.endpointConnCounts e = none →
      Load (UpdateEndpoints d now all add del p).endpointConnCounts e = none) ∧
    (∀ k, Load p.endpointConnCounts e = some k → 1 ≤ k →
      Load (UpdateEndpoints d now all add del p).endpointConnCounts e =
        if ((p.connChan.countP (fun c => decide (c.addr = some e)) : Nat) : Int) < k
        then some (k - (p.connChan.countP (fun c => decide (c.addr = some e)) : Nat))
        else none) := by
  have hlen : ¬ all.length = 0 := fun h0 => hall (List.length_eq_zero.mp h0)
  have hdel : del ≠ [] := List.ne_nil_of_mem he
  have hdl : del.length > 0 := List.length_pos.mpr hdel
  obtain ⟨_, _, _, _, _, _, _, r8, r9, r10, _⟩ := updateRegistry_frame all add del p
  obtain ⟨q1, q2, _, q4⟩ := updateRegistry_drained all add del p hb hdel
  have hev := evolves_rebalance d now (updateRegistry all add del p)
  have hdef : UpdateEndpoints d now all add del p
      = rebalance d now (updateRegistry all add del p) := by
    simp only [UpdateEndpoints, hlen, if_false, hdl, or_true, if_true]
  have hmap : Load (updateRegistry all add del p).endpointMap e = none := by
    have := r8 e
    simp only [he, decide_True, Bool.not_true, Bool.false_and] at this
    cases hl : Load (updateRegistry all add del p).endpointMap e with
    | none => rfl
    | some u => rw [hl] at this; cases this
  obtain ⟨o1, o2, o3⟩ := hev.outside e hmap
  have hcount : p.connChan.countP (fun c => decide (c.addr = some e) && decide (e ∈ del))
      = p.connChan.countP (fun c => decide (c.addr = some e)) := by
    apply List.countP_congr
    intro c _
    simp [he]
  have hinv : Load (UpdateEndpoints d now all add del p).endpointConnCounts e =
      decVal^[p.connChan.countP (fun c => decide (c.addr = some e))]
        (Load p.endpointConnCounts e) := by
    rw [hdef, o3, q4 e, hcount]
  rw [hdef] at hinv ⊢
  refine ⟨?_, ?_, ?_, ?_, ?_, hinv, ?_, ?_⟩
  · rw [hev.endpointMap]; exact hmap
  · rw [o1, r9 e]; simp [he]
  · rw [o2, r10 e]; simp [he]
  · intro c hc
    rcases hev.queued c hc with h | ⟨a, ha, hm⟩
    · rw [q1, List.mem_filter] at h
      intro hce
      rw [hce] at h
      simp [he] at h
    · intro hce
      rw [ha] at hce
      have hae : a = e := Option.some.inj hce
      rw [hae, hmap] at hm
      cases hm
  · intro c hc hce
    obtain ⟨l, hl⟩ := hev.closedDelayed
    rw [hl, q2]
    apply List.mem_append_left
    apply List.mem_append_right
    rw [List.mem_filter]
    exact ⟨hc, by rw [hce]; simp [he]⟩
  · intro hnone
    rw [hinv, hnone, decVal_iterate_none]
  · intro k hk hk1
    rw [hinv, hk, decVal_iterate _ _ hk1]

theorem updateEndpoints_removal_witness :
    Bounded (mkPool [⟨1, some "a:1"⟩, ⟨2, some "b:1"⟩, ⟨3, some "b:1"⟩] 0 []
      [("a:1", 1), ("b:1", 2)]) ∧
    Load (UpdateEndpoints echoDialer 0 ["a:1"] [] ["b:1"]
      (mkPool [⟨1, some "a:1"⟩, ⟨2, some "b:1"⟩, ⟨3, some "b:1"⟩] 0 []
        [("a:1", 1), ("b:1", 2)])).endpointMap "b:1" = none ∧
    (∀ c, c ∈ (UpdateEndpoints echoDialer 0 ["a:1"] [] ["b:1"]
      (mkPool [⟨1, some "a:1"⟩, ⟨2, some "b:1"⟩, ⟨3, some "b:1"⟩] 0 []
        [("a:1", 1), ("b:1", 2)])).connChan → c.addr ≠ some "b:1") :=
  have h := updateEndpoints_removal echoDialer 0 ["a:1"] [] ["b:1"]
    (mkPool [⟨1, some "a:1"⟩, ⟨2, some "b:1"⟩, ⟨3, some "b:1"⟩] 0 []
      [("a:1", 1), ("b:1", 2)]) "b:1" (by unfold Bounded; decide) (by decide) (by decide)
  ⟨by unfold Bounded; decide, h.1, h.2.2.2.1⟩

/-! ## Queue contents after `UpdateEndpoints` -/

/-- C9, as stated, fails for a queued connection whose peer has closed it:
with `del` empty no drain runs, so after
`UpdateEndpoints(all = [a:1, b:1, c:1], add = [c:1], del = [])` the queue
still holds the connection with no remote address. -/
theorem updateEndpoints_queue_counterexample :
    (⟨1, none⟩ : Conn) ∈ (UpdateEndpoints echoDialer 0 ["a:1", "b:1", "c:1"] ["c:1"] []
      (mkPool [⟨1, none⟩] 0 [] [])).connChan ∧
    ¬ (∃ a, (⟨1, none⟩ : Conn).addr = some a ∧ a ∈ ["a:1", "b:1", "c:1"]) := by
  refine ⟨by decide, ?_⟩
  rintro ⟨a, ha, _⟩
  cases ha

theorem updateRegistry_nodel (all add : List String) (p : Pool) :
    (updateRegistry all add [] p).connChan = p.connChan := by
  obtain ⟨a1, _⟩ := addEndpoints_spec add { p with endpoints := all }
  have h : updateRegistry all add [] p = addEndpoints add { p with endpoints := all } := by
    simp [updateRegistry, deleteEndpoints]
  rw [h, a1]

/-- C9 (amended). For a pool within its capacity whose queued connections
all have a present remote address in the membership set, and a call
`UpdateEndpoints(all, add, del)` with non-empty `all` in which every
endpoint of the old membership set or of `add` that is not in `del` is an
element of `all`: once the call (rebalance included) has returned, every
queued connection has a remote address that is an element of `all`. -/
theorem updateEndpoints_queue_in_all (d : Dialer) (now : Int) (all add del : List String)
    (p : Pool) (hb : Bounded p) (hall : all ≠ [])
    (hq : ∀ c, c ∈ p.connChan → ∃ a, c.addr = some a ∧ (Load p.endpointMap a).isSome = true)
    (hhint : ∀ e, (e ∈ add ∨ (Load p.endpointMap e).isSome = true) → e ∉ del → e ∈ all) :
    ∀ c, c ∈ (UpdateEndpoints d now all add del p).connChan →
      ∃ a, c.addr = some a ∧ a ∈ all := by
  have hlen : ¬ all.length = 0 := fun h0 => hall (List.length_eq_zero.mp h0)
  obtain ⟨_, _, _, _, _, _, _, r8, _, _, _⟩ := updateRegistry_frame all add del p
  have hev := evolves_rebalance d now (updateRegistry all add del p)
  have hreg : ∀ c, c ∈ (updateRegistry all add del p).connChan →
      ∃ a, c.addr = some a ∧ a ∈ all := by
    intro c hc
    by_cases hdel : del = []
    · subst hdel
      rw [updateRegistry_nodel] at hc
      obtain ⟨a, ha, hm⟩ := hq c hc
      exact ⟨a, ha, hhint a (Or.inr hm) (by simp)⟩
    · obtain ⟨q1, _, _, _⟩ := updateRegistry_drained all add del p hb hdel
      rw [q1, List.mem_filter] at hc
      obtain ⟨a, ha, hm⟩ := hq c hc.1
      have hnd : a ∉ del := by
        have := hc.2
        rw [ha] at this
        simpa using this
      exact ⟨a, ha, hhint a (Or.inr hm) hnd⟩
  have hnew : ∀ a, (Load (updateRegistry all add del p).endpointMap a).isSome = true →
      a ∈ all := by
    intro a hm
    rw [r8 a] at hm
    simp only [Bool.and_eq_true, Bool.not_eq_true', decide_eq_false_iff_not, Bool.or_eq_true,
      decide_eq_true_eq] at hm
    exact hhint a hm.2 hm.1
  intro c hc
  simp only [UpdateEndpoints, hlen, if_false] at hc
  split at hc
  · rcases hev.queued c hc with h | ⟨a, ha, hm⟩
    · exact hreg c h
    · exact ⟨a, ha, hnew a hm⟩
  · exact hreg c hc

theorem updateEndpoints_queue_in_all_witness :
    Bounded (mkPool [⟨1, some "a:1"⟩, ⟨2, some "b:1"⟩] 0 [] [("a:1", 1), ("b:1", 1)]) ∧
    ∀ c, c ∈ (UpdateEndpoints echoDialer 0 ["a:1"] [] ["b:1"]
      (mkPool [⟨1, some "a:1"⟩, ⟨2, some "b:1"⟩] 0 [] [("a:1", 1), ("b:1", 1)])).connChan →
      ∃ a, c.addr = some a ∧ a ∈ ["a:1"] :=
  ⟨by unfold Bounded; decide, updateEndpoints_queue_in_all echoDialer 0 ["a:1"] [] ["b:1"]
    (mkPool [⟨1, some "a:1"⟩, ⟨2, some "b:1"⟩] 0 [] [("a:1", 1), ("b:1", 1)])
    (by unfold Bounded; decide) (by decide)
    (by
      intro c hc
      simp only [mkPool, List.mem_cons, List.mem_singleton, List.not_mem_nil, or_false] at hc
      rcases hc with h | h
      · exact ⟨"a:1", by rw [h], by decide⟩
      · exact ⟨"b:1", by rw [h], by decide⟩)
    (by
      intro e h1 h2
      rcases h1 with h | h
      · cases h
      · simp only [mkPool, Load] at h
        by_cases ha : "a:1" = e
        · rw [← ha]; decide
        · by_cases hb : "b:1" = e
          · rw [← hb] at h2; exact absurd (by decide) h2
          · simp [ha, hb] at h)⟩

/-! ## Endpoint addition -/

theorem getExpected_pos (p : Pool) : 1 ≤ getExpectedConnPerEndpoint p := by
  unfold getExpectedConnPerEndpoint
  simp only
  split
  · exact le_refl _
  · split
    · exact le_refl _
    · split
      · exact le_refl _
      · exact le_max_left _ _

theorem load_isSome_mem_keys {V : Type} (m : List (String × V)) (a : String)
    (h : (Load m a).isSome = true) : a ∈ Keys m := by
  induction m with
  | nil => simp [Load] at h
  | cons x m ih =>
    obtain ⟨k, v⟩ := x
    by_cases hk : k = a
    · subst hk; simp [Keys]
    · simp only [Load, hk, if_false] at h
      have := ih h
      simp only [Keys, List.map_cons, List.mem_cons] at this ⊢
      exact Or.inr this

theorem put_counts_other (c : Conn) (b : String) (p : Pool) (hc : c.addr ≠ some b) :
    Load (put (some c) none true p).endpointConnCounts b = Load p.endpointConnCounts b := by
  unfold put
  simp only
  cases ha : c.addr with
  | none => simp only [closeConn_delay]
  | some addr =>
    have hne : ¬ addr = b := fun h => hc (by rw [ha, h])
    simp only [closeConn_delay]
    split
    · rfl
    · split
      · rfl
      · split
        · simp only [if_true, incEndpointConnCount, load_store, hne, if_false]
        · rfl

theorem put_prefix (c : Conn) (p : Pool) :
    ∃ l, (put (some c) none true p).connChan = p.connChan ++ l := by
  unfold put
  simp only
  cases c.addr with
  | none => simp only [closeConn_delay]; exact ⟨[], by simp⟩
  | some addr =>
    simp only [closeConn_delay]
    split
    · exact ⟨[], by simp⟩
    · split
      · exact ⟨[], by simp⟩
      · split
        · simp only [if_true, incEndpointConnCount]; exact ⟨[c], rfl⟩
        · exact ⟨[], by simp⟩

theorem dialNewConn_frame (d : Dialer) (now : Int) (ep : String) (p : Pool) :
    (dialNewConn d now ep p).2.connChan = p.connChan ∧
    (dialNewConn d now ep p).2.endpointConnCounts = p.endpointConnCounts ∧
    (dialNewConn d now ep p).2.size = p.size ∧
    (dialNewConn d now ep p).2.endpointMap = p.endpointMap ∧
    (dialNewConn d now ep p).1 = (d p.dialLog ep) := by
  unfold dialNewConn
  cases d p.dialLog ep with
  | error e => exact ⟨rfl, rfl, rfl, rfl, rfl⟩
  | ok c => exact ⟨rfl, rfl, rfl, rfl, rfl⟩

theorem addConns_counts_other (d : Dialer) (now : Int) (addr b : String) (n : Nat) (p : Pool)
    (hne : addr ≠ b)
    (hd : ∀ log ep c, d log ep = .ok c → c.addr = some b → ep = b) :
    Load (addConns d now addr n p).endpointConnCounts b = Load p.endpointConnCounts b := by
  induction n generalizing p with
  | zero => rfl
  | succ n ih =>
    obtain ⟨_, f2, _, _, f5⟩ := dialNewConn_frame d now addr p
    simp only [addConns]
    cases hdn : dialNewConn d now addr p with
    | mk r p1 =>
      rw [hdn] at f2 f5
      simp only at f2 f5
      cases r with
      | error e => simp only; rw [f2]
      | ok conn =>
        simp only
        have hca : conn.addr ≠ some b := fun h => hne (hd _ _ _ f5.symm h)
        rw [ih, put_counts_other conn b p1 hca, f2]

theorem addConns_prefix (d : Dialer) (now : Int) (addr : String) (n : Nat) (p : Pool) :
    ∃ l, (addConns d now addr n p).connChan = p.connChan ++ l := by
  induction n generalizing p with
  | zero => exact ⟨[], by simp [addConns]⟩
  | succ n ih =>
    obtain ⟨f1, _, _, _, _⟩ := dialNewConn_frame d now addr p
    simp only [addConns]
    cases hdn : dialNewConn d now addr p with
    | mk r p1 =>
      rw [hdn] at f1
      simp only at f1
      cases r with
      | error e => exact ⟨[], by simp [f1]⟩
      | ok conn =>
        simp only
        obtain ⟨l1, h1⟩ := put_prefix conn p1
        obtain ⟨l2, h2⟩ := ih (put (some conn) none true p1)
        exact ⟨l1 ++ l2, by rw [h2, h1, f1, List.append_assoc]⟩

theorem addConns_room (d : Dialer) (now : Int) (b : String) (n : Nat) (s : Pool) (N : Nat)
    (hd : ∀ log, ∃ c, d log b = .ok c ∧ c.addr = some b)
    (hmap : (Load s.endpointMap b).isSome = true) (hsz : s.size = N)
    (hroom : (addConns d now b n s).connChan.length < N) :
    Load (addConns d now b n s).endpointConnCounts b =
      (if n = 0 then Load s.endpointConnCounts b
       else some ((Load s.endpointConnCounts b).getD 0 + (n : Int))) ∧
    (1 ≤ n → ∃ c, c ∈ (addConns d now b n s).connChan ∧ c.addr = some b) := by
  induction n generalizing s with
  | zero => exact ⟨by simp [addConns], fun h => by omega⟩
  | succ n ih =>
    obtain ⟨c, hc, hca⟩ := hd s.dialLog
    obtain ⟨u, hu⟩ := Option.isSome_iff_exists.mp hmap
    have hstep : addConns d now b (n + 1) s = addConns d now b n
        (put (some c) none true { s with dialLog := s.dialLog ++ [b] }) := by
      simp only [addConns, dialNewConn, hc]
    rw [hstep] at hroom ⊢
    obtain ⟨l1, h1⟩ := put_prefix c { s with dialLog := s.dialLog ++ [b] }
    obtain ⟨l2, h2⟩ := addConns_prefix d now b n
      (put (some c) none true { s with dialLog := s.dialLog ++ [b] })
    have hlt : s.connChan.length < s.size := by
      rw [h2, h1] at hroom
      simp only [List.length_append] at hroom
      omega
    have hput : put (some c) none true { s with dialLog := s.dialLog ++ [b] } =
        { s with dialLog := s.dialLog ++ [b], connChan := s.connChan ++ [c],
                 endpointConnCounts := Store s.endpointConnCounts b
                   ((Load s.endpointConnCounts b).getD 0 + 1) } := by
      simp [put, hca, hu, hlt, incEndpointConnCount]
    rw [hput] at hroom h2 ⊢
    obtain ⟨i1, _⟩ := ih _ (by simpa using hmap) (by simpa using hsz) hroom
    refine ⟨?_, fun _ => ⟨c, ?_, hca⟩⟩
    · rw [i1]
      simp only [load_store, if_true, Option.getD_some]
      by_cases hn : n = 0
      · simp [hn]
      · simp only [hn, if_false, Nat.succ_ne_zero]
        congr 1
        push_cast; omega
    · rw [h2]
      simp

theorem removeEndpointConn_counts (addr : String) (count : Int) (p : Pool) :
    (removeEndpointConn addr count p).endpointConnCounts = p.endpointConnCounts := by
  obtain ⟨r1, _⟩ := removeDrain_spec addr count p.size 0 [] p
  obtain ⟨f1, _⟩ := refill_spec (removeDrain addr count p.size 0 [] p).1
    (removeDrain addr count p.size 0 [] p).2
  obtain ⟨_, _, _, _, _, _, _, _, a9, _⟩ := queue_frame_fields r1
  obtain ⟨_, _, _, _, _, _, _, _, b9, _⟩ := queue_frame_fields f1
  exact b9.trans a9

theorem rebalanceCounts_absent (d : Dialer) (now : Int) (expected : Int) (s : Pool)
    (addr b : String)
    (hd : ∀ log ep c, d log ep = .ok c → c.addr = some b → ep = b)
    (hb : Load s.endpointConnCounts b = none) :
    Load (rebalanceCounts d now expected s addr).endpointConnCounts b = none := by
  by_cases hab : addr = b
  · subst hab
    simp only [rebalanceCounts, hb]
  · unfold rebalanceCounts
    split
    · exact hb
    · split
      · split
        · exact hb
        · rw [addConns_counts_other d now addr b _ s hab hd]; exact hb
      · split
        · rw [removeEndpointConn_counts]; exact hb
        · exact hb

theorem rebalanceMap_other (d : Dialer) (now : Int) (expected : Int) (s : Pool)
    (addr b : String) (hab : addr ≠ b)
    (hd : ∀ log ep c, d log ep = .ok c → c.addr = some b → ep = b) :
    Load (rebalanceMap d now expected s addr).endpointConnCounts b
      = Load s.endpointConnCounts b := by
  unfold rebalanceMap
  split
  · rfl
  · split
    · rfl
    · exact addConns_counts_other d now addr b _ s hab hd

theorem rebalanceMap_prefix (d : Dialer) (now : Int) (expected : Int) (s : Pool)
    (addr : String) :
    ∃ l, (rebalanceMap d now expected s addr).connChan = s.connChan ++ l := by
  unfold rebalanceMap
  split
  · exact ⟨[], by simp⟩
  · split
    · exact ⟨[], by simp⟩
    · exact addConns_prefix d now addr _ s

theorem rebalanceMap_foldl_prefix (d : Dialer) (now : Int) (expected : Int)
    (l : List String) (s : Pool) :
    ∃ l2, (l.foldl (rebalanceMap d now expected) s).connChan = s.connChan ++ l2 := by
  induction l generalizing s with
  | nil => exact ⟨[], by simp⟩
  | cons a l ih =>
    obtain ⟨l1, h1⟩ := rebalanceMap_prefix d now expected s a
    obtain ⟨l2, h2⟩ := ih (rebalanceMap d now expected s a)
    exact ⟨l1 ++ l2, by rw [List.foldl_cons, h2, h1, List.append_assoc]⟩

theorem rebalanceMap_foldl_done (d : Dialer) (now : Int) (expected : Int)
    (l : List String) (s : Pool) (b : String)
    (hd : ∀ log ep c, d log ep = .ok c → c.addr = some b → ep = b)
    (hb : Load s.endpointConnCounts b = some expected) :
    Load (l.foldl (rebalanceMap d now expected) s).endpointConnCounts b = some expected := by
  induction l generalizing s with
  | nil => exact hb
  | cons a l ih =>
    rw [List.foldl_cons]
    apply ih
    by_cases hab : a = b
    · subst hab
      have : rebalanceMap d now expected s a = s := by
        unfold rebalanceMap
        split
        · rfl
        · simp [hb]
      rw [this]; exact hb
    · rw [rebalanceMap_other d now expected s a b hab hd]; exact hb

theorem rebalanceCounts_foldl_absent (d : Dialer) (now : Int) (expected : Int)
    (l : List String) (s : Pool) (b : String)
    (hd : ∀ log ep c, d log ep = .ok c → c.addr = some b → ep = b)
    (hb : Load s.endpointConnCounts b = none) :
    Load (l.foldl (rebalanceCounts d now expected) s).endpointConnCounts b = none := by
  induction l generalizing s with
  | nil => exact hb
  | cons a l ih =>
    rw [List.foldl_cons]
    exact ih _ (rebalanceCounts_absent d now expected s a b hd hb)

theorem rebalanceMap_foldl_adds (d : Dialer) (now : Int) (expected : Int)
    (l : List String) (s : Pool) (b : String) (N : Nat) (hE : 1 ≤ expected)
    (hd1 : ∀ log, ∃ c, d log b = .ok c ∧ c.addr = some b)
    (hd2 : ∀ log ep c, d log ep = .ok c → c.addr = some b → ep = b)
    (hmap : (Load s.endpointMap b).isSome = true) (hsz : s.size = N)
    (hb : Load s.endpointConnCounts b = none) (hmem : b ∈ l)
    (hroom : (l.foldl (rebalanceMap d now expected) s).connChan.length < N) :
    Load (l.foldl (rebalanceMap d now expected) s).endpointConnCounts b = some expected ∧
    ∃ c, c ∈ (l.foldl (rebalanceMap d now expected) s).connChan ∧ c.addr = some b := by
  induction l generalizing s with
  | nil => cases hmem
  | cons a l ih =>
    rw [List.foldl_cons] at hroom ⊢
    by_cases hab : a = b
    · subst hab
      obtain ⟨u, hu⟩ := Option.isSome_iff_exists.mp hmap
      have hstep : rebalanceMap d now expected s a = addConns d now a expected.toNat s := by
        simp [rebalanceMap, hu, hb]
      rw [hstep] at hroom ⊢
      obtain ⟨l2, h2⟩ := rebalanceMap_foldl_prefix d now expected l
        (addConns d now a expected.toNat s)
      have hroom2 : (addConns d now a expected.toNat s).connChan.length < N := by
        rw [h2] at hroom
        simp only [List.length_append] at hroom
        omega
      obtain ⟨c1, c2⟩ := addConns_room d now a expected.toNat s N hd1 hmap hsz hroom2
      have hn0 : ¬ expected.toNat = 0 := by omega
      have hcast : ((expected.toNat : Nat) : Int) = expected := Int.toNat_of_nonneg (by omega)
      rw [hb] at c1
      simp only [hn0, if_false, Option.getD_none, zero_add, hcast] at c1
      obtain ⟨c, hc, hca⟩ := c2 (by omega)
      refine ⟨rebalanceMap_foldl_done d now expected l _ a hd2 c1, c, ?_, hca⟩
      rw [h2]
      exact List.mem_append_left _ hc
    · have hev := evolves_rebalanceMap d now expected s a
      apply ih (rebalanceMap d now expected s a)
      · rw [hev.endpointMap]; exact hmap
      · rw [hev.size]; exact hsz
      · rw [rebalanceMap_other d now expected s a b hab hd2]; exact hb
      · rcases List.mem_cons.mp hmem with h | h
        · exact absurd h.symm hab
        · exact h
      · exact hroom

theorem getN_queue (d : Dialer) (now : Int) (n : Nat) (p : Pool)
    (hn : n ≤ p.connChan.length) :
    (getN d now n p).connChan = p.connChan.drop n := by
  induction n with
  | zero => simp [getN]
  | succ n ih =>
    have h1 := ih (by omega)
    simp only [getN, Get]
    cases hq : (getN d now n p).connChan with
    | nil =>
      rw [hq] at h1
      have := congrArg List.length h1
      simp only [List.length_nil, List.length_drop] at this
      omega
    | cons c rest =>
      simp only
      rw [hq] at h1
      rw [← List.drop_drop, ← h1]
      rfl

theorem get_reaches (d : Dialer) (now : Int) (p : Pool) (c : Conn) (hc : c ∈ p.connChan) :
    ∃ n, (Get d now (getN d now n p)).1 = .ok c := by
  obtain ⟨i, hi, hci⟩ := List.getElem_of_mem hc
  refine ⟨i, ?_⟩
  have h1 := getN_queue d now i p (by omega)
  have h2 : p.connChan.drop i = c :: p.connChan.drop (i + 1) := by
    rw [← hci]
    exact List.drop_eq_getElem_cons hi
  rw [h2] at h1
  simp only [Get, h1]

theorem updateRegistry_nodel_counts (all add : List String) (p : Pool) :
    (updateRegistry all add [] p).endpointConnCounts = p.endpointConnCounts := by
  obtain ⟨a1, _⟩ := addEndpoints_spec add { p with endpoints := all }
  have h : updateRegistry all add [] p = addEndpoints add { p with endpoints := all } := by
    simp [updateRegistry, deleteEndpoints]
  rw [h, a1]

/-- C10, as stated, fails when a dial of another endpoint yields a
connection whose remote address is `b`: the first pass of `rebalance` tops
up `a:1` with one dial, the connection reports `b:1` and is counted for
`b:1`, so the second pass skips `b:1` and its count stays at 1 while the
target is 2. -/
theorem updateEndpoints_addition_counterexample :
    "b:1" ∈ ["b:1"] ∧ "b:1" ∈ ["a:1", "b:1", "c:1"] ∧ "b:1" ∉ ([] : List String) ∧
    Load crossPool.endpointConnCounts "b:1" = none ∧
    (∀ log, crossDialer log "b:1" = .ok ⟨log.length, some "b:1"⟩) ∧
    (UpdateEndpoints crossDialer 0 ["a:1", "b:1", "c:1"] ["b:1"] [] crossPool).connChan.length
      < crossPool.size ∧
    getExpectedConnPerEndpoint (updateRegistry ["a:1", "b:1", "c:1"] ["b:1"] [] crossPool) = 2 ∧
    Load (UpdateEndpoints crossDialer 0 ["a:1", "b:1", "c:1"] ["b:1"] []
      crossPool).endpointConnCounts "b:1" = some 1 := by
  refine ⟨by decide, by decide, by decide, rfl, fun _ => rfl, by decide, by decide, by decide⟩

/-- C10 (amended). Endpoint addition: for a pool within its capacity, if
`b` is in `add` and in `all`, not in `del`, has no count entry, every dial
of `b` succeeds with a connection whose address is `b`, no dial of another
endpoint yields a connection whose address is `b`, and the queue is not full
when `UpdateEndpoints(all, add, del)` returns, then the count of `b` equals
the rebalance target (at least 1), the queue contains a connection to `b`,
and a sequence of `Get` calls returns it. -/
theorem updateEndpoints_addition (d : Dialer) (now : Int) (all add del : List String)
    (p : Pool) (b : String) (hbd : Bounded p) (hall : all ≠ [])
    (hadd : b ∈ add) (_hball : b ∈ all) (hdel : b ∉ del)
    (hinv : Load p.endpointConnCounts b = none)
    (hd1 : ∀ log, ∃ c, d log b = .ok c ∧ c.addr = some b)
    (hd2 : ∀ log ep c, d log ep = .ok c → c.addr = some b → ep = b)
    (hroom : (UpdateEndpoints d now all add del p).connChan.length < p.size) :
    Load (UpdateEndpoints d now all add del p).endpointConnCounts b =
      some (getExpectedConnPerEndpoint (updateRegistry all add del p)) ∧
    1 ≤ getExpectedConnPerEndpoint (updateRegistry all add del p) ∧
    (∃ c, c ∈ (UpdateEndpoints d now all add del p).connChan ∧ c.addr = some b ∧
      ∀ (d2 : Dialer) (now2 : Int), ∃ n,
        (Get d2 now2 (getN d2 now2 n (UpdateEndpoints d now all add del p))).1 = .ok c) := by
  have hlen : ¬ all.length = 0 := fun h0 => hall (List.length_eq_zero.mp h0)
  have haddl : add.length > 0 := List.length_pos.mpr (List.ne_nil_of_mem hadd)
  obtain ⟨_, r2, _, _, _, _, _, r8, _, _, _⟩ := updateRegistry_frame all add del p
  have hE := getExpected_pos (updateRegistry all add del p)
  have hE0 : ¬ getExpectedConnPerEndpoint (updateRegistry all add del p) ≤ 0 := by omega
  have hmap : (Load (updateRegistry all add del p).endpointMap b).isSome = true := by
    rw [r8 b]; simp [hadd, hdel]
  have hcnt : Load (updateRegistry all add del p).endpointConnCounts b = none := by
    by_cases hdl : del = []
    · subst hdl
      rw [updateRegistry_nodel_counts]; exact hinv
    · obtain ⟨_, _, _, q4⟩ := updateRegistry_drained all add del p hbd hdl
      rw [q4 b, hinv, decVal_iterate_none]
  have hdef : UpdateEndpoints d now all add del p =
      (Keys ((Keys (updateRegistry all add del p).endpointConnCounts).foldl
        (rebalanceCounts d now (getExpectedConnPerEndpoint (updateRegistry all add del p)))
        (updateRegistry all add del p)).endpointMap).foldl
        (rebalanceMap d now (getExpectedConnPerEndpoint (updateRegistry all add del p)))
        ((Keys (updateRegistry all add del p).endpointConnCounts).foldl
          (rebalanceCounts d now (getExpectedConnPerEndpoint (updateRegistry all add del p)))
          (updateRegistry all add del p)) := by
    simp only [UpdateEndpoints, hlen, if_false, haddl, true_or, if_true, rebalance, hE0]
  have hev1 := evolves_foldl _
    (evolves_rebalanceCounts d now (getExpectedConnPerEndpoint (updateRegistry all add del p)))
    (Keys (updateRegistry all add del p).endpointConnCounts) (updateRegistry all add del p)
  have hmap1 := hmap
  rw [← hev1.endpointMap] at hmap1
  have hcnt1 := rebalanceCounts_foldl_absent d now
    (getExpectedConnPerEndpoint (updateRegistry all add del p))
    (Keys (updateRegistry all add del p).endpointConnCounts) (updateRegistry all add del p)
    b hd2 hcnt
  rw [hdef] at hroom ⊢
  obtain ⟨h1, c, hc, hca⟩ := rebalanceMap_foldl_adds d now
    (getExpectedConnPerEndpoint (updateRegistry all add del p)) _ _ b p.size hE hd1 hd2
    hmap1 (hev1.size.trans r2) hcnt1 (load_isSome_mem_keys _ _ hmap1) hroom
  exact ⟨h1, hE, c, hc, hca, fun d2 now2 => get_reaches d2 now2 _ c hc⟩

theorem updateEndpoints_addition_witness :
    Load (UpdateEndpoints echoDialer 0 ["a:1", "b:1"] ["b:1"] []
      (mkPool [⟨1, some "a:1"⟩, ⟨2, some "a:1"⟩] 0 [] [("a:1", 2)])).endpointConnCounts "b:1" =
      some (getExpectedConnPerEndpoint (updateRegistry ["a:1", "b:1"] ["b:1"] []
        (mkPool [⟨1, some "a:1"⟩, ⟨2, some "a:1"⟩] 0 [] [("a:1", 2)]))) :=
  (updateEndpoints_addition echoDialer 0 ["a:1", "b:1"] ["b:1"] []
    (mkPool [⟨1, some "a:1"⟩, ⟨2, some "a:1"⟩] 0 [] [("a:1", 2)]) "b:1"
    (by unfold Bounded; decide) (by decide) (by decide) (by decide) (by decide) rfl
    (fun log => ⟨⟨log.length, some "b:1"⟩, rfl, rfl⟩)
    (fun log ep c h hc => by
      simp only [echoDialer, Except.ok.injEq] at h
      rw [← h] at hc
      exact Option.some.inj hc)
    (by decide)).1

/-! ## UpdateEndpoints with an empty `all` -/

/-- C11. `UpdateEndpoints` with an empty `all` is a no-op: the pool,
with its snapshot, membership set, unavailable map, retry counts, counts,
queue, cursor, dial log and closed connections, is returned unchanged. -/
theorem updateEndpoints_empty_all (d : Dialer) (now : Int) (add del : List String) (p : Pool) :
    UpdateEndpoints d now [] add del p = p := by
  simp [UpdateEndpoints]

/-! ## OnConnClosed -/

theorem closedDrain_full (conn : Conn) (n : Nat) (temp : List Conn) (p : Pool)
    (hn : p.connChan.length ≤ n) :
    (closedDrain conn n temp p).2.connChan = [] ∧
    (closedDrain conn n temp p).1 = temp ++ p.connChan.filter
      (fun c => decide (c.id ≠ conn.id) && decide (c.addr ≠ none)) := by
  induction n generalizing temp p with
  | zero =>
    have hq : p.connChan = [] := List.length_eq_zero.mp (Nat.le_zero.mp hn)
    simp [closedDrain, hq]
  | succ n ih =>
    cases hq : p.connChan with
    | nil => simp [closedDrain, hq]
    | cons c rest =>
      have hrest : rest.length ≤ n := by
        rw [hq] at hn; simp only [List.length_cons] at hn; omega
      simp only [closedDrain, hq]
      by_cases hc : c.id ≠ conn.id ∧ c.addr ≠ none
      · simp only [hc, ne_eq, not_false_eq_true, and_self, if_true]
        obtain ⟨h1, h2⟩ := ih (temp ++ [c]) { p with connChan := rest } hrest
        refine ⟨h1, ?_⟩
        rw [h2]
        have ht : (decide (c.id ≠ conn.id) && decide (c.addr ≠ none)) = true := by
          simpa using hc
        simp only [List.filter_cons, ht, if_true, List.append_assoc, List.singleton_append]
      · simp only [hc, if_false]
        obtain ⟨h1, h2⟩ := ih temp { p with connChan := rest } hrest
        refine ⟨h1, ?_⟩
        rw [h2]
        have hf : (decide (c.id ≠ conn.id) && decide (c.addr ≠ none)) = false := by
          simpa using hc
        simp only [List.filter_cons, hf, Bool.false_eq_true, if_false]

theorem onConnClosed_queue (conn : Conn) (q : Pool) (hb : Bounded q) :
    (refill (closedDrain conn q.size [] q).1 (closedDrain conn q.size [] q).2).connChan
      = q.connChan.filter (fun c => decide (c.id ≠ conn.id) && decide (c.addr ≠ none)) ∧
    refill (closedDrain conn q.size [] q).1 (closedDrain conn q.size [] q).2 =
      { q with connChan := (q.connChan.filter
          (fun c => decide (c.id ≠ conn.id) && decide (c.addr ≠ none))) } := by
  obtain ⟨c1, c2⟩ := closedDrain_full conn q.size [] q hb
  obtain ⟨f0, _⟩ := closedDrain_frame conn q.size [] q
  have hsz : (closedDrain conn q.size [] q).2.size = q.size := by rw [f0]
  obtain ⟨e1, e2⟩ := refill_exact (closedDrain conn q.size [] q).1
    (closedDrain conn q.size [] q).2 (by
      rw [c1, c2, hsz]
      simp only [List.length_nil, List.nil_append, Nat.zero_add]
      exact le_trans (List.length_filter_le _ _) hb)
  obtain ⟨r1, _⟩ := refill_spec (closedDrain conn q.size [] q).1
    (closedDrain conn q.size [] q).2
  have hq1 : (refill (closedDrain conn q.size [] q).1 (closedDrain conn q.size [] q).2).connChan
      = q.connChan.filter (fun c => decide (c.id ≠ conn.id) && decide (c.addr ≠ none)) := by
    rw [e1, c1, c2]; simp
  refine ⟨hq1, ?_⟩
  have hcd : (closedDrain conn q.size [] q).2.closedDelayed = q.closedDelayed := by rw [f0]
  rw [r1, e2, hq1, hcd, f0]

/-- C12. `OnConnClosed(conn, err)` for a pool within its capacity and a
connection with remote address `a`: the count of `a` is decremented once
(the entry is removed when it was 1, an absent entry stays absent) and no
other count changes; with a non-nil `err` the unavailable record of `a`
becomes `now` with retry count 0 and no other record changes, with a nil
`err` both maps are unchanged; the queue becomes the old queue without the
entries identical to `conn` and without the entries whose remote address is
absent, in the original order, so `conn` is no longer queued; nothing is
closed. -/
theorem onConnClosed_spec (now : Int) (conn : Conn) (err : Option Err) (p : Pool)
    (a : String) (hb : Bounded p) (ha : conn.addr = some a) :
    (∀ x, Load (OnConnClosed now conn err p).endpointConnCounts x =
      if a = x then decVal (Load p.endpointConnCounts x) else Load p.endpointConnCounts x) ∧
    (Load p.endpointConnCounts a = some 1 →
      Load (OnConnClosed now conn err p).endpointConnCounts a = none) ∧
    (∀ k, Load p.endpointConnCounts a = some k → 2 ≤ k →
      Load (OnConnClosed now conn err p).endpointConnCounts a = some (k - 1)) ∧
    (Load p.endpointConnCounts a = none →
      (OnConnClosed now conn err p).endpointConnCounts = p.endpointConnCounts) ∧
    (err ≠ none →
      Load (OnConnClosed now conn err p).unavailable a = some now ∧
      Load (OnConnClosed now conn err p).retryCounts a = some 0 ∧
      ∀ x, x ≠ a →
        Load (OnConnClosed now conn err p).unavailable x = Load p.unavailable x ∧
        Load (OnConnClosed now conn err p).retryCounts x = Load p.retryCounts x) ∧
    (err = none →
      (OnConnClosed now conn err p).unavailable = p.unavailable ∧
      (OnConnClosed now conn err p).retryCounts = p.retryCounts) ∧
    (OnConnClosed now conn err p).connChan = p.connChan.filter
      (fun c => decide (c.id ≠ conn.id) && decide (c.addr ≠ none)) ∧
    (∀ c, c ∈ (OnConnClosed now conn err p).connChan → c.id ≠ conn.id ∧ c.addr ≠ none) ∧
    conn ∉ (OnConnClosed now conn err p).connChan ∧
    (OnConnClosed now conn err p).closedDelayed = p.closedDelayed ∧
    (OnConnClosed now conn err p).closedNow = p.closedNow := by
  have hmain : ∀ p0 : Pool, p0.connChan = p.connChan → p0.size = p.size →
      OnConnClosed now conn err p =
        refill (closedDrain conn (decEndpointConnCount a p0).size [] (decEndpointConnCount a p0)).1
          (closedDrain conn (decEndpointConnCount a p0).size [] (decEndpointConnCount a p0)).2 →
      (OnConnClosed now conn err p) =
        { decEndpointConnCount a p0 with connChan := (p.connChan.filter
            (fun c => decide (c.id ≠ conn.id) && decide (c.addr ≠ none))) } := by
    intro p0 hc hs hdef
    obtain ⟨d1, _, _, d4, _, _⟩ := dec_fields a p0
    have hb0 : Bounded (decEndpointConnCount a p0) := by
      unfold Bounded; rw [d1, d4, hc, hs]; exact hb
    obtain ⟨_, q2⟩ := onConnClosed_queue conn (decEndpointConnCount a p0) hb0
    rw [hdef, q2, d1, hc]
  have hfilter : ∀ c, c ∈ p.connChan.filter
      (fun c => decide (c.id ≠ conn.id) && decide (c.addr ≠ none)) →
      c.id ≠ conn.id ∧ c.addr ≠ none := by
    intro c hc
    rw [List.mem_filter] at hc
    simpa using hc.2
  cases err with
  | none =>
    have heq := hmain p rfl rfl (by simp [OnConnClosed, ha])
    obtain ⟨_, d2, d3, _, d5, d6⟩ := dec_fields a p
    have hinv : ∀ x, Load (OnConnClosed now conn none p).endpointConnCounts x =
        if a = x then decVal (Load p.endpointConnCounts x)
        else Load p.endpointConnCounts x := by
      intro x; rw [heq]; exact load_dec a x p
    have hq : (OnConnClosed now conn none p).connChan = p.connChan.filter
        (fun c => decide (c.id ≠ conn.id) && decide (c.addr ≠ none)) := by rw [heq]
    refine ⟨hinv, ?_, ?_, ?_, ?_, ?_, hq, ?_, ?_, ?_, ?_⟩
    · intro h1; rw [hinv a, h1]; simp [decVal]
    · intro k hk h2
      rw [hinv a, hk]
      have h3 : k > 0 := by omega
      have h4 : ¬ k = 1 := by omega
      simp [decVal, h3, h4]
    · intro hn
      rw [heq]
      simp only [decEndpointConnCount, hn]
    · intro h; exact absurd rfl h
    · intro _; rw [heq]; exact ⟨d5, d6⟩
    · intro c hc; rw [hq] at hc; exact hfilter c hc
    · intro hc; rw [hq] at hc; exact (hfilter conn hc).1 rfl
    · rw [heq]; exact d2
    · rw [heq]; exact d3
  | some e =>
    have heq := hmain (markUnavailable now a p) rfl rfl (by simp [OnConnClosed, ha])
    obtain ⟨_, d2, d3, _, d5, d6⟩ := dec_fields a (markUnavailable now a p)
    have hinv : ∀ x, Load (OnConnClosed now conn (some e) p).endpointConnCounts x =
        if a = x then decVal (Load p.endpointConnCounts x)
        else Load p.endpointConnCounts x := by
      intro x; rw [heq]; exact load_dec a x (markUnavailable now a p)
    have hq : (OnConnClosed now conn (some e) p).connChan = p.connChan.filter
        (fun c => decide (c.id ≠ conn.id) && decide (c.addr ≠ none)) := by rw [heq]
    refine ⟨hinv, ?_, ?_, ?_, ?_, ?_, hq, ?_, ?_, ?_, ?_⟩
    · intro h1; rw [hinv a, h1]; simp [decVal]
    · intro k hk h2
      rw [hinv a, hk]
      have h3 : k > 0 := by omega
      have h4 : ¬ k = 1 := by omega
      simp [decVal, h3, h4]
    · intro hn
      rw [heq]
      have : Load (markUnavailable now a p).endpointConnCounts a = none := hn
      simp only [decEndpointConnCount, this]
      rfl
    · intro _
      rw [heq]
      simp only
      rw [d5, d6]
      simp only [markUnavailable, load_store, if_true, true_and]
      intro x hx
      have hne : ¬ a = x := fun h => hx h.symm
      simp only [hne, if_false, and_self]
    · intro h; cases h
    · intro c hc; rw [hq] at hc; exact hfilter c hc
    · intro hc; rw [hq] at hc; exact (hfilter conn hc).1 rfl
    · rw [heq]; exact d2
    · rw [heq]; exact d3

theorem onConnClosed_spec_witness :
    Bounded (mkPool [⟨1, some "a:1"⟩, ⟨2, some "b:1"⟩, ⟨3, none⟩] 0 []
      [("a:1", 1), ("b:1", 1)]) ∧
    (OnConnClosed 7 ⟨2, some "b:1"⟩ (some "reset")
      (mkPool [⟨1, some "a:1"⟩, ⟨2, some "b:1"⟩, ⟨3, none⟩] 0 []
        [("a:1", 1), ("b:1", 1)])).connChan =
      (mkPool [⟨1, some "a:1"⟩, ⟨2, some "b:1"⟩, ⟨3, none⟩] 0 []
        [("a:1", 1), ("b:1", 1)]).connChan.filter
        (fun c => decide (c.id ≠ (⟨2, some "b:1"⟩ : Conn).id) && decide (c.addr ≠ none)) :=
  ⟨by unfold Bounded; decide,
    (onConnClosed_spec 7 ⟨2, some "b:1"⟩ (some "reset")
      (mkPool [⟨1, some "a:1"⟩, ⟨2, some "b:1"⟩, ⟨3, none⟩] 0 [] [("a:1", 1), ("b:1", 1)])
      "b:1" (by unfold Bounded; decide) rfl).2.2.2.2.2.2.1⟩

/-! ## Quarantine -/

theorem getEndpointLoop_healthy (eps : List String) (n : Nat) (p : Pool) (ep : String)
    (h : (getEndpointLoop eps n p).1 = .ok ep) : Load p.unavailable ep = none := by
  induction n generalizing p with
  | zero => simp [getEndpointLoop] at h
  | succ n ih =>
    simp only [getEndpointLoop] at h
    cases hl : Load p.unavailable (eps.getD (p.index % eps.length) "") with
    | none =>
      rw [hl] at h
      simp only [Option.isSome_none, Bool.false_eq_true, if_false, Except.ok.injEq] at h
      rw [← h]; exact hl
    | some v =>
      rw [hl] at h
      simp only [Option.isSome_some, if_true] at h
      exact ih { p with index := (p.index + 1) % 2 ^ 64 } h

/-- C13, as stated, fails for connections already queued: in the pool of the
basic scenario, after `OnConnClosed` with an error for one connection to
`b:1` the endpoint is unavailable, yet the third following `Get` returns the
other queued connection to `b:1`. -/
theorem quarantine_counterexample :
    (Load (run [(echoEnv, Op.onConnClosed ⟨1, some "b:1"⟩ (some "reset")),
        (echoEnv, Op.get), (echoEnv, Op.get)] scenarioPool).unavailable "b:1").isSome = true ∧
    (Get echoDialer 100 (run [(echoEnv, Op.onConnClosed ⟨1, some "b:1"⟩ (some "reset")),
        (echoEnv, Op.get), (echoEnv, Op.get)] scenarioPool)).1 = .ok ⟨3, some "b:1"⟩ := by
  exact ⟨by decide, rfl⟩

/-- C13 (amended). Quarantine covers new dials only: in every pool state
(so in every reachable one), if `e` is unavailable, the queue is empty and
the dialer's connections report the dialled address, then `Get` never
returns a connection whose remote address is `e`. -/
theorem get_quarantine_fresh (d : Dialer) (now : Int) (p : Pool) (e : String)
    (hq : p.connChan = [])
    (hd : ∀ log ep c, d log ep = .ok c → c.addr = some ep)
    (hU : (Load p.unavailable e).isSome = true) :
    ∀ c, (Get d now p).1 = .ok c → c.addr ≠ some e := by
  intro c hc hce
  have hf := getEndpoint_frame p
  simp only [Get, hq, newConn] at hc
  cases hg : getEndpoint p with
  | mk r q =>
    rw [hg] at hc hf
    simp only at hc hf
    cases r with
    | error err => simp at hc
    | ok ep =>
      have hep : Load p.unavailable ep = none := by
        have h1 : (getEndpoint p).1 = .ok ep := by rw [hg]
        unfold getEndpoint at h1
        split at h1
        · cases h1
        · exact getEndpointLoop_healthy _ _ _ _ h1
      simp only [dialNewConn] at hc
      cases hdl : d q.dialLog ep with
      | error err => simp [hdl] at hc
      | ok conn =>
        have hca := hd _ _ _ hdl
        simp only [hdl, hca, Except.ok.injEq] at hc
        rw [← hc, hca] at hce
        have hee : ep = e := Option.some.inj hce
        rw [← hee, hep] at hU
        cases hU

theorem get_quarantine_fresh_witness :
    (mkPool [] 0 [("a:1", 5)] []).connChan = [] ∧
    ∀ c, (Get echoDialer 0 (mkPool [] 0 [("a:1", 5)] [])).1 = .ok c → c.addr ≠ some "a:1" :=
  ⟨rfl, get_quarantine_fresh echoDialer 0 (mkPool [] 0 [("a:1", 5)] []) "a:1" rfl
    (fun log ep c h => by
      simp only [echoDialer, Except.ok.injEq] at h
      rw [← h])
    (by decide)⟩

/-! ## Recovery sweep -/

theorem grows_refl (p : Pool) : Grows p p :=
  ⟨rfl, rfl, ⟨[], by simp⟩, ⟨[], by simp⟩, fun _ => le_refl _⟩

theorem grows_trans {p q r : Pool} (h1 : Grows p q) (h2 : Grows q r) : Grows p r := by
  obtain ⟨l1, e1⟩ := h1.queue
  obtain ⟨l2, e2⟩ := h2.queue
  obtain ⟨m1, f1⟩ := h1.closedDelayed
  obtain ⟨m2, f2⟩ := h2.closedDelayed
  exact ⟨h2.size.trans h1.size, h2.endpointMap.trans h1.endpointMap,
    ⟨l1 ++ l2, by rw [e2, e1, List.append_assoc]⟩,
    ⟨m1 ++ m2, by rw [f2, f1, List.append_assoc]⟩,
    fun a => le_trans (h1.counts a) (h2.counts a)⟩

theorem put_new_cases (c : Conn) (p : Pool) :
    (∃ a, c.addr = some a ∧ (Load p.endpointMap a).isSome = true ∧
      p.connChan.length < p.size ∧
      put (some c) none true p =
        { p with connChan := p.connChan ++ [c],
                 endpointConnCounts := Store p.endpointConnCounts a
                   ((Load p.endpointConnCounts a).getD 0 + 1) }) ∨
    ((¬ ∃ a, c.addr = some a ∧ (Load p.endpointMap a).isSome = true ∧
        p.connChan.length < p.size) ∧
      put (some c) none true p = { p with closedDelayed := p.closedDelayed ++ [c] }) := by
  unfold put
  simp only [closeConn_delay]
  cases hc : c.addr with
  | none => right; exact ⟨by simp, rfl⟩
  | some a =>
    simp only
    cases hm : Load p.endpointMap a with
    | none => right; exact ⟨by simp [hm], by simp⟩
    | some u =>
      by_cases hlen : p.connChan.length < p.size
      · left
        exact ⟨a, rfl, by rw [hm]; rfl, hlen, by simp [hlen, incEndpointConnCount]⟩
      · right
        exact ⟨by simp [hlen], by simp [hlen]⟩

theorem grows_put (c : Conn) (p : Pool) : Grows p (put (some c) none true p) := by
  rcases put_new_cases c p with ⟨a, _, _, _, h⟩ | ⟨_, h⟩
  · rw [h]
    refine ⟨rfl, rfl, ⟨[c], rfl⟩, ⟨[], by simp⟩, ?_⟩
    intro x
    simp only [load_store]
    by_cases hax : a = x
    · subst hax; simp
    · simp [hax]
  · rw [h]
    exact ⟨rfl, rfl, ⟨[], by simp⟩, ⟨[c], rfl⟩, fun _ => le_refl _⟩

theorem recoverStep_grows (d : Dialer) (now : Int) (backoff : Int → Int)
    (acc : Bool × Pool) (key : String) :
    Grows acc.2 (recoverStep d now backoff acc key).2 ∧
    (acc.1 = true → (recoverStep d now backoff acc key).1 = true) := by
  unfold recoverStep
  split
  · exact ⟨grows_refl _, id⟩
  · simp only
    split
    · cases d acc.2.dialLog key with
      | error e => exact ⟨⟨rfl, rfl, ⟨[], by simp⟩, ⟨[], by simp⟩, fun _ => le_refl _⟩, id⟩
      | ok conn =>
        have h := grows_put conn { acc.2 with dialLog := acc.2.dialLog ++ [key] }
        exact ⟨⟨h.size, h.endpointMap, h.queue, h.closedDelayed, h.counts⟩, fun _ => rfl⟩
    · exact ⟨grows_refl _, id⟩

theorem recover_foldl_grows (d : Dialer) (now : Int) (backoff : Int → Int)
    (l : List String) (acc : Bool × Pool) :
    Grows acc.2 (l.foldl (recoverStep d now backoff) acc).2 ∧
    (acc.1 = true → (l.foldl (recoverStep d now backoff) acc).1 = true) := by
  induction l generalizing acc with
  | nil => exact ⟨grows_refl _, id⟩
  | cons k l ih =>
    obtain ⟨h1, h2⟩ := recoverStep_grows d now backoff acc k
    obtain ⟨h3, h4⟩ := ih (recoverStep d now backoff acc k)
    exact ⟨grows_trans h1 h3, fun h => h4 (h2 h)⟩

theorem put_health (conn : Option Conn) (err : Option Err) (isNewConn : Bool) (p : Pool) :
    (put conn err isNewConn p).unavailable = p.unavailable ∧
    (put conn err isNewConn p).retryCounts = p.retryCounts ∧
    (put conn err isNewConn p).dialLog = p.dialLog := by
  unfold put
  simp only [closeConn_delay]
  cases conn with
  | none => exact ⟨rfl, rfl, rfl⟩
  | some c =>
    simp only
    cases c.addr with
    | none => exact ⟨rfl, rfl, rfl⟩
    | some a =>
      simp only
      split
      · exact ⟨rfl, rfl, rfl⟩
      · split
        · exact ⟨rfl, rfl, rfl⟩
        · split
          · cases isNewConn <;> exact ⟨rfl, rfl, rfl⟩
          · exact ⟨rfl, rfl, rfl⟩

theorem recoverStep_other (d : Dialer) (now : Int) (backoff : Int → Int)
    (acc : Bool × Pool) (key e : String) (hne : key ≠ e) :
    Load (recoverStep d now backoff acc key).2.unavailable e = Load acc.2.unavailable e ∧
    Load (recoverStep d now backoff acc key).2.retryCounts e = Load acc.2.retryCounts e ∧
    (recoverStep d now backoff acc key).2.dialLog.count e = acc.2.dialLog.count e := by
  have hne2 : ¬ key = e := hne
  unfold recoverStep
  split
  · exact ⟨rfl, rfl, rfl⟩
  · simp only
    split
    · cases d acc.2.dialLog key with
      | error err =>
        simp only [load_store, hne2, if_false, List.count_append, List.count_singleton,
          beq_iff_eq, Nat.add_zero, and_self]
      | ok conn =>
        obtain ⟨h1, h2, h3⟩ := put_health (some conn) none true
          { acc.2 with dialLog := acc.2.dialLog ++ [key] }
        simp only [load_delete, hne2, if_false, h1, h2, h3, List.count_append,
          List.count_singleton, beq_iff_eq, Nat.add_zero, and_self]
    · exact ⟨rfl, rfl, rfl⟩

theorem recover_foldl_other (d : Dialer) (now : Int) (backoff : Int → Int)
    (l : List String) (acc : Bool × Pool) (e : String) (hne : e ∉ l) :
    Load (l.foldl (recoverStep d now backoff) acc).2.unavailable e = Load acc.2.unavailable e ∧
    Load (l.foldl (recoverStep d now backoff) acc).2.retryCounts e = Load acc.2.retryCounts e ∧
    (l.foldl (recoverStep d now backoff) acc).2.dialLog.count e = acc.2.dialLog.count e := by
  induction l generalizing acc with
  | nil => exact ⟨rfl, rfl, rfl⟩
  | cons k l ih =>
    have hk : k ≠ e := fun h => hne (by rw [h]; exact List.mem_cons_self _ _)
    have hl : e ∉ l := fun h => hne (List.mem_cons_of_mem _ h)
    obtain ⟨a1, a2, a3⟩ := recoverStep_other d now backoff acc k e hk
    obtain ⟨b1, b2, b3⟩ := ih (recoverStep d now backoff acc k) hl
    exact ⟨b1.trans a1, b2.trans a2, b3.trans a3⟩

theorem recover_split (d : Dialer) (now : Int) (backoff : Int → Int) (p : Pool) (e : String)
    (last : Int) (hnd : (Keys p.unavailable).Nodup) (hU : Load p.unavailable e = some last) :
    ∃ (s1 : Bool × Pool) (l2 : List String),
      recover d now backoff p = l2.foldl (recoverStep d now backoff)
        (recoverStep d now backoff s1 e) ∧
      e ∉ l2 ∧ Grows p s1.2 ∧
      Load s1.2.unavailable e = some last ∧
      Load s1.2.retryCounts e = Load p.retryCounts e ∧
      s1.2.dialLog.count e = p.dialLog.count e := by
  have hmem : e ∈ Keys p.unavailable :=
    load_isSome_mem_keys _ _ (by rw [hU]; rfl)
  obtain ⟨l1, l2, hl⟩ := List.append_of_mem hmem
  rw [hl, List.nodup_middle, List.nodup_cons] at hnd
  have h1 : e ∉ l1 := fun h => hnd.1 (List.mem_append_left _ h)
  have h2 : e ∉ l2 := fun h => hnd.1 (List.mem_append_right _ h)
  obtain ⟨a1, a2, a3⟩ := recover_foldl_other d now backoff l1 (false, p) e h1
  obtain ⟨g1, _⟩ := recover_foldl_grows d now backoff l1 (false, p)
  refine ⟨l1.foldl (recoverStep d now backoff) (false, p), l2, ?_, h2, g1, ?_, a2, a3⟩
  · unfold recover
    rw [hl, List.foldl_append, List.foldl_cons]
  · rw [a1]; exact hU

theorem recoverStep_visit_ok (d : Dialer) (now : Int) (backoff : Int → Int)
    (acc : Bool × Pool) (e : String) (last : Int) (conn : Conn)
    (hu : Load acc.2.unavailable e = some last)
    (hcond : now - last > backoff ((Load acc.2.retryCounts e).getD 0))
    (hd : d acc.2.dialLog e = .ok conn) :
    (recoverStep d now backoff acc e).1 = true ∧
    Load (recoverStep d now backoff acc e).2.unavailable e = none ∧
    Load (recoverStep d now backoff acc e).2.retryCounts e = none ∧
    (recoverStep d now backoff acc e).2.dialLog = acc.2.dialLog ++ [e] ∧
    (conn ∈ (recoverStep d now backoff acc e).2.connChan ∨
      conn ∈ (recoverStep d now backoff acc e).2.closedDelayed) ∧
    (∀ a, conn.addr = some a → (Load acc.2.endpointMap a).isSome = true →
      acc.2.connChan.length < acc.2.size →
      conn ∈ (recoverStep d now backoff acc e).2.connChan ∧
      (Load acc.2.endpointConnCounts a).getD 0 + 1 ≤
        (Load (recoverStep d now backoff acc e).2.endpointConnCounts a).getD 0) := by
  have hstep : recoverStep d now backoff acc e =
      (true, { put (some conn) none true { acc.2 with dialLog := acc.2.dialLog ++ [e] } with
        unavailable := Delete (put (some conn) none true
          { acc.2 with dialLog := acc.2.dialLog ++ [e] }).unavailable e,
        retryCounts := Delete (put (some conn) none true
          { acc.2 with dialLog := acc.2.dialLog ++ [e] }).retryCounts e }) := by
    simp only [recoverStep, hu, hcond, if_true, hd]
  obtain ⟨_, _, ph3⟩ := put_health (some conn) none true
    { acc.2 with dialLog := acc.2.dialLog ++ [e] }
  rw [hstep]
  refine ⟨rfl, by simp [load_delete], by simp [load_delete], ph3, ?_, ?_⟩
  · rcases put_new_cases conn { acc.2 with dialLog := acc.2.dialLog ++ [e] } with
      ⟨a, _, _, _, h⟩ | ⟨_, h⟩
    · left; rw [h]; simp
    · right; rw [h]; simp
  · intro a ha hm hroom
    rcases put_new_cases conn { acc.2 with dialLog := acc.2.dialLog ++ [e] } with
      ⟨a2, ha2, _, _, h⟩ | ⟨hno, _⟩
    · have haa : a2 = a := by rw [ha] at ha2; exact (Option.some.inj ha2).symm
      subst haa
      rw [h]
      simp [load_store]
    · exact absurd ⟨a, ha, hm, hroom⟩ hno

theorem recoverStep_visit_err (d : Dialer) (now : Int) (backoff : Int → Int)
    (acc : Bool × Pool) (e : String) (last : Int) (err : Err)
    (hu : Load acc.2.unavailable e = some last)
    (hcond : now - last > backoff ((Load acc.2.retryCounts e).getD 0))
    (hd : d acc.2.dialLog e = .error err) :
    Load (recoverStep d now backoff acc e).2.unavailable e = some last ∧
    Load (recoverStep d now backoff acc e).2.retryCounts e =
      some ((Load acc.2.retryCounts e).getD 0 + 1) ∧
    (recoverStep d now backoff acc e).2.dialLog = acc.2.dialLog ++ [e] := by
  have hstep : recoverStep d now backoff acc e =
      (acc.1, { acc.2 with dialLog := acc.2.dialLog ++ [e],
                           retryCounts := Store acc.2.retryCounts e
                             ((Load acc.2.retryCounts e).getD 0 + 1) }) := by
    simp only [recoverStep, hu, hcond, if_true, hd]
  rw [hstep]
  exact ⟨hu, by simp [load_store], rfl⟩

theorem recoverStep_visit_skip (d : Dialer) (now : Int) (backoff : Int → Int)
    (acc : Bool × Pool) (e : String) (last : Int)
    (hu : Load acc.2.unavailable e = some last)
    (hcond : ¬ now - last > backoff ((Load acc.2.retryCounts e).getD 0)) :
    recoverStep d now backoff acc e = acc := by
  simp only [recoverStep, hu, hcond, if_false]

/-- C14. One recovery sweep at time `now`, for an endpoint `e` with
unavailable record `last` and retry count `retries` (0 when no count is
stored): the sweep dials `e` once if `now - last > backoff(retries)` and not
at all otherwise; an endpoint that is not dialled keeps its record; a
successful dial removes `e` from the unavailable map and the retry counts,
makes the sweep return true and hands the connection to `put` as newly
created (it ends in the queue or in the delayed close, and is queued and
counted when its address is in the membership set and the queue has room);
a failed dial keeps `last` and stores retry count `retries + 1`. -/
theorem recover_respects_backoff (d : Dialer) (now : Int) (backoff : Int → Int) (p : Pool)
    (e : String) (last : Int)
    (hnd : (Keys p.unavailable).Nodup) (hU : Load p.unavailable e = some last) :
    (recover d now backoff p).2.dialLog.count e = p.dialLog.count e +
      (if now - last > backoff ((Load p.retryCounts e).getD 0) then 1 else 0) ∧
    (¬ (now - last > backoff ((Load p.retryCounts e).getD 0)) →
      Load (recover d now backoff p).2.unavailable e = some last ∧
      Load (recover d now backoff p).2.retryCounts e = Load p.retryCounts e) ∧
    (now - last > backoff ((Load p.retryCounts e).getD 0) →
      ∃ log : List String, log.count e = p.dialLog.count e ∧
        (∀ conn, d log e = .ok conn →
          Load (recover d now backoff p).2.unavailable e = none ∧
          Load (recover d now backoff p).2.retryCounts e = none ∧
          (recover d now backoff p).1 = true ∧
          (conn ∈ (recover d now backoff p).2.connChan ∨
            conn ∈ (recover d now backoff p).2.closedDelayed) ∧
          (∀ a, conn.addr = some a → (Load p.endpointMap a).isSome = true →
            (recover d now backoff p).2.connChan.length < (recover d now backoff p).2.size →
            conn ∈ (recover d now backoff p).2.connChan ∧
            (Load p.endpointConnCounts a).getD 0 + 1 ≤
              (Load (recover d now backoff p).2.endpointConnCounts a).getD 0)) ∧
        (∀ err, d log e = .error err →
          Load (recover d now backoff p).2.unavailable e = some last ∧
          Load (recover d now backoff p).2.retryCounts e =
            some ((Load p.retryCounts e).getD 0 + 1))) := by
  obtain ⟨s1, l2, hrec, hl2, hg1, hu1, hr1, hc1⟩ := recover_split d now backoff p e last hnd hU
  obtain ⟨o1, o2, o3⟩ := recover_foldl_other d now backoff l2
    (recoverStep d now backoff s1 e) e hl2
  obtain ⟨g2, fl⟩ := recover_foldl_grows d now backoff l2 (recoverStep d now backoff s1 e)
  obtain ⟨g3, _⟩ := recoverStep_grows d now backoff s1 e
  have hgetD : (Load s1.2.retryCounts e).getD 0 = (Load p.retryCounts e).getD 0 := by rw [hr1]
  rw [hrec, o1, o2, o3]
  by_cases hcond : now - last > backoff ((Load p.retryCounts e).getD 0)
  · have hcond1 : now - last > backoff ((Load s1.2.retryCounts e).getD 0) := by
      rw [hgetD]; exact hcond
    simp only [hcond, if_true, not_true_eq_false, false_implies, true_implies, true_and]
    cases hdl : d s1.2.dialLog e with
    | error err0 =>
      obtain ⟨v1, v2, v3⟩ := recoverStep_visit_err d now backoff s1 e last err0 hu1 hcond1 hdl
      refine ⟨?_, s1.2.dialLog, hc1, ?_, ?_⟩
      · rw [v3]; simp [hc1]
      · intro conn hc; rw [hdl] at hc; cases hc
      · intro err _
        exact ⟨v1, by rw [v2, hgetD]⟩
    | ok conn0 =>
      obtain ⟨v1, v2, v3, v4, v5, v6⟩ :=
        recoverStep_visit_ok d now backoff s1 e last conn0 hu1 hcond1 hdl
      obtain ⟨lq, hq⟩ := g2.queue
      obtain ⟨lc, hcd⟩ := g2.closedDelayed
      obtain ⟨lq3, hq3⟩ := g3.queue
      refine ⟨?_, s1.2.dialLog, hc1, ?_, ?_⟩
      · rw [v4]; simp [hc1]
      · intro conn hc
        rw [hdl] at hc
        simp only [Except.ok.injEq] at hc
        subst hc
        refine ⟨v2, v3, fl v1, ?_, ?_⟩
        · rw [hq, hcd]
          rcases v5 with h | h
          · exact Or.inl (List.mem_append_left _ h)
          · exact Or.inr (List.mem_append_left _ h)
        · intro a ha hm hroom
          have hroom1 : s1.2.connChan.length < s1.2.size := by
            rw [g2.size, g3.size, hq, hq3] at hroom
            simp only [List.length_append] at hroom
            omega
          obtain ⟨w1, w2⟩ := v6 a ha (by rw [hg1.endpointMap]; exact hm) hroom1
          refine ⟨by rw [hq]; exact List.mem_append_left _ w1, ?_⟩
          have c1 := hg1.counts a
          have c2 := g2.counts a
          omega
      · intro err hc; rw [hdl] at hc; cases hc
  · have hcond1 : ¬ now - last > backoff ((Load s1.2.retryCounts e).getD 0) := by
      rw [hgetD]; exact hcond
    rw [recoverStep_visit_skip d now backoff s1 e last hu1 hcond1]
    simp only [hcond, if_false, Nat.add_zero, not_false_eq_true, true_implies, false_implies,
      and_true]
    exact ⟨hc1, hu1, hr1⟩

theorem recover_respects_backoff_witness :
    (Keys (mkPool [] 0 [("a:1", 95), ("b:1", 50)] []).unavailable).Nodup ∧
    (recover echoDialer 100 (fun _ => 10) (mkPool [] 0 [("a:1", 95), ("b:1", 50)] [])).2.dialLog.count
      "a:1" = (mkPool [] 0 [("a:1", 95), ("b:1", 50)] []).dialLog.count "a:1" +
      (if 100 - 95 > (fun _ : Int => (10 : Int))
        ((Load (mkPool [] 0 [("a:1", 95), ("b:1", 50)] []).retryCounts "a:1").getD 0)
       then 1 else 0) :=
  ⟨by decide, (recover_respects_backoff echoDialer 100 (fun _ => 10)
    (mkPool [] 0 [("a:1", 95), ("b:1", 50)] []) "a:1" 95 (by decide) rfl).1⟩

/-! ## Inventory counters -/

theorem load_inc (a x : String) (p : Pool) :
    Load (incEndpointConnCount a p).endpointConnCounts x =
      if a = x then some ((Load p.endpointConnCounts a).getD 0 + 1)
      else Load p.endpointConnCounts x := by
  simp only [incEndpointConnCount, load_store]

theorem invStep_pos (p : Pool) (op : InvOp)
    (h : ∀ a k, Load p.endpointConnCounts a = some k → 1 ≤ k) :
    ∀ a k, Load (invStep p op).endpointConnCounts a = some k → 1 ≤ k := by
  intro a k hk
  cases op with
  | inc addr =>
    simp only [invStep, load_inc] at hk
    by_cases hax : addr = a
    · simp only [hax, if_true, Option.some.injEq] at hk
      cases hl : Load p.endpointConnCounts a with
      | none => rw [hl] at hk; simp at hk; omega
      | some v =>
        rw [hl] at hk
        have := h a v hl
        simp at hk
        omega
    · simp only [hax, if_false] at hk
      exact h a k hk
  | dec addr =>
    simp only [invStep, load_dec] at hk
    by_cases hax : addr = a
    · simp only [hax, if_true] at hk
      cases hl : Load p.endpointConnCounts a with
      | none => rw [hl] at hk; simp [decVal] at hk
      | some v =>
        rw [hl] at hk
        have hv := h a v hl
        have hv0 : v > 0 := by omega
        by_cases h1 : v = 1
        · simp [decVal, h1] at hk
        · simp only [decVal, hv0, if_true, h1, if_false, Option.some.injEq] at hk
          omega
    · simp only [hax, if_false] at hk
      exact h a k hk

theorem invRun_pos (ops : List InvOp) (p : Pool)
    (h : ∀ a k, Load p.endpointConnCounts a = some k → 1 ≤ k) :
    ∀ a k, Load (invRun ops p).endpointConnCounts a = some k → 1 ≤ k := by
  induction ops generalizing p with
  | nil => exact h
  | cons op ops ih => exact ih (invStep p op) (invStep_pos p op h)

theorem invRun_depth (e : String) (ops : List InvOp) (p : Pool) (d d2 : Nat)
    (h : Load p.endpointConnCounts e = ofDepth d) (hd : depth e ops d = some d2) :
    Load (invRun ops p).endpointConnCounts e = ofDepth d2 := by
  induction ops generalizing p d with
  | nil =>
    simp only [depth, Option.some.injEq] at hd
    rw [← hd]; exact h
  | cons op ops ih =>
    have hrun : invRun (op :: ops) p = invRun ops (invStep p op) := rfl
    rw [hrun]
    cases op with
    | inc a =>
      simp only [depth] at hd
      by_cases hae : a = e
      · simp only [hae, if_true] at hd
        apply ih _ (d + 1) _ hd
        simp only [invStep, load_inc, hae, if_true, h]
        by_cases hd0 : d = 0
        · simp [ofDepth, hd0]
        · simp [ofDepth, hd0]
      · simp only [hae, if_false] at hd
        apply ih _ d _ hd
        simp only [invStep, load_inc, hae, if_false, h]
    | dec a =>
      simp only [depth] at hd
      by_cases hae : a = e
      · simp only [hae, if_true] at hd
        by_cases hd0 : d = 0
        · simp [hd0] at hd
        · simp only [hd0, if_false] at hd
          apply ih _ (d - 1) _ hd
          simp only [invStep, load_dec, hae, if_true, h]
          have hpos : (d : Int) > 0 := by omega
          by_cases hd1 : d = 1
          · simp [ofDepth, decVal, hd1]
          · have hne : ¬ (d : Int) = 1 := by omega
            have hne2 : ¬ d - 1 = 0 := by omega
            simp only [ofDepth, hd0, if_false, decVal, hpos, if_true, hne, hne2]
            congr 1
            omega
      · simp only [hae, if_false] at hd
        apply ih _ d _ hd
        simp only [invStep, load_dec, hae, if_false, h]

theorem invRun_other (e a : String) (ops : List InvOp) (p : Pool) (hne : a ≠ e)
    (hops : ∀ op, op ∈ ops → op = InvOp.inc e ∨ op = InvOp.dec e) :
    Load (invRun ops p).endpointConnCounts a = Load p.endpointConnCounts a := by
  have hea : ¬ e = a := fun h => hne h.symm
  induction ops generalizing p with
  | nil => rfl
  | cons op ops ih =>
    have hrun : invRun (op :: ops) p = invRun ops (invStep p op) := rfl
    rw [hrun, ih _ (fun o ho => hops o (List.mem_cons_of_mem _ ho))]
    rcases hops op (List.mem_cons_self _ _) with h | h
    · rw [h]; simp only [invStep, load_inc, hea, if_false]
    · rw [h]; simp only [invStep, load_dec, hea, if_false]

/-- C15. Inventory counters: starting from an empty inventory, after any
sequence of `inc`/`dec` calls every stored count is at least 1; `dec` on an
absent address changes nothing; `dec` on a count of 1 removes the entry; and
for an endpoint `e` with no entry, after a sequence of calls that is
balanced for `e` (every `dec(e)` preceded by an unmatched `inc(e)`, none
left unmatched at the end) the entry for `e` is absent again, while calls on
`e` leave the counts of all other addresses unchanged. -/
theorem inventory_counters (ops : List InvOp) (p : Pool) (e a : String) :
    (p.endpointConnCounts = [] →
      ∀ x k, Load (invRun ops p).endpointConnCounts x = some k → 1 ≤ k) ∧
    (Load p.endpointConnCounts a = none → decEndpointConnCount a p = p) ∧
    (Load p.endpointConnCounts a = some 1 →
      Load (decEndpointConnCount a p).endpointConnCounts a = none) ∧
    (Load p.endpointConnCounts e = none → depth e ops 0 = some 0 →
      Load (invRun ops p).endpointConnCounts e = none) ∧
    (a ≠ e → (∀ op, op ∈ ops → op = InvOp.inc e ∨ op = InvOp.dec e) →
      Load (invRun ops p).endpointConnCounts a = Load p.endpointConnCounts a) := by
  refine ⟨?_, ?_, ?_, ?_, ?_⟩
  · intro hempty
    apply invRun_pos
    intro x k hk
    rw [hempty] at hk
    simp [Load] at hk
  · intro h
    simp only [decEndpointConnCount, h]
  · intro h
    rw [load_dec, h]
    simp [decVal]
  · intro h hd
    have := invRun_depth e ops p 0 0 (by rw [h]; rfl) hd
    rw [this]; rfl
  · intro hne hops
    exact invRun_other e a ops p hne hops

/-! ## Close -/

/-- C16, as stated, fails for a pool whose shutdown latch is already set
while its queue is not empty: after `Close`, a `Put` still enqueues, and the
next `Close` does nothing, so the queue keeps the connection and nothing is
closed. -/
theorem close_counterexample :
    (run [(echoEnv, Op.close), (echoEnv, Op.put (some ⟨9, some "a:1"⟩) none)]
      scenarioPool).closeOnceDone = true ∧
    NumPooled (Close (run [(echoEnv, Op.close), (echoEnv, Op.put (some ⟨9, some "a:1"⟩) none)]
      scenarioPool)) = 1 ∧
    (⟨9, some "a:1"⟩ : Conn) ∉ (Close (run [(echoEnv, Op.close),
      (echoEnv, Op.put (some ⟨9, some "a:1"⟩) none)] scenarioPool)).closedNow := by
  refine ⟨by decide, by decide, by decide⟩

/-- C16 (amended). For every pool whose shutdown latch is not yet set,
after `Close` the latch is set, the queue is empty, every connection that
was queued has been closed with zero delay and nothing else has changed;
for every pool a second `Close` changes nothing and the latch is set after
`Close`. -/
theorem close_idempotent (p : Pool) :
    (p.closeOnceDone = false →
      (Close p).closeOnceDone = true ∧ (Close p).connChan = [] ∧ NumPooled (Close p) = 0 ∧
      (Close p).closedNow = p.closedNow ++ p.connChan ∧
      (Close p).closedDelayed = p.closedDelayed ∧
      Close p = { p with closeOnceDone := true, connChan := [],
                         closedNow := p.closedNow ++ p.connChan }) ∧
    Close (Close p) = Close p ∧
    (Close p).closeOnceDone = true := by
  cases h : p.closeOnceDone with
  | false => simp [Close, h, NumPooled]
  | true => simp [Close, h]

/-! ## Construction -/

theorem wrapInt_eq (x : Int) (h0 : -2 ^ 63 ≤ x) (h1 : x < 2 ^ 63) : wrapInt x = x := by
  unfold wrapInt
  omega

theorem wrapInt_range (x : Int) : -2 ^ 63 ≤ wrapInt x ∧ wrapInt x < 2 ^ 63 := by
  unfold wrapInt
  omega

theorem float64OfInt_eq (x : Int) (h0 : 0 ≤ x) (h1 : x < 2 ^ 53) : float64OfInt x = x := by
  have h2 : ¬ x < 0 := by omega
  have h3 : x.natAbs < 2 ^ 53 := by omega
  simp only [float64OfInt, roundFloat64, h2, h3, if_false, if_true]
  omega

theorem intOfFloat64_eq (f : Int) (h0 : -2 ^ 63 ≤ f) (h1 : f < 2 ^ 63) : intOfFloat64 f = f := by
  unfold intOfFloat64
  simp only [h0, h1, and_self, if_true]

/-- The rounding of `float64(x)`: ties go to the even significand, and the
largest `int` values round up to `2^63`, which `int(f)` cannot hold. -/
theorem float64_rounding_examples :
    float64OfInt (2 ^ 53 + 1) = 2 ^ 53 ∧ float64OfInt (2 ^ 53 + 3) = 2 ^ 53 + 4 ∧
    float64OfInt (2 ^ 63 - 513) = 2 ^ 63 - 1024 ∧ float64OfInt (2 ^ 63 - 512) = 2 ^ 63 ∧
    intOfFloat64 (max 1024 (float64OfInt (2 ^ 63 - 512))) = -2 ^ 63 := by
  decide

theorem newConnPool_eq (maxCap : Int) (initEndpoints : List String)
    (connsPerEndpoint size : Int) (d : Dialer) (u : Unit) (now : Int) (req sz : Int)
    (h : initEndpoints ≠ [])
    (hreq : req = wrapInt ((initEndpoints.length : Int) *
      (if connsPerEndpoint ≤ 0 then 1 else connsPerEndpoint)))
    (hsz : sz = if size ≤ 0 then intOfFloat64 (max 1024 (float64OfInt req)) else size) :
    NewConnPool maxCap initEndpoints connsPerEndpoint size (some d) (some u) now =
      match makeChan maxCap sz with
      | none => none
      | some cap =>
        initConns maxCap d now req
          (initialPool initEndpoints (if connsPerEndpoint ≤ 0 then 1 else connsPerEndpoint)
            req cap) := by
  have hlen : ¬ initEndpoints.length = 0 := fun h0 => h (List.length_eq_zero.mp h0)
  subst hreq
  subst hsz
  simp only [NewConnPool, hlen, if_false, initialPool]

theorem newConnPool_panics (maxCap : Int) (initEndpoints : List String)
    (connsPerEndpoint size : Int) (d : Dialer) (u : Unit) (now : Int) (req sz : Int)
    (h : initEndpoints ≠ [])
    (hreq : req = wrapInt ((initEndpoints.length : Int) *
      (if connsPerEndpoint ≤ 0 then 1 else connsPerEndpoint)))
    (hsz : sz = if size ≤ 0 then intOfFloat64 (max 1024 (float64OfInt req)) else size)
    (hp : sz < 0 ∨ maxCap < sz ∨ req < 0 ∨ maxCap < req) :
    NewConnPool maxCap initEndpoints connsPerEndpoint size (some d) (some u) now = none := by
  rw [newConnPool_eq maxCap initEndpoints connsPerEndpoint size d u now req sz h hreq hsz]
  by_cases h1 : sz < 0 ∨ maxCap < sz
  · rw [makeChan_none _ _ h1]
  · rw [makeChan_ok _ _ (by omega) (by omega)]
    have h2 : req < 0 ∨ maxCap < req := by omega
    simp only [initConns, makeChan_none _ _ h2]

theorem newConnPool_runs (maxCap : Int) (initEndpoints : List String)
    (connsPerEndpoint size : Int) (d : Dialer) (u : Unit) (now : Int) (req sz : Int)
    (h : initEndpoints ≠ [])
    (hreq : req = wrapInt ((initEndpoints.length : Int) *
      (if connsPerEndpoint ≤ 0 then 1 else connsPerEndpoint)))
    (hsz : sz = if size ≤ 0 then intOfFloat64 (max 1024 (float64OfInt req)) else size)
    (hp : 0 ≤ sz ∧ sz ≤ maxCap ∧ 0 ≤ req ∧ req ≤ maxCap) :
    NewConnPool maxCap initEndpoints connsPerEndpoint size (some d) (some u) now =
      match (initDial d now req.toNat (initialPool initEndpoints
          (if connsPerEndpoint ≤ 0 then 1 else connsPerEndpoint) req sz.toNat)).2.1 with
      | e :: _ => some (.error e)
      | [] => some (.ok ((initDial d now req.toNat (initialPool initEndpoints
          (if connsPerEndpoint ≤ 0 then 1 else connsPerEndpoint) req sz.toNat)).1.foldl
          (fun q conn => put (some conn) none true q)
          (initDial d now req.toNat (initialPool initEndpoints
            (if connsPerEndpoint ≤ 0 then 1 else connsPerEndpoint) req sz.toNat)).2.2)) := by
  rw [newConnPool_eq maxCap initEndpoints connsPerEndpoint size d u now req sz h hreq hsz]
  rw [makeChan_ok _ _ hp.1 hp.2.1]
  simp only [initConns, makeChan_ok _ _ hp.2.2.1 hp.2.2.2]

theorem newConn_probe (d : Dialer) (now : Int) (p : Pool)
    (hU : p.unavailable = []) (he : p.endpoints ≠ []) :
    newConn d now p =
      dialNewConn d now (fanoutTarget p.endpoints p.index)
        { p with index := (p.index + 1) % 2 ^ 64 } := by
  have hlen : ¬ p.endpoints.length = 0 := fun h0 => he (List.length_eq_zero.mp h0)
  have hg : getEndpoint p = (.ok (p.endpoints.getD (p.index % p.endpoints.length) ""),
      { p with index := (p.index + 1) % 2 ^ 64 }) := by
    simp only [getEndpoint, hlen, if_false]
    generalize hn : p.endpoints.length = n at hlen
    cases n with
    | zero => exact absurd rfl hlen
    | succ k =>
      simp only [getEndpointLoop, hU, Load, Option.isSome_none, Bool.false_eq_true, if_false, hn]
  simp only [newConn, hg, fanoutTarget]

theorem newConn_healthy (d : Dialer) (now : Int) (p : Pool)
    (hU : p.unavailable = []) (he : p.endpoints ≠ []) :
    ∃ ep, ep ∈ p.endpoints ∧
      newConn d now p = dialNewConn d now ep { p with index := (p.index + 1) % 2 ^ 64 } := by
  have hlen : ¬ p.endpoints.length = 0 := fun h0 => he (List.length_eq_zero.mp h0)
  refine ⟨p.endpoints.getD (p.index % p.endpoints.length) "", probe_mem _ _ he, ?_⟩
  have hg : getEndpoint p = (.ok (p.endpoints.getD (p.index % p.endpoints.length) ""),
      { p with index := (p.index + 1) % 2 ^ 64 }) := by
    simp only [getEndpoint, hlen, if_false]
    generalize hn : p.endpoints.length = n at hlen
    cases n with
    | zero => exact absurd rfl hlen
    | succ k =>
      simp only [getEndpointLoop, hU, Load, Option.isSome_none, Bool.false_eq_true, if_false, hn]
  simp only [newConn, hg]

theorem newConn_log (d : Dialer) (now : Int) (p : Pool) :
    p.dialLog <+: (newConn d now p).2.dialLog := by
  have hf := getEndpoint_frame p
  unfold newConn
  cases hg : getEndpoint p with
  | mk r q =>
    rw [hg] at hf
    simp only at hf
    have hl : q.dialLog = p.dialLog := by rw [hf]
    cases r with
    | error e => simp only; rw [hl]
    | ok ep =>
      simp only [dialNewConn]
      cases d q.dialLog ep with
      | error e => simp only [markUnavailable]; rw [hl]; exact List.prefix_append _ _
      | ok c => simp only; rw [hl]; exact List.prefix_append _ _

theorem initDial_log (d : Dialer) (now : Int) (n : Nat) (p : Pool) :
    p.dialLog <+: (initDial d now n p).2.2.dialLog := by
  induction n generalizing p with
  | zero => exact List.prefix_rfl
  | succ n ih =>
    have h1 := newConn_log d now p
    simp only [initDial]
    cases hn : newConn d now p with
    | mk r q =>
      rw [hn] at h1
      cases r with
      | error e => exact h1.trans (ih q)
      | ok c => exact h1.trans (ih q)

theorem range_shift (f : Nat → String) (lg : List String) (i j : Nat) :
    lg ++ (List.range (j + 1)).map (fun t => f (i + t)) =
      (lg ++ [f i]) ++ (List.range j).map (fun t => f (i + 1 + t)) := by
  rw [List.range_succ_eq_map, List.map_cons, List.map_map, List.append_assoc]
  simp only [List.singleton_append, Nat.add_zero]
  congr 2
  apply List.map_congr_left
  intro t _
  simp only [Function.comp, Nat.succ_eq_add_one]
  congr 1
  omega

theorem initDial_schedule (d : Dialer) (now : Int) (eps : List String) (he : eps ≠ [])
    (n : Nat) (p : Pool) (i : Nat) (lg : List String)
    (hU : p.unavailable = []) (hE : p.endpoints = eps) (hi : p.index = i)
    (hl : p.dialLog = lg) (hn : i + n < 2 ^ 64) :
    ((∀ j, j < n → ∃ c, d (lg ++ (List.range j).map (fun t => fanoutTarget eps (i + t)))
        (fanoutTarget eps (i + j)) = .ok c) →
      (initDial d now n p).2.1 = []) ∧
    (∀ k e, k < n →
      (∀ j, j < k → ∃ c, d (lg ++ (List.range j).map (fun t => fanoutTarget eps (i + t)))
        (fanoutTarget eps (i + j)) = .ok c) →
      d (lg ++ (List.range k).map (fun t => fanoutTarget eps (i + t)))
        (fanoutTarget eps (i + k)) = .error e →
      (initDial d now n p).2.1.head? = some e) := by
  induction n generalizing p i lg with
  | zero =>
    refine ⟨fun _ => rfl, ?_⟩
    intro k e hk
    omega
  | succ n ih =>
    have hnc := newConn_probe d now p hU (by rw [hE]; exact he)
    rw [hE, hi] at hnc
    simp only [initDial, hnc, dialNewConn, hl]
    cases hd : d lg (fanoutTarget eps i) with
    | error e0 =>
      simp only
      refine ⟨?_, ?_⟩
      · intro hall
        obtain ⟨c, hc⟩ := hall 0 (by omega)
        simp only [List.range_zero, List.map_nil, List.append_nil, Nat.add_zero] at hc
        rw [hd] at hc
        cases hc
      · intro k e hk hall herr
        cases k with
        | zero =>
          simp only [List.range_zero, List.map_nil, List.append_nil, Nat.add_zero] at herr
          rw [hd] at herr
          simp only [Except.error.injEq] at herr
          simp only [List.head?_cons, herr]
        | succ k =>
          obtain ⟨c, hc⟩ := hall 0 (by omega)
          simp only [List.range_zero, List.map_nil, List.append_nil, Nat.add_zero] at hc
          rw [hd] at hc
          cases hc
    | ok c0 =>
      simp only
      have hmod : (i + 1) % 2 ^ 64 = i + 1 := Nat.mod_eq_of_lt (by omega)
      obtain ⟨i1, i2⟩ := ih
        { p with index := (i + 1) % 2 ^ 64, endpoints := eps,
                 dialLog := lg ++ [fanoutTarget eps i] }
        (i + 1) (lg ++ [fanoutTarget eps i]) hU rfl hmod rfl (by omega)
      refine ⟨?_, ?_⟩
      · intro hall
        apply i1
        intro j hj
        obtain ⟨c, hc⟩ := hall (j + 1) (by omega)
        rw [range_shift (fanoutTarget eps) lg i j] at hc
        exact ⟨c, by rw [show i + 1 + j = i + (j + 1) by omega]; exact hc⟩
      · intro k e hk hall herr
        cases k with
        | zero =>
          simp only [List.range_zero, List.map_nil, List.append_nil, Nat.add_zero] at herr
          rw [hd] at herr
          cases herr
        | succ k =>
          apply i2 k e (by omega)
          · intro j hj
            obtain ⟨c, hc⟩ := hall (j + 1) (by omega)
            rw [range_shift (fanoutTarget eps) lg i j] at hc
            exact ⟨c, by rw [show i + 1 + j = i + (j + 1) by omega]; exact hc⟩
          · rw [range_shift (fanoutTarget eps) lg i k] at herr
            rw [show i + 1 + k = i + (k + 1) by omega]; exact herr

theorem initDial_initial (d : Dialer) (now : Int) (eps : List String) (he : eps ≠ [])
    (cpe req : Int) (cap n : Nat) (hn : n < 2 ^ 64) :
    ((∀ j, j < n → ∃ c, d (fanoutLog eps j) (fanoutTarget eps j) = .ok c) →
      (initDial d now n (initialPool eps cpe req cap)).2.1 = []) ∧
    (∀ k e, k < n →
      (∀ j, j < k → ∃ c, d (fanoutLog eps j) (fanoutTarget eps j) = .ok c) →
      d (fanoutLog eps k) (fanoutTarget eps k) = .error e →
      (initDial d now n (initialPool eps cpe req cap)).2.1.head? = some e) := by
  have h := initDial_schedule d now eps he n (initialPool eps cpe req cap) 0 [] rfl rfl rfl rfl
    (by omega)
  simp only [List.nil_append, Nat.zero_add] at h
  exact h

theorem first_failure (d : Dialer) (L : Nat → List String) (T : Nat → String) (k : Nat)
    (h : ∃ e, d (L k) (T k) = .error e) :
    ∃ m e, m ≤ k ∧ (∀ j, j < m → ∃ c, d (L j) (T j) = .ok c) ∧ d (L m) (T m) = .error e := by
  induction k using Nat.strong_induction_on with
  | _ k ih =>
    by_cases hall : ∀ j, j < k → ∃ c, d (L j) (T j) = .ok c
    · obtain ⟨e, he⟩ := h
      exact ⟨k, e, le_refl k, hall, he⟩
    · push_neg at hall
      obtain ⟨j, hj, hno⟩ := hall
      have hje : ∃ e, d (L j) (T j) = .error e := by
        cases hd : d (L j) (T j) with
        | error e => exact ⟨e, rfl⟩
        | ok c => exact absurd hd (hno c)
      obtain ⟨m, e, hm, h1, h2⟩ := ih j hj hje
      exact ⟨m, e, by omega, h1, h2⟩

/-- C17. Construction fails exactly when it should: with
`ErrInitEndpointEmpty` for no endpoints, otherwise `ErrDialerIsNil` for a
nil dialer, otherwise `ErrLoggerIsNil` for a nil logger. Otherwise, with
`req` the computed `requiredConnNum` and `sz` the computed capacity, the
constructor panics (returning neither an error nor a pool) exactly when
`make` rejects `sz` or `req`; when it does not panic, the initial dials
running one after the other, dial number `k` (for `k < req`) goes to
round-robin position `k` of `initEndpoints` as long as no earlier dial has
failed, construction returns the error `e` exactly when the first dial to
fail fails with `e`, it returns an error if and only if one of these `req`
dials fails, and it returns a pool only if all `req` dials succeed. -/
theorem newConnPool_failure (maxCap : Int) (initEndpoints : List String)
    (connsPerEndpoint size : Int)
    (dialer : Option Dialer) (log : Option Unit) (d : Dialer) (u : Unit) (now : Int)
    (req sz : Int)
    (hreq : req = wrapInt ((initEndpoints.length : Int) *
      (if connsPerEndpoint ≤ 0 then 1 else connsPerEndpoint)))
    (hsz : sz = if size ≤ 0 then intOfFloat64 (max 1024 (float64OfInt req)) else size) :
    (initEndpoints = [] →
      NewConnPool maxCap initEndpoints connsPerEndpoint size dialer log now
        = some (.error ErrInitEndpointEmpty)) ∧
    (initEndpoints ≠ [] →
      NewConnPool maxCap initEndpoints connsPerEndpoint size none log now
        = some (.error ErrDialerIsNil)) ∧
    (initEndpoints ≠ [] →
      NewConnPool maxCap initEndpoints connsPerEndpoint size (some d) none now
        = some (.error ErrLoggerIsNil)) ∧
    (initEndpoints ≠ [] →
      (NewConnPool maxCap initEndpoints connsPerEndpoint size (some d) (some u) now = none ↔
        (sz < 0 ∨ maxCap < sz ∨ req < 0 ∨ maxCap < req)) ∧
      (∀ e, NewConnPool maxCap initEndpoints connsPerEndpoint size (some d) (some u) now
          = some (.error e) ↔
        (0 ≤ sz ∧ sz ≤ maxCap ∧ 0 ≤ req ∧ req ≤ maxCap) ∧
        ∃ k : Nat, (k : Int) < req ∧
          (∀ j, j < k → ∃ c, d (fanoutLog initEndpoints j) (fanoutTarget initEndpoints j) = .ok c) ∧
          d (fanoutLog initEndpoints k) (fanoutTarget initEndpoints k) = .error e) ∧
      ((∃ e, NewConnPool maxCap initEndpoints connsPerEndpoint size (some d) (some u) now
          = some (.error e)) ↔
        (0 ≤ sz ∧ sz ≤ maxCap ∧ 0 ≤ req ∧ req ≤ maxCap) ∧
        ∃ k : Nat, (k : Int) < req ∧
          ∃ e, d (fanoutLog initEndpoints k) (fanoutTarget initEndpoints k) = .error e) ∧
      (∀ p, NewConnPool maxCap initEndpoints connsPerEndpoint size (some d) (some u) now
          = some (.ok p) →
        (0 ≤ sz ∧ sz ≤ maxCap ∧ 0 ≤ req ∧ req ≤ maxCap) ∧
        ∀ k : Nat, (k : Int) < req →
          ∃ c, d (fanoutLog initEndpoints k) (fanoutTarget initEndpoints k) = .ok c)) := by
  refine ⟨?_, ?_, ?_, ?_⟩
  · intro h; simp [NewConnPool, h]
  · intro h
    have hlen : ¬ initEndpoints.length = 0 := fun h0 => h (List.length_eq_zero.mp h0)
    simp [NewConnPool, hlen]
  · intro h
    have hlen : ¬ initEndpoints.length = 0 := fun h0 => h (List.length_eq_zero.mp h0)
    simp [NewConnPool, hlen]
  · intro h
    have hpan := newConnPool_panics maxCap initEndpoints connsPerEndpoint size d u now req sz
      h hreq hsz
    have hrun := newConnPool_runs maxCap initEndpoints connsPerEndpoint size d u now req sz
      h hreq hsz
    have hrange : req < 2 ^ 63 := by rw [hreq]; exact (wrapInt_range _).2
    obtain ⟨s1, s2⟩ := initDial_initial d now initEndpoints h
      (if connsPerEndpoint ≤ 0 then 1 else connsPerEndpoint) req sz.toNat req.toNat (by omega)
    -- the outcome when `make` accepts both capacities
    have hnopanic : ∀ r, NewConnPool maxCap initEndpoints connsPerEndpoint size (some d) (some u)
        now = some r → 0 ≤ sz ∧ sz ≤ maxCap ∧ 0 ≤ req ∧ req ≤ maxCap := by
      intro r hr
      by_contra hc
      have hp : sz < 0 ∨ maxCap < sz ∨ req < 0 ∨ maxCap < req := by omega
      rw [hpan hp] at hr
      cases hr
    have herr : ∀ e, NewConnPool maxCap initEndpoints connsPerEndpoint size (some d) (some u) now
          = some (.error e) ↔
        (0 ≤ sz ∧ sz ≤ maxCap ∧ 0 ≤ req ∧ req ≤ maxCap) ∧
        ∃ k : Nat, (k : Int) < req ∧
          (∀ j, j < k → ∃ c, d (fanoutLog initEndpoints j) (fanoutTarget initEndpoints j) = .ok c) ∧
          d (fanoutLog initEndpoints k) (fanoutTarget initEndpoints k) = .error e := by
      intro e
      constructor
      · intro hN
        have hnp := hnopanic _ hN
        refine ⟨hnp, ?_⟩
        rw [hrun hnp] at hN
        split at hN
        · rename_i e2 rest hlist
          simp only [Option.some.injEq, Except.error.injEq] at hN
          subst hN
          have hnot : ¬ ∀ j, j < req.toNat →
              ∃ c, d (fanoutLog initEndpoints j) (fanoutTarget initEndpoints j) = .ok c := by
            intro hall
            rw [s1 hall] at hlist
            cases hlist
          push_neg at hnot
          obtain ⟨j, hj, hno⟩ := hnot
          have hje : ∃ e, d (fanoutLog initEndpoints j) (fanoutTarget initEndpoints j)
              = .error e := by
            cases hd : d (fanoutLog initEndpoints j) (fanoutTarget initEndpoints j) with
            | error e => exact ⟨e, rfl⟩
            | ok c => exact absurd hd (hno c)
          obtain ⟨m, e3, hm, h1, h2⟩ := first_failure d (fanoutLog initEndpoints)
            (fanoutTarget initEndpoints) j hje
          have h4 := s2 m e3 (by omega) h1 h2
          rw [hlist] at h4
          simp only [List.head?_cons, Option.some.injEq] at h4
          subst h4
          exact ⟨m, by omega, h1, h2⟩
        · cases hN
      · rintro ⟨hnp, k, hk, h1, h2⟩
        rw [hrun hnp]
        have h4 := s2 k e (by omega) h1 h2
        split
        · rename_i e2 rest hlist
          rw [hlist] at h4
          simp only [List.head?_cons, Option.some.injEq] at h4
          rw [h4]
        · rename_i hlist
          rw [hlist] at h4
          cases h4
    refine ⟨⟨?_, hpan⟩, herr, ⟨?_, ?_⟩, ?_⟩
    · intro hN
      by_contra hc
      have hnp : 0 ≤ sz ∧ sz ≤ maxCap ∧ 0 ≤ req ∧ req ≤ maxCap := by omega
      rw [hrun hnp] at hN
      split at hN <;> cases hN
    · rintro ⟨e, hN⟩
      obtain ⟨hnp, k, hk, _, h2⟩ := (herr e).mp hN
      exact ⟨hnp, k, hk, e, h2⟩
    · rintro ⟨hnp, k, hk, hke⟩
      obtain ⟨m, e, hm, h1, h2⟩ := first_failure d (fanoutLog initEndpoints)
        (fanoutTarget initEndpoints) k hke
      exact ⟨e, (herr e).mpr ⟨hnp, m, by omega, h1, h2⟩⟩
    · intro p hN
      have hnp := hnopanic _ hN
      refine ⟨hnp, ?_⟩
      intro k hk
      cases hd : d (fanoutLog initEndpoints k) (fanoutTarget initEndpoints k) with
      | ok c => exact ⟨c, rfl⟩
      | error e =>
        obtain ⟨m, e2, hm, h1, h2⟩ := first_failure d (fanoutLog initEndpoints)
          (fanoutTarget initEndpoints) k ⟨e, hd⟩
        have := (herr e2).mpr ⟨hnp, m, by omega, h1, h2⟩
        rw [this] at hN
        cases hN

theorem newConnPool_failure_witness :
    NewConnPool (2 ^ 44) ["a:1", "b:1"] 2 16 (some failBDialer) (some ()) 0
      = some (.error "connection refused") ∧
    NewConnPool (2 ^ 44) [] 2 16 (some failBDialer) (some ()) 0
      = some (.error ErrInitEndpointEmpty) :=
  ⟨((newConnPool_failure (2 ^ 44) ["a:1", "b:1"] 2 16 none none failBDialer () 0 4 16
      (by decide) (by decide)).2.2.2 (by decide)).2.1 "connection refused" |>.mpr
      ⟨by decide, 1, by decide,
        fun j hj => ⟨⟨0, some "a:1"⟩, by
          have h0 : j = 0 := by omega
          subst h0
          rfl⟩, rfl⟩,
   (newConnPool_failure (2 ^ 44) [] 2 16 (some failBDialer) (some ()) failBDialer () 0 0 16
      (by decide) (by decide)).1 rfl⟩

/-- When the `int` product wraps to a negative number, or a `size <= 0` is
replaced by a `float64` that has rounded up to `2^63`, `make` panics and the
constructor returns nothing, whatever the dialer does. -/
theorem newConnPool_panic_examples :
    NewConnPool (2 ^ 44) ["a:1", "b:1"] (2 ^ 62) 16 (some failBDialer) (some ()) 0 = none ∧
    NewConnPool (2 ^ 44) ["a:1"] (2 ^ 63 - 1) 0 (some failBDialer) (some ()) 0 = none ∧
    NewConnPool (2 ^ 44) ["a:1"] (2 ^ 50) 16 (some failBDialer) (some ()) 0 = none :=
  ⟨rfl, rfl, rfl⟩

theorem delete_of_not_mem {V : Type} (m : List (String × V)) (a : String)
    (h : a ∉ Keys m) : Delete m a = m := by
  induction m with
  | nil => rfl
  | cons x m ih =>
    obtain ⟨k, v⟩ := x
    simp only [Keys, List.map_cons, List.mem_cons, not_or] at h
    have hk : ¬ k = a := fun e => h.1 e.symm
    simp only [Delete, hk, if_false]
    rw [ih h.2]

theorem keys_delete {V : Type} (m : List (String × V)) (a : String) :
    Keys (Delete m a) = (Keys m).filter (fun k => decide (k ≠ a)) := by
  induction m with
  | nil => rfl
  | cons x m ih =>
    obtain ⟨k, v⟩ := x
    by_cases hk : k = a
    · simp only [Delete, hk, if_true, Keys, List.map_cons, List.filter_cons, ne_eq,
        not_true_eq_false, decide_False, Bool.false_eq_true, if_false]
      exact ih
    · simp only [Delete, hk, if_false, Keys, List.map_cons, List.filter_cons, ne_eq,
        not_false_eq_true, decide_True, if_true]
      congr 1

theorem keys_store_nodup {V : Type} (m : List (String × V)) (a : String) (v : V)
    (h : (Keys m).Nodup) : (Keys (Store m a v)).Nodup := by
  have hk : Keys (Store m a v) = Keys (Delete m a) ++ [a] := by
    simp [Store, Keys]
  rw [hk, keys_delete]
  apply List.Nodup.append (h.filter _) (List.nodup_singleton a)
  intro x hx hxa
  rw [List.mem_filter] at hx
  rw [List.mem_singleton] at hxa
  simp [hxa] at hx

theorem sum_delete (m : List (String × Int)) (a : String) (h : (Keys m).Nodup) :
    ((Delete m a).map Prod.snd).sum = (m.map Prod.snd).sum - (Load m a).getD 0 := by
  induction m with
  | nil => simp [Delete, Load]
  | cons x m ih =>
    obtain ⟨k, v⟩ := x
    simp only [Keys, List.map_cons, List.nodup_cons] at h
    by_cases hk : k = a
    · subst hk
      simp only [Delete, if_true, Load, List.map_cons, List.sum_cons, Option.getD_some]
      rw [delete_of_not_mem m k h.1]
      omega
    · simp only [Delete, hk, if_false, Load, List.map_cons, List.sum_cons]
      rw [ih h.2]
      omega

theorem getConnCount_inc (a : String) (p : Pool) (h : (Keys p.endpointConnCounts).Nodup) :
    getConnCount (incEndpointConnCount a p) = getConnCount p + 1 ∧
    (Keys (incEndpointConnCount a p).endpointConnCounts).Nodup := by
  refine ⟨?_, keys_store_nodup _ _ _ h⟩
  simp only [getConnCount, incEndpointConnCount, Store, List.map_append, List.sum_append,
    List.map_cons, List.map_nil, List.sum_cons, List.sum_nil]
  rw [sum_delete _ _ h]
  omega

theorem load_foldl_store (eps : List String) (m : List (String × Unit)) (x : String) :
    (Load (eps.foldl (fun m e => Store m e ()) m) x).isSome =
      (decide (x ∈ eps) || (Load m x).isSome) := by
  induction eps generalizing m with
  | nil => simp
  | cons e eps ih =>
    rw [List.foldl_cons, ih]
    simp only [load_store, List.mem_cons]
    by_cases hx : x ∈ eps
    · simp [hx]
    · by_cases hxe : e = x
      · simp [hx, hxe]
      · have : ¬ x = e := fun h => hxe h.symm
        simp [hx, hxe, this]

theorem initDial_honest (d : Dialer) (now : Int) (n : Nat) (p : Pool)
    (hd : ∀ log ep, ∃ c, d log ep = .ok c ∧ c.addr = some ep)
    (hU : p.unavailable = []) (he : p.endpoints ≠ []) :
    (initDial d now n p).2.1 = [] ∧
    (initDial d now n p).1.length = n ∧
    (∀ c, c ∈ (initDial d now n p).1 → ∃ ep, ep ∈ p.endpoints ∧ c.addr = some ep) ∧
    (initDial d now n p).2.2 =
      { p with index := (initDial d now n p).2.2.index,
               dialLog := (initDial d now n p).2.2.dialLog } := by
  induction n generalizing p with
  | zero => exact ⟨rfl, rfl, fun c hc => (by cases hc), rfl⟩
  | succ n ih =>
    obtain ⟨ep0, hep0, hnc⟩ := newConn_healthy d now p hU he
    obtain ⟨c0, hc0, hca0⟩ := hd p.dialLog ep0
    obtain ⟨i1, i2, i3, i4⟩ :=
      ih { p with index := (p.index + 1) % 2 ^ 64, dialLog := p.dialLog ++ [ep0] } hU he
    simp only [initDial, hnc, dialNewConn, hc0]
    refine ⟨i1, by simp only [List.length_cons, i2], ?_, by rw [i4]⟩
    intro c hc
    rcases List.mem_cons.mp hc with h | h
    · exact ⟨ep0, hep0, by rw [h]; exact hca0⟩
    · exact i3 c h

theorem putAll_exact (l : List Conn) (p : Pool)
    (hl : ∀ c, c ∈ l → ∃ a, c.addr = some a ∧ (Load p.endpointMap a).isSome = true)
    (hroom : p.connChan.length + l.length ≤ p.size)
    (hnd : (Keys p.endpointConnCounts).Nodup) :
    (l.foldl (fun q conn => put (some conn) none true q) p).connChan = p.connChan ++ l ∧
    getConnCount (l.foldl (fun q conn => put (some conn) none true q) p)
      = getConnCount p + (l.length : Int) ∧
    l.foldl (fun q conn => put (some conn) none true q) p =
      { p with
        connChan := (l.foldl (fun q conn => put (some conn) none true q) p).connChan,
        endpointConnCounts :=
          (l.foldl (fun q conn => put (some conn) none true q) p).endpointConnCounts } := by
  induction l generalizing p with
  | nil => simp
  | cons c l ih =>
    simp only [List.length_cons] at hroom
    obtain ⟨a, ha, hm⟩ := hl c (List.mem_cons_self _ _)
    rcases put_new_cases c p with ⟨a2, _, _, _, hput⟩ | ⟨hno, _⟩
    · obtain ⟨g1, g2⟩ := getConnCount_inc a2 p hnd
      have hcount : getConnCount (put (some c) none true p) = getConnCount p + 1 := by
        rw [hput]; exact g1
      have hnd2 : (Keys (put (some c) none true p).endpointConnCounts).Nodup := by
        rw [hput]; exact g2
      have hmap : (put (some c) none true p).endpointMap = p.endpointMap := by rw [hput]
      have hsz : (put (some c) none true p).size = p.size := by rw [hput]
      have hq : (put (some c) none true p).connChan = p.connChan ++ [c] := by rw [hput]
      obtain ⟨i1, i2, i3⟩ := ih (put (some c) none true p)
        (fun x hx => by
          obtain ⟨b, hb, hbm⟩ := hl x (List.mem_cons_of_mem _ hx)
          exact ⟨b, hb, by rw [hmap]; exact hbm⟩)
        (by rw [hq, hsz]; simp only [List.length_append, List.length_singleton]; omega)
        hnd2
      rw [List.foldl_cons]
      refine ⟨by rw [i1, hq]; simp, ?_, ?_⟩
      · rw [i2, hcount]; simp only [List.length_cons]; push_cast; omega
      · rw [i3, hput]
    · exact absurd ⟨a, ha, hm, by omega⟩ hno

theorem putAll_frame (l : List Conn) (p : Pool) :
    (l.foldl (fun q conn => put (some conn) none true q) p).connsPerEndpoint
      = p.connsPerEndpoint ∧
    (l.foldl (fun q conn => put (some conn) none true q) p).requiredConnNum
      = p.requiredConnNum ∧
    (l.foldl (fun q conn => put (some conn) none true q) p).size = p.size ∧
    (l.foldl (fun q conn => put (some conn) none true q) p).unavailable = p.unavailable ∧
    (l.foldl (fun q conn => put (some conn) none true q) p).endpoints = p.endpoints ∧
    (l.foldl (fun q conn => put (some conn) none true q) p).endpointMap = p.endpointMap := by
  induction l generalizing p with
  | nil => exact ⟨rfl, rfl, rfl, rfl, rfl, rfl⟩
  | cons c l ih =>
    rw [List.foldl_cons]
    obtain ⟨h1, h2, h3, h4, h5, h6⟩ := ih (put (some c) none true p)
    have hp : (put (some c) none true p).connsPerEndpoint = p.connsPerEndpoint ∧
        (put (some c) none true p).requiredConnNum = p.requiredConnNum ∧
        (put (some c) none true p).size = p.size ∧
        (put (some c) none true p).unavailable = p.unavailable ∧
        (put (some c) none true p).endpoints = p.endpoints ∧
        (put (some c) none true p).endpointMap = p.endpointMap := by
      rcases put_new_cases c p with ⟨a, _, _, _, h⟩ | ⟨_, h⟩
      · rw [h]; exact ⟨rfl, rfl, rfl, rfl, rfl, rfl⟩
      · rw [h]; exact ⟨rfl, rfl, rfl, rfl, rfl, rfl⟩
    exact ⟨h1.trans hp.1, h2.trans hp.2.1, h3.trans hp.2.2.1, h4.trans hp.2.2.2.1,
      h5.trans hp.2.2.2.2.1, h6.trans hp.2.2.2.2.2⟩

/-- C18, as stated, fails when the `int` product overflows. With three
endpoints and `connsPerEndpoint = 6148914691236517206` the product
`2^64 + 2` wraps to 2: the pool is built with `requiredConnNum = 2`, which
is not `|initEndpoints| * connsPerEndpoint`, capacity 1024 and two pooled
connections. With two endpoints and `connsPerEndpoint = 2^62` the product
wraps to `-2^63`: the size 16 is not below it, yet `make` panics on the
negative count and no pool is returned. -/
theorem newConnPool_overflow_counterexample :
    (∃ p, NewConnPool (2 ^ 44) ["a:1", "b:1", "c:1"] 6148914691236517206 0
        (some echoDialer) (some ()) 0 = some (.ok p) ∧
      p.connsPerEndpoint = 6148914691236517206 ∧ p.endpoints.length = 3 ∧
      p.requiredConnNum = 2 ∧ p.requiredConnNum ≠ 3 * 6148914691236517206 ∧
      p.size = 1024 ∧ NumPooled p = 2) ∧
    wrapInt (2 * 2 ^ 62) = -2 ^ 63 ∧
    NewConnPool (2 ^ 44) ["a:1", "b:1"] (2 ^ 62) 16 (some echoDialer) (some ()) 0 = none :=
  ⟨⟨_, rfl, rfl, rfl, rfl, by decide, rfl, rfl⟩, by decide, rfl⟩

/-- C18. Successful construction: for a non-empty list of endpoints and a
dialer that always succeeds with a connection to the dialled address, when
the product `|initEndpoints| * connsPerEndpoint` (a `connsPerEndpoint <= 0`
counting as 1) is below `2^53` and neither it nor the resulting size exceeds
the largest capacity `make` accepts, `NewConnPool` returns a pool with
`connsPerEndpoint <= 0` normalised to 1, `requiredConnNum` equal to that
product and `size <= 0` normalised to `max(1024, requiredConnNum)`, no
unavailable endpoint, and snapshot and membership set equal to
`initEndpoints`; whenever the resulting size is at least `requiredConnNum`,
the new pool has `NumPooled() = requiredConnNum` and a total count of
`requiredConnNum`. -/
theorem newConnPool_success (maxCap : Int) (initEndpoints : List String)
    (connsPerEndpoint size : Int) (d : Dialer) (u : Unit) (now : Int) (cpe prod sz : Int)
    (hcpe : cpe = if connsPerEndpoint ≤ 0 then 1 else connsPerEndpoint)
    (hprod : prod = (initEndpoints.length : Int) * cpe)
    (hsz : sz = if size ≤ 0 then max 1024 prod else size)
    (he : initEndpoints ≠ [])
    (hd : ∀ log ep, ∃ c, d log ep = .ok c ∧ c.addr = some ep)
    (h53 : prod < 2 ^ 53) (hpc : prod ≤ maxCap) (hsc : sz ≤ maxCap) :
    ∃ p, NewConnPool maxCap initEndpoints connsPerEndpoint size (some d) (some u) now
        = some (.ok p) ∧
      p.connsPerEndpoint = cpe ∧
      p.requiredConnNum = prod ∧
      (p.size : Int) = sz ∧
      p.unavailable = [] ∧
      p.endpoints = initEndpoints ∧
      (∀ e, (Load p.endpointMap e).isSome = true ↔ e ∈ initEndpoints) ∧
      (prod ≤ sz → (NumPooled p : Int) = prod ∧ getConnCount p = prod) := by
  have hlenpos : (0 : Int) < (initEndpoints.length : Int) := by
    have := List.length_pos.mpr he
    omega
  have hcpos : (0 : Int) < cpe := by
    rw [hcpe]; split <;> omega
  have hppos : (0 : Int) < prod := by
    rw [hprod]; exact Int.mul_pos hlenpos hcpos
  have hszpos : (0 : Int) ≤ sz := by
    rw [hsz]; split
    · exact le_trans (by decide) (le_max_left _ _)
    · omega
  have hreq : prod = wrapInt ((initEndpoints.length : Int) *
      (if connsPerEndpoint ≤ 0 then 1 else connsPerEndpoint)) := by
    rw [← hcpe, ← hprod, wrapInt_eq _ (by omega) (by omega)]
  have hm53 : max 1024 prod < 2 ^ 53 := max_lt (by decide) h53
  have hm0 : (0 : Int) ≤ max 1024 prod := le_trans (by decide) (le_max_left _ _)
  have hsz2 : sz = if size ≤ 0 then intOfFloat64 (max 1024 (float64OfInt prod)) else size := by
    rw [float64OfInt_eq _ (le_of_lt hppos) h53, intOfFloat64_eq _ (by omega) (by omega)]
    exact hsz
  have hrun := newConnPool_runs maxCap initEndpoints connsPerEndpoint size d u now prod sz
    he hreq hsz2 ⟨hszpos, hsc, le_of_lt hppos, hpc⟩
  rw [← hcpe] at hrun
  obtain ⟨i1, i2, i3, i4⟩ := initDial_honest d now prod.toNat
    (initialPool initEndpoints cpe prod sz.toNat) hd rfl he
  have hmapP : ∀ e, (Load (initialPool initEndpoints cpe prod sz.toNat).endpointMap e).isSome
      = true ↔ e ∈ initEndpoints := by
    intro e
    simp only [initialPool, load_foldl_store]
    simp [Load]
  obtain ⟨f1, f2, f3, f4, f5, f6⟩ := putAll_frame
    (initDial d now prod.toNat (initialPool initEndpoints cpe prod sz.toNat)).1
    (initDial d now prod.toNat (initialPool initEndpoints cpe prod sz.toNat)).2.2
  have hexact := putAll_exact
    (initDial d now prod.toNat (initialPool initEndpoints cpe prod sz.toNat)).1
    (initDial d now prod.toNat (initialPool initEndpoints cpe prod sz.toNat)).2.2
    (by
      intro c hc
      obtain ⟨ep, hep, hca⟩ := i3 c hc
      refine ⟨ep, hca, ?_⟩
      rw [i4]
      exact (hmapP ep).mpr hep)
  have hq0 : (initDial d now prod.toNat
      (initialPool initEndpoints cpe prod sz.toNat)).2.2.connChan = [] := by
    rw [i4]; rfl
  have hc0 : getConnCount (initDial d now prod.toNat
      (initialPool initEndpoints cpe prod sz.toNat)).2.2 = 0 := by
    rw [i4]; rfl
  have hs0 : (initDial d now prod.toNat
      (initialPool initEndpoints cpe prod sz.toNat)).2.2.size = sz.toNat := by
    rw [i4]; rfl
  have hk0 : (Keys (initDial d now prod.toNat
      (initialPool initEndpoints cpe prod sz.toNat)).2.2.endpointConnCounts).Nodup := by
    rw [i4]; simp [initialPool, Keys]
  have hfields : (initDial d now prod.toNat
        (initialPool initEndpoints cpe prod sz.toNat)).2.2.connsPerEndpoint = cpe ∧
      (initDial d now prod.toNat
        (initialPool initEndpoints cpe prod sz.toNat)).2.2.requiredConnNum = prod ∧
      (initDial d now prod.toNat
        (initialPool initEndpoints cpe prod sz.toNat)).2.2.unavailable = [] ∧
      (initDial d now prod.toNat
        (initialPool initEndpoints cpe prod sz.toNat)).2.2.endpoints = initEndpoints ∧
      (initDial d now prod.toNat
        (initialPool initEndpoints cpe prod sz.toNat)).2.2.endpointMap =
        (initialPool initEndpoints cpe prod sz.toNat).endpointMap := by
    rw [i4]
    exact ⟨rfl, rfl, rfl, rfl, rfl⟩
  obtain ⟨g1, g2, g3, g4, g5⟩ := hfields
  generalize hP : List.foldl (fun q conn => put (some conn) none true q)
    (initDial d now prod.toNat (initialPool initEndpoints cpe prod sz.toNat)).2.2
    (initDial d now prod.toNat (initialPool initEndpoints cpe prod sz.toNat)).1 = P
    at f1 f2 f3 f4 f5 f6 hexact hrun
  refine ⟨P, ?_, f1.trans g1, f2.trans g2, ?_, f4.trans g3, f5.trans g4, ?_, ?_⟩
  · rw [hrun]
    simp only [i1]
  · rw [f3, hs0]
    exact Int.toNat_of_nonneg hszpos
  · intro e
    rw [f6, g5]
    exact hmapP e
  · intro hroom
    obtain ⟨q1, q2, _⟩ := hexact
      (by
        rw [i2, hq0, hs0]
        simp only [List.length_nil, Nat.zero_add]
        omega)
      hk0
    refine ⟨?_, ?_⟩
    · simp only [NumPooled]
      rw [q1, hq0, List.nil_append, i2, Int.toNat_of_nonneg (le_of_lt hppos)]
    · rw [q2, hc0, i2, Int.toNat_of_nonneg (le_of_lt hppos), zero_add]

theorem newConnPool_success_witness :
    ∃ p, NewConnPool (2 ^ 44) ["a:1", "b:1"] 2 16 (some echoDialer) (some ()) 0 = some (.ok p) ∧
      (NumPooled p : Int) = 4 ∧ p.requiredConnNum = 4 ∧ (p.size : Int) = 16 := by
  obtain ⟨p, h0, _, h2, h3, _, _, _, h7⟩ :=
    newConnPool_success (2 ^ 44) ["a:1", "b:1"] 2 16 echoDialer () 0 2 4 16
      (by decide) (by decide) (by decide) (by decide)
      (fun log ep => ⟨⟨log.length, some ep⟩, rfl, rfl⟩) (by decide) (by decide) (by decide)
  exact ⟨p, h0, (h7 (by decide)).1, h2, h3⟩

/-! ## Rebalance target -/

/-- C19. Rebalance target: with `cur` the sum of all counts,
`avg = (cur + requiredConnNum) div 2` and `availEP = |snapshot| - |U|` (the
`float64` quotients being exact floor divisions for counts below `2^53`),
`getExpectedConnPerEndpoint` returns 1 if `cur <= 0` or `avg <= 0` or
`availEP <= 0`; otherwise, with `est = cur div availEP` and
`avgPer = avg div availEP`, it returns `max(1, min(est, avgPer))` when
`est < connsPerEndpoint` and `max(1, max(connsPerEndpoint, avgPer))`
otherwise. The result is at least 1 in every state, so the early return of
`rebalance` is never taken. -/
theorem expected_conn_formula (d : Dialer) (now : Int) (p : Pool) :
    getConnCount p = (p.endpointConnCounts.map Prod.snd).sum ∧
    getAvailableEndpointCount p = (p.endpoints.length : Int) - (p.unavailable.length : Int) ∧
    getExpectedConnPerEndpoint p =
      (if getConnCount p ≤ 0 ∨ (getConnCount p + p.requiredConnNum) / 2 ≤ 0 ∨
          getAvailableEndpointCount p ≤ 0 then 1
       else if getConnCount p / getAvailableEndpointCount p < p.connsPerEndpoint then
         max 1 (min (getConnCount p / getAvailableEndpointCount p)
           ((getConnCount p + p.requiredConnNum) / 2 / getAvailableEndpointCount p))
       else
         max 1 (max p.connsPerEndpoint
           ((getConnCount p + p.requiredConnNum) / 2 / getAvailableEndpointCount p))) ∧
    1 ≤ getExpectedConnPerEndpoint p ∧
    rebalance d now p =
      (Keys ((Keys p.endpointConnCounts).foldl
          (rebalanceCounts d now (getExpectedConnPerEndpoint p)) p).endpointMap).foldl
        (rebalanceMap d now (getExpectedConnPerEndpoint p))
        ((Keys p.endpointConnCounts).foldl
          (rebalanceCounts d now (getExpectedConnPerEndpoint p)) p) := by
  have hpos := getExpected_pos p
  refine ⟨rfl, rfl, ?_, hpos, ?_⟩
  · unfold getExpectedConnPerEndpoint
    simp only
    by_cases h1 : getConnCount p ≤ 0
    · simp [h1]
    · by_cases h2 : (getConnCount p + p.requiredConnNum) / 2 ≤ 0
      · simp [h1, h2]
      · by_cases h3 : getAvailableEndpointCount p ≤ 0
        · simp [h1, h2, h3]
        · simp only [h1, h2, h3, if_false, or_self]
          split <;> rfl
  · have h0 : ¬ getExpectedConnPerEndpoint p ≤ 0 := by omega
    simp only [rebalance, h0, if_false]

/-! ## Surplus removal -/

theorem removeDrain_full (addr : String) (count : Int) (n : Nat) (removed : Int)
    (left : List Conn) (p : Pool)
    (hn : p.connChan.length ≤ n) (hlt : removed < count) :
    ∃ closed : List Conn,
      (removeDrain addr count n removed left p).2.closedDelayed = p.closedDelayed ++ closed ∧
      (closed.length : Int) = min (count - removed)
        ((p.connChan.countP (fun c => decide (c.addr = some addr)) : Nat) : Int) ∧
      (∀ c, c ∈ closed → c.addr = some addr) ∧
      (∀ c : Conn, c.addr ≠ none →
        (removeDrain addr count n removed left p).1.count c +
          (removeDrain addr count n removed left p).2.connChan.count c + closed.count c
          = left.count c + p.connChan.count c) ∧
      (removeDrain addr count n removed left p).1.length +
        (removeDrain addr count n removed left p).2.connChan.length
        ≤ left.length + p.connChan.length := by
  induction n generalizing removed left p with
  | zero =>
    have hq : p.connChan = [] := List.length_eq_zero.mp (Nat.le_zero.mp hn)
    refine ⟨[], by simp [removeDrain], ?_, fun c hc => (by cases hc), ?_, ?_⟩
    · simp only [hq, List.countP_nil, List.length_nil, Nat.cast_zero]
      omega
    · intro c _; simp [removeDrain]
    · simp [removeDrain]
  | succ n ih =>
    cases hq : p.connChan with
    | nil =>
      refine ⟨[], by simp [removeDrain, hq], ?_, fun c hc => (by cases hc), ?_, ?_⟩
      · simp only [List.countP_nil, List.length_nil, Nat.cast_zero]
        omega
      · intro c _; simp [removeDrain, hq]
      · simp [removeDrain, hq]
    | cons conn rest =>
      have hrest : rest.length ≤ n := by
        rw [hq] at hn; simp only [List.length_cons] at hn; omega
      simp only [removeDrain, hq]
      cases ha : conn.addr with
      | none =>
        simp only
        obtain ⟨closed, h1, h2, h3, h4, h5⟩ := ih removed left { p with connChan := rest }
          hrest hlt
        simp only at h1 h2 h4 h5
        refine ⟨closed, h1, ?_, h3, ?_, ?_⟩
        · rw [h2]; simp [List.countP_cons, ha]
        · intro c hc
          have hne : ¬ conn = c := fun h => hc (by rw [← h]; exact ha)
          rw [h4 c hc, List.count_cons]
          simp [hne]
        · simp only [List.length_cons]; omega
      | some a =>
        simp only [closeConn_delay]
        by_cases hxa : a = addr
        · simp only [hxa, if_true]
          have hm : (conn :: rest).countP (fun c => decide (c.addr = some addr))
              = rest.countP (fun c => decide (c.addr = some addr)) + 1 := by
            simp [List.countP_cons, ha, hxa]
          by_cases hcnt : removed + 1 ≥ count
          · simp only [hcnt, if_true]
            refine ⟨[conn], rfl, ?_, ?_, ?_, ?_⟩
            · rw [hm]; simp only [List.length_singleton, Nat.cast_one]; push_cast; omega
            · intro c hc
              rw [List.mem_singleton] at hc
              rw [hc, ha, hxa]
            · intro c _
              simp only [List.count_cons, List.count_nil]
              omega
            · simp only [List.length_cons]; omega
          · simp only [hcnt, if_false]
            obtain ⟨closed, h1, h2, h3, h4, h5⟩ := ih (removed + 1) left
              { p with connChan := rest, closedDelayed := p.closedDelayed ++ [conn] }
              hrest (by omega)
            simp only at h1 h2 h4 h5
            refine ⟨conn :: closed, by rw [h1]; simp, ?_, ?_, ?_, ?_⟩
            · rw [hm]; simp only [List.length_cons]; push_cast; omega
            · intro c hc
              rcases List.mem_cons.mp hc with h | h
              · rw [h, ha, hxa]
              · exact h3 c h
            · intro c hc
              have := h4 c hc
              simp only [List.count_cons]
              omega
            · simp only [List.length_cons]; omega
        · simp only [hxa, if_false]
          obtain ⟨closed, h1, h2, h3, h4, h5⟩ := ih removed (left ++ [conn])
            { p with connChan := rest } hrest hlt
          simp only at h1 h2 h4 h5
          refine ⟨closed, h1, ?_, h3, ?_, ?_⟩
          · rw [h2]
            have hne : ¬ (some a = some addr) := fun h => hxa (Option.some.inj h)
            simp [List.countP_cons, ha, hne]
          · intro c hc
            have := h4 c hc
            simp only [List.count_append, List.count_cons, List.count_nil] at this
            simp only [List.count_cons]
            omega
          · simp only [List.length_append, List.length_singleton] at h5
            simp only [List.length_cons]; omega

/-- C20. Surplus removal: for a pool within its capacity and `count >= 1`,
`removeEndpointConn(addr, count)` hands exactly `min(count, m)` connections
to the delayed close, all with remote address `addr`, where `m` is the
number of queued connections with that address; every other connection
whose remote address is present is still queued afterwards, as often as
before and not closed; the counts are unchanged for every address and
nothing is closed immediately. -/
theorem removeEndpointConn_spec (addr : String) (count : Int) (p : Pool)
    (hb : Bounded p) (hc : 1 ≤ count) :
    ∃ closed : List Conn,
      (removeEndpointConn addr count p).closedDelayed = p.closedDelayed ++ closed ∧
      (closed.length : Int) = min count
        ((p.connChan.countP (fun c => decide (c.addr = some addr)) : Nat) : Int) ∧
      (∀ c, c ∈ closed → c.addr = some addr) ∧
      (∀ c : Conn, c.addr ≠ none →
        (removeEndpointConn addr count p).connChan.count c + closed.count c
          = p.connChan.count c) ∧
      (removeEndpointConn addr count p).endpointConnCounts = p.endpointConnCounts ∧
      (removeEndpointConn addr count p).closedNow = p.closedNow := by
  obtain ⟨closed, h1, h2, h3, h4, h5⟩ := removeDrain_full addr count p.size 0 [] p hb (by omega)
  obtain ⟨r1, _⟩ := removeDrain_spec addr count p.size 0 [] p
  obtain ⟨a1, _⟩ := queue_frame_fields r1
  obtain ⟨f1, f2⟩ := refill_exact (removeDrain addr count p.size 0 [] p).1
    (removeDrain addr count p.size 0 [] p).2 (by
      rw [a1]
      simp only [List.length_nil, Nat.zero_add] at h5
      unfold Bounded at hb
      omega)
  have hdef : removeEndpointConn addr count p = refill (removeDrain addr count p.size 0 [] p).1
    (removeDrain addr count p.size 0 [] p).2 := rfl
  refine ⟨closed, ?_, ?_, h3, ?_, removeEndpointConn_counts addr count p,
    (evolves_removeEndpointConn addr count p).closedNow⟩
  · rw [hdef, f2, h1]
  · rw [h2]; simp
  · intro c hcp
    have := h4 c hcp
    rw [hdef, f1, List.count_append]
    simp only [List.count_nil, Nat.zero_add] at this
    omega

theorem removeEndpointConn_spec_witness :
    Bounded (mkPool [⟨1, some "a:1"⟩, ⟨2, some "b:1"⟩, ⟨3, some "a:1"⟩, ⟨4, some "a:1"⟩] 0 []
      [("a:1", 3), ("b:1", 1)]) ∧
    ∃ closed : List Conn,
      (removeEndpointConn "a:1" 2
        (mkPool [⟨1, some "a:1"⟩, ⟨2, some "b:1"⟩, ⟨3, some "a:1"⟩, ⟨4, some "a:1"⟩] 0 []
          [("a:1", 3), ("b:1", 1)])).closedDelayed =
        (mkPool [⟨1, some "a:1"⟩, ⟨2, some "b:1"⟩, ⟨3, some "a:1"⟩, ⟨4, some "a:1"⟩] 0 []
          [("a:1", 3), ("b:1", 1)]).closedDelayed ++ closed ∧
      (closed.length : Int) = 2 := by
  refine ⟨by unfold Bounded; decide, ?_⟩
  obtain ⟨closed, h1, h2, _⟩ := removeEndpointConn_spec "a:1" 2
    (mkPool [⟨1, some "a:1"⟩, ⟨2, some "b:1"⟩, ⟨3, some "a:1"⟩, ⟨4, some "a:1"⟩] 0 []
      [("a:1", 3), ("b:1", 1)]) (by unfold Bounded; decide) (by decide)
  exact ⟨closed, h1, by rw [h2]; decide⟩

/-! ## Drain and refill without overflow -/

theorem onConnClosed_filter (now : Int) (conn : Conn) (err : Option Err) (p : Pool)
    (hb : Bounded p) :
    (OnConnClosed now conn err p).connChan = p.connChan.filter
      (fun c => decide (c.id ≠ conn.id) && decide (c.addr ≠ none)) ∧
    (OnConnClosed now conn err p).closedDelayed = p.closedDelayed := by
  have hgen : ∀ q : Pool, q.connChan = p.connChan → q.size = p.size →
      q.closedDelayed = p.closedDelayed →
      (refill (closedDrain conn q.size [] q).1 (closedDrain conn q.size [] q).2).connChan
        = p.connChan.filter (fun c => decide (c.id ≠ conn.id) && decide (c.addr ≠ none)) ∧
      (refill (closedDrain conn q.size [] q).1 (closedDrain conn q.size [] q).2).closedDelayed
        = p.closedDelayed := by
    intro q hc hs hcd
    have hbq : Bounded q := by unfold Bounded; rw [hc, hs]; exact hb
    obtain ⟨o1, o2⟩ := onConnClosed_queue conn q hbq
    refine ⟨by rw [o1, hc], ?_⟩
    rw [o2]; exact hcd
  unfold OnConnClosed
  cases conn.addr with
  | none => exact hgen p rfl rfl rfl
  | some addr =>
    simp only
    cases err with
    | none =>
      obtain ⟨d1, d2, _, d4, _, _⟩ := dec_fields addr p
      exact hgen _ d1 d4 d2
    | some e =>
      obtain ⟨d1, d2, _, d4, _, _⟩ := dec_fields addr (markUnavailable now addr p)
      exact hgen _ d1 d4 d2

/-- C21. Drain and refill never overflow when nothing interleaves: for a
pool within its capacity, the drain loops of the deletion pass of
`UpdateEndpoints` and of `OnConnClosed` empty the queue completely, the
refill re-enqueues every survivor in the original order, and the
queue-full branch is never taken: the refill closes nothing, so after the
deletion pass only the connections to deleted endpoints are in the delayed
close, and `OnConnClosed` adds none. -/
theorem drain_refill_no_overflow (p : Pool) (all add del : List String) (now : Int)
    (conn : Conn) (err : Option Err) (hb : Bounded p) :
    ((updateDrain del p.size [] p).2.connChan = [] ∧
      (updateDrain del p.size [] p).1 = p.connChan.filter
        (fun c => match c.addr with
          | none => false
          | some a => decide (a ∉ del)) ∧
      (refill (updateDrain del p.size [] p).1 (updateDrain del p.size [] p).2).connChan
        = (updateDrain del p.size [] p).1 ∧
      (refill (updateDrain del p.size [] p).1 (updateDrain del p.size [] p).2).closedDelayed
        = (updateDrain del p.size [] p).2.closedDelayed) ∧
    (del ≠ [] →
      (updateRegistry all add del p).connChan = p.connChan.filter
        (fun c => match c.addr with
          | none => false
          | some a => decide (a ∉ del)) ∧
      List.Sublist (updateRegistry all add del p).connChan p.connChan ∧
      (updateRegistry all add del p).closedDelayed = p.closedDelayed ++ p.connChan.filter
        (fun c => match c.addr with
          | none => false
          | some a => decide (a ∈ del))) ∧
    ((closedDrain conn p.size [] p).2.connChan = [] ∧
      (closedDrain conn p.size [] p).1 = p.connChan.filter
        (fun c => decide (c.id ≠ conn.id) && decide (c.addr ≠ none)) ∧
      (refill (closedDrain conn p.size [] p).1 (closedDrain conn p.size [] p).2).connChan
        = (closedDrain conn p.size [] p).1 ∧
      (refill (closedDrain conn p.size [] p).1 (closedDrain conn p.size [] p).2).closedDelayed
        = (closedDrain conn p.size [] p).2.closedDelayed) ∧
    ((OnConnClosed now conn err p).connChan = p.connChan.filter
        (fun c => decide (c.id ≠ conn.id) && decide (c.addr ≠ none)) ∧
      List.Sublist (OnConnClosed now conn err p).connChan p.connChan ∧
      (OnConnClosed now conn err p).closedDelayed = p.closedDelayed) := by
  refine ⟨?_, ?_, ?_, ?_⟩
  · obtain ⟨u1, u2, _, _, _⟩ := updateDrain_full del p.size [] p hb
    obtain ⟨uf, _⟩ := updateDrain_frame del p.size [] p
    have usz : (updateDrain del p.size [] p).2.size = p.size := by rw [uf]
    simp only [List.nil_append] at u2
    obtain ⟨f1, f2⟩ := refill_exact (updateDrain del p.size [] p).1
      (updateDrain del p.size [] p).2 (by
        rw [u1, u2, usz]
        simp only [List.length_nil, Nat.zero_add]
        exact le_trans (List.length_filter_le _ _) hb)
    refine ⟨u1, u2, ?_, f2⟩
    rw [f1, u1, List.nil_append]
  · intro hdel
    obtain ⟨q1, q2, _, _⟩ := updateRegistry_drained all add del p hb hdel
    refine ⟨q1, ?_, q2⟩
    rw [q1]
    exact List.filter_sublist _
  · obtain ⟨c1, c2⟩ := closedDrain_full conn p.size [] p hb
    obtain ⟨cf, _⟩ := closedDrain_frame conn p.size [] p
    have csz : (closedDrain conn p.size [] p).2.size = p.size := by rw [cf]
    simp only [List.nil_append] at c2
    obtain ⟨f1, f2⟩ := refill_exact (closedDrain conn p.size [] p).1
      (closedDrain conn p.size [] p).2 (by
        rw [c1, c2, csz]
        simp only [List.length_nil, Nat.zero_add]
        exact le_trans (List.length_filter_le _ _) hb)
    refine ⟨c1, c2, ?_, f2⟩
    rw [f1, c1, List.nil_append]
  · obtain ⟨o1, o2⟩ := onConnClosed_filter now conn err p hb
    refine ⟨o1, ?_, o2⟩
    rw [o1]
    exact List.filter_sublist _

theorem drain_refill_no_overflow_witness :
    Bounded (mkPool [⟨1, some "a:1"⟩, ⟨2, some "b:1"⟩, ⟨3, none⟩, ⟨4, some "a:1"⟩] 0 []
      [("a:1", 2), ("b:1", 1)]) ∧
    (OnConnClosed 7 ⟨2, some "b:1"⟩ none
      (mkPool [⟨1, some "a:1"⟩, ⟨2, some "b:1"⟩, ⟨3, none⟩, ⟨4, some "a:1"⟩] 0 []
        [("a:1", 2), ("b:1", 1)])).closedDelayed =
      (mkPool [⟨1, some "a:1"⟩, ⟨2, some "b:1"⟩, ⟨3, none⟩, ⟨4, some "a:1"⟩] 0 []
        [("a:1", 2), ("b:1", 1)]).closedDelayed :=
  ⟨by unfold Bounded; decide,
    (drain_refill_no_overflow
      (mkPool [⟨1, some "a:1"⟩, ⟨2, some "b:1"⟩, ⟨3, none⟩, ⟨4, some "a:1"⟩] 0 []
        [("a:1", 2), ("b:1", 1)]) ["a:1"] [] ["b:1"] 7 ⟨2, some "b:1"⟩ none
      (by unfold Bounded; decide)).2.2.2.2.2⟩

end ConnPool
